import Mathlib

/-!
# Delayed-task dispatcher: a shallow embedding of the storage core

The Go sources embedded here are `pkg/trace/trace.go`,
`internal/service/storage/callback/{callback,fmt}.go`,
`internal/service/storage/{options,utils,storage}.go` and the parts of
`pkg/timingwheel/{timingwheel,scheduler}.go` that the storage core calls.

Conventions of the embedding.

* `time.Time` is an integer number of nanoseconds since the epoch and
  `time.Duration` an integer number of nanoseconds; the product
  `time.Duration(n) * time.Second` is taken in 64-bit two's complement, as Go does.
* A `*TaskEntity` is an index into `World.heap`; closures held by wheel timers
  keep that index, so two timers built from the same Go pointer share the object.
* The relational table is the list `World.rows`; every `UPDATE ... WHERE` is a
  map over that list guarded by the `WHERE` condition.
* Calls that leave the process (store statements, arming a wheel timer) consult
  `World.faults`: the head of that list tells whether the call fails.
* The answer of a network adapter is an input of the event that fires a timer.
* Log lines are not kept, but a log argument whose evaluation can panic
  (`GetDelayTime`) is evaluated where the source evaluates it.
-/

/-! ## Time -/

/-- Nanoseconds since the epoch (`time.Time`). -/
abbrev Time := Int

/-- Nanoseconds (`time.Duration`, an `int64`). -/
abbrev Duration := Int

/-- Two's-complement reduction of an integer to the `int64` range. -/
def wrapInt64 (x : Int) : Int := (x + 2 ^ 63) % 2 ^ 64 - 2 ^ 63

/-- Constant `math.MaxInt64`. -/
def MaxInt64 : Int := 2 ^ 63 - 1

/-- Constant `math.MinInt64`. -/
def MinInt64 : Int := -(2 ^ 63)

/-- Constant `time.Millisecond`. -/
def Millisecond : Duration := 1000000

/-- Constant `time.Second`. -/
def Second : Duration := 1000000000

/-- Constant `time.Minute`. -/
def Minute : Duration := 60 * Second

/-- Constant `time.Hour`. -/
def Hour : Duration := 60 * Minute

/-- Go expression `time.Duration(n) * unit` on `int64` operands. -/
def durationMul (n : Int) (unit : Duration) : Duration := wrapInt64 (n * unit)

/-- Method `Time.Sub`: the difference, saturated to the `Duration` range. -/
def timeSub (t u : Time) : Duration :=
  if t - u > MaxInt64 then MaxInt64 else if t - u < MinInt64 then MinInt64 else t - u

/-- Go slice indexing `xs[i]` with an `int` index; `none` is the run-time panic. -/
def sliceIndex {α : Type} (xs : List α) (i : Int) : Option α :=
  if i < 0 then none else xs[i.toNat]?

/-- Go `strings.ToUpper`: every rune goes through `unicode.ToUpper`, which maps
the ASCII letters itself and looks the other runes up in the case tables of the
Go library. Those tables are not part of the sources: `table` stands for them. -/
def toUpper (table : Char → Char) (s : String) : String :=
  String.mk (s.data.map fun c => if c.toNat < 128 then c.toUpper else table c)

/-- An `error` value or a run-time panic, with its text. -/
inductive Err where
  | error (msg : String)
  | panic (msg : String)
  deriving DecidableEq, Repr

/-! ## Package `trace` -/

namespace trace

/-- The value a `context.Context` binds to the key `trace_id`. -/
inductive Context where
  | background
  | withString (s : String)
  | withStrings (l : List String)
  deriving DecidableEq, Repr

/-- Function `trace.Get`. -/
def Get (ctx : Context) : String :=
  match ctx with
  | .withString s => s
  | .withStrings l => String.intercalate "," l
  | .background => ""

/-- Function `trace.Set`. -/
def Set (_ctx : Context) (traceId : String) : Context := .withString traceId

/-- Function `trace.Append`. -/
def Append (ctx : Context) (traceId : String) : Context :=
  if traceId.length = 0 then ctx
  else
    let current := Get ctx
    if current.length = 0 then Set ctx traceId
    else .withStrings [current, traceId]

end trace

/-! ## Package `callback` -/

namespace callback

/-- A scalar stored in a payload map. -/
inductive Scalar where
  | str (s : String)
  | int (n : Int)
  deriving DecidableEq, Repr

/-- A value of type `any` stored in `Payload.Data`. -/
inductive Any where
  | str (s : String)
  | int (n : Int)
  | map (kv : List (String × Scalar))
  deriving DecidableEq, Repr

/-- A Go `map[string]any`; `none` is the nil map. -/
abbrev Data := Option (List (String × Any))

/-- Map read `m[k]`, also defined on the nil map. -/
def Data.get (m : Data) (k : String) : Option Any :=
  match m with
  | none => none
  | some kv => kv.lookup k

/-- Map write `m[k] = v` on a non-nil map. -/
def mapSet (kv : List (String × Any)) (k : String) (v : Any) : List (String × Any) :=
  (k, v) :: kv.filter (fun e => e.1 != k)

/-- Struct `Payload`. -/
structure Payload where
  Schema : String
  Url : String
  Path : String
  Data : Data
  deriving DecidableEq, Repr

/-- The two results of `Request`: the response and the error text, if any. -/
structure Reply where
  resp : String
  err : Option String
  deriving DecidableEq, Repr

/-- Interface `ICallback`, reduced to `Request`. The first argument is what the
remote endpoint answers; an adapter that makes no remote call ignores it. The
context is given by the time of the call, its deadline and its trace value. -/
structure ICallback where
  Request : Reply → Time → Time → trace.Context → Payload → Reply

/-- Method `Fmt.Request`. -/
def Fmt.Request (_net : Reply) (_now _deadline : Time) (_ctx : trace.Context)
    (payload : Payload) : Reply :=
  match payload.Data.get "result" with
  | some (.str s) => { resp := s, err := none }
  | _ => { resp := "FAIL", err := none }

/-- Constructor `NewFmt`. -/
def NewFmt : ICallback := { Request := Fmt.Request }

/-- Methods `Http.Request` and `GRPC.Request`: the call runs under the context
(`http.NewRequestWithContext`, `cc.Invoke(ctx, ..)`), so once the deadline of the
context has passed it fails without reaching the endpoint, the cause of the
error being `context deadline exceeded` (the libraries wrap it in their own
error types); otherwise the answer comes from the network, and the response is
empty when there is an error. -/
def remote : ICallback :=
  { Request := fun net now deadline _ _ =>
      if deadline ≤ now then { resp := "", err := some "context deadline exceeded" }
      else
        match net.err with
        | some e => { resp := "", err := some e }
        | none => net }

/-- The adapter table after the `init` functions of the package have run. -/
def GetAdapter (name : String) : Option ICallback :=
  if name = "FMT" then some NewFmt
  else if name = "HTTPS" ∨ name = "HTTP" ∨ name = "GRPC" then some remote
  else none

end callback

/-! ## Package `storage`: `utils.go` -/

namespace storage

/-- Go `unicode.IsSpace`. -/
def isSpace (c : Char) : Bool :=
  c = ' ' || c = '\t' || c = '\n' || c = '\r' || c.toNat = 11 || c.toNat = 12 ||
  c.toNat = 0x85 || c.toNat = 0xA0 || c.toNat = 0x1680 ||
  (0x2000 ≤ c.toNat && c.toNat ≤ 0x200A) || c.toNat = 0x2028 || c.toNat = 0x2029 ||
  c.toNat = 0x202F || c.toNat = 0x205F || c.toNat = 0x3000

/-- Worker of `strings.Fields`: `cur` is the field being read, reversed. -/
def fieldsGo : List Char → List Char → List String
  | [], cur => if cur = [] then [] else [String.mk cur.reverse]
  | c :: cs, cur =>
    if isSpace c then
      if cur = [] then fieldsGo cs [] else String.mk cur.reverse :: fieldsGo cs []
    else fieldsGo cs (c :: cur)

/-- Go `strings.Fields`. -/
def Fields (s : String) : List String := fieldsGo s.data []

/-- Go `strings.HasPrefix`. -/
def HasPrefix (s p : String) : Bool := p.data.isPrefixOf s.data

/-- Go `strings.TrimPrefix`. -/
def TrimPrefix (s p : String) : String :=
  if HasPrefix s p then String.mk (s.data.drop p.data.length) else s

/-- Value of a string of decimal digits; `none` when a character is no digit. -/
def digitsValue : List Char → Nat → Option Nat
  | [], acc => some acc
  | c :: cs, acc =>
    if '0' ≤ c ∧ c ≤ '9' then digitsValue cs (acc * 10 + (c.toNat - '0'.toNat)) else none

/-- Constant `maxUint64` of package `strconv`, `1<<64 - 1`. -/
def maxUint64 : Nat := 18446744073709551615

/-- The loop of `strconv.ParseUint` in base 10 and 64 bits, `acc` being its `n`:
`none` is the syntax error, returned at the first character that is no digit; a
range error is returned at the digit that overflows, with the largest `uint64`
as value, whatever follows. -/
def parseUint : List Char → Nat → Option Nat
  | [], acc => some acc
  | c :: cs, acc =>
    if '0' ≤ c ∧ c ≤ '9' then
      if acc ≥ maxUint64 / 10 + 1 then some maxUint64
      else if acc * 10 + (c.toNat - '0'.toNat) > maxUint64 then some maxUint64
      else parseUint cs (acc * 10 + (c.toNat - '0'.toNat))
    else none

/-- The integer `strconv.Atoi` returns when its error is discarded: `0` on a
syntax error, the nearest `int64` bound on a range error. -/
def Atoi (s : String) : Int :=
  let (neg, ds) :=
    match s.data with
    | '-' :: r => (true, r)
    | '+' :: r => (false, r)
    | r => (false, r)
  if ds = [] then 0
  else
    match parseUint ds 0 with
    | none => 0
    | some v =>
      if neg then (if (v : Int) > 2 ^ 63 then MinInt64 else -(v : Int))
      else (if (v : Int) ≥ 2 ^ 63 then MaxInt64 else (v : Int))

/-- Function `CronToDuration`; the pair is Go's `(time.Duration, error)`. -/
def CronToDuration (expr : String) : Duration × Option String :=
  match Fields expr with
  | [sec, min, hour, day, _month, _week] =>
    if HasPrefix sec "*/" then
      (durationMul (Atoi (TrimPrefix sec "*/")) Second, none)
    else if HasPrefix min "*/" then
      (durationMul (Atoi (TrimPrefix min "*/")) Minute, none)
    else if HasPrefix hour "*/" then
      (durationMul (Atoi (TrimPrefix hour "*/")) Hour, none)
    else if HasPrefix day "*/" then
      (durationMul (wrapInt64 (Atoi (TrimPrefix day "*/") * 24)) Hour, none)
    else (0, some "unsupported cron interval expression")
  | _ => (0, some "unsupported cron format: must have 6 fields (sec min hour day month week)")

/-! ## Package `storage`: data model -/

/-- Struct `FailMsg`. -/
structure FailMsg where
  Resp : String
  Err : String
  deriving DecidableEq, Repr

/-- Struct `Extra`. -/
structure Extra where
  TraceId : String
  deriving DecidableEq, Repr

/-- Struct `TaskEntity`; it is also the shape of a row of `task_queue`.
`FailMsgs` is the pointed-to slice, the nil pointer being the empty list. -/
structure TaskEntity where
  Id : Int
  TaskNo : Int
  Payload : Option callback.Payload
  DelayTime : Int
  Timeout : Int
  Backoff : List Int
  CronExpr : String
  Status : Int
  NextRunAt : Time
  RunTimeoutAt : Time
  FailCount : Int
  LastRetryAt : Option Time
  LockedBy : Int
  FailMsgs : List FailMsg
  Extra : Option Extra
  CreatedAt : Time
  UpdatedAt : Time
  deriving DecidableEq, Repr

/-- Method `TaskEntity.TraceId`. -/
def TaskEntity.TraceId (t : TaskEntity) : String :=
  match t.Extra with
  | none => ""
  | some e => e.TraceId

/-- Method `TaskEntity.WithFailMsg`. -/
def TaskEntity.WithFailMsg (t : TaskEntity) (fm : FailMsg) : TaskEntity :=
  { t with FailMsgs := t.FailMsgs ++ [fm] }

/-- Struct `Config`, the fields the storage core reads. -/
structure Config where
  Tick : Duration
  WheelSize : Int
  Node : Int
  PendingLimit : Int
  PendingInterval : Duration
  AdvancePendingTime : Duration
  FastPathTime : Duration
  deriving DecidableEq, Repr

/-- Struct `options`. -/
structure options where
  delayTime : Int
  timeout : Int
  backoff : List Int
  cron : String
  payload : Option callback.Payload
  deriving DecidableEq, Repr

/-- Type `Option` of the Go package: a function that edits `options`. -/
abbrev Opt := options → options

/-- Function `WithDelayTime`. -/
def WithDelayTime (d : Int) : Opt := fun o => { o with delayTime := d }

/-- Function `WithTimeout`. -/
def WithTimeout (timeout : Int) : Opt := fun o => { o with timeout := timeout }

/-- Function `WithBackoff`. -/
def WithBackoff (b : List Int) : Opt := fun o => { o with backoff := b }

/-- Function `WithCron`. -/
def WithCron (cron : String) : Opt := fun o => { o with cron := cron }

/-- Function `WithPayload`. -/
def WithPayload (payload : Option callback.Payload) : Opt := fun o => { o with payload := payload }

end storage

/-! ## Package `storage`: the world the core runs in -/

namespace storage

/-- The function value held by a wheel timer. -/
inductive Closure where
  /-- The closure `Submit` hands to `AfterFunc`: `Execute(ctx, task)`. -/
  | after (ctx : trace.Context) (task : Nat)
  /-- The closure `Submit` hands to `ScheduleFunc`: `Execute(ctx, task)`. -/
  | cron (ctx : trace.Context) (task : Nat)
  /-- The pending sweeper `Start` hands to `ScheduleFunc`. -/
  | pending
  deriving DecidableEq, Repr

/-- A timer of the wheel: `every` is the interval of an `EveryScheduler`, absent
for a one-shot timer. -/
structure Timer where
  expiration : Time
  every : Option Duration
  f : Closure
  deriving DecidableEq, Repr

/-- One call of an adapter's `Request`, as the adapter sees it. -/
structure Request where
  TaskNo : Int
  traceId : String
  deadline : Time
  payload : callback.Payload
  deriving DecidableEq, Repr

/-- Everything the core reads and writes. -/
structure World where
  /-- What `time.Now()` returns. -/
  now : Time
  /-- Outcomes of the coming out-of-process calls: `true` is a failure. -/
  faults : List Bool
  /-- Table `task_queue`. -/
  rows : List TaskEntity
  /-- The `TaskEntity` objects reachable through pointers. -/
  heap : List TaskEntity
  /-- Timers armed in the wheel. -/
  timers : List Timer
  /-- Adapter calls made so far, oldest first. -/
  requests : List Request
  /-- Errors given to `collect`, and panics recovered at a closure boundary. -/
  ch : List Err
  /-- Field `Storage.ns`. -/
  ns : List Int
  deriving DecidableEq, Repr

/-- The fields of `Storage` that never change after `New`. -/
structure Storage where
  cfg : Config
  adapter : String → Option callback.ICallback
  /-- Function `unicode.ToUpper` on the runes above ASCII, for `strings.ToUpper`. -/
  upper : Char → Char

/-- Whether the next out-of-process call fails. -/
def World.failed (w : World) : Bool := w.faults.headD false

/-- The world once that call has been made. -/
def World.next (w : World) : World := { w with faults := w.faults.tail }

/-- Method `Storage.collect`. -/
def collect (w : World) (err : Err) : World := { w with ch := w.ch ++ [err] }

/-- Wheel method `addOrRun`: the timer joins the wheel unless the worker pool
refuses it. -/
def World.arm (w : World) (t : Timer) : World × Option Err :=
  if w.failed then (w.next, some (.error "pool submit"))
  else ({ w.next with timers := w.timers ++ [t] }, none)

/-- Go's `if err != nil { return err }` between two steps of a method. -/
def orReturn (r : World × Option Err) (k : World → World × Option Err) : World × Option Err :=
  match r with
  | (w, some e) => (w, some e)
  | (w, none) => k w

/-- A call of `db.Exec` with an `UPDATE`: `rows` is the table after the statement. -/
def execUpdate (w : World) (rows : List TaskEntity) : World × Option Err :=
  if w.failed then (w.next, some (.error "exec"))
  else ({ w.next with rows := rows }, none)

/-- Methods `Storage.AfterFunc` and `TimingWheel.AfterFunc`. -/
def AfterFunc (w : World) (td : Duration) (f : Closure) : World × Option Err :=
  w.arm { expiration := w.now + td, every := none, f := f }

/-- Method `TimingWheel.ScheduleFunc` with an `EveryScheduler`. -/
def ScheduleFunc (w : World) (interval : Duration) (f : Closure) : World × Option Err :=
  w.arm { expiration := w.now + interval, every := some interval, f := f }

/-- The loop of `SetNodes`: `fuel` is `len(ns) - i`, `dns` the stored range. -/
def setNodesLoop (node : Int) (ns dns : List Int) : Nat → Nat → Option (List Int)
  | 0, _ => some dns
  | fuel + 1, i =>
    match ns[i]? with
    | none => some dns
    | some x =>
      if x ≥ node then
        let hi := if (i : Int) = (ns.length : Int) - 1 then MaxInt64 else x
        match sliceIndex ns ((i : Int) - 1) with
        | none => none
        | some lo => some [lo, hi]
      else setNodesLoop node ns dns fuel (i + 1)

/-- Method `Storage.SetNodes`: the new value of `d.ns`, `none` when the method
panics on an index out of range. `node` is `d.cfg.Node`, `dns` the old `d.ns`. -/
def SetNodes (node : Int) (dns ns : List Int) : Option (List Int) :=
  let ns1 := if ns.length = 0 then [node] else ns
  let ns2 := (-1 : Int) :: ns1
  setNodesLoop node ns2 dns ns2.length 0

/-- Method `Storage.GetDelayTime`; `none` is the index panic. -/
def GetDelayTime (task : TaskEntity) : Option Int :=
  if task.FailCount > 0 then sliceIndex task.Backoff (task.FailCount - 1)
  else some task.DelayTime

/-- Statement `UPDATE ... SET status=2 ... WHERE task_no=? AND status=1` of `Success`. -/
def updateSucceeded (rows : List TaskEntity) (t : TaskEntity) (now : Time) : List TaskEntity :=
  rows.map fun r =>
    if r.TaskNo = t.TaskNo ∧ r.Status = 1 then { r with Status := 2, UpdatedAt := now } else r

/-- Method `Storage.Success`. -/
def Success (w : World) (_ctx : trace.Context) (task : Nat) : World × Option Err :=
  match w.heap[task]? with
  | none => (w, some (.panic "nil pointer dereference"))
  | some t =>
    match GetDelayTime t with
    | none => (w, some (.panic "index out of range"))
    | some _ => execUpdate w (updateSucceeded w.rows t w.now)

/-- Statement `UPDATE ... SET status=0 ... WHERE task_no=? AND status=1` of `Failure`. -/
def updateRetry (rows : List TaskEntity) (t : TaskEntity) (now : Time) : List TaskEntity :=
  rows.map fun r =>
    if r.TaskNo = t.TaskNo ∧ r.Status = 1 then
      { r with Status := 0, FailCount := t.FailCount, FailMsgs := t.FailMsgs,
               NextRunAt := t.NextRunAt, RunTimeoutAt := t.RunTimeoutAt,
               LastRetryAt := some now, UpdatedAt := now }
    else r

/-- Statement `UPDATE ... SET status=3 ... WHERE task_no=?` of `Failure`. -/
def updateFailed (rows : List TaskEntity) (t : TaskEntity) (now : Time) : List TaskEntity :=
  rows.map fun r =>
    if r.TaskNo = t.TaskNo then
      { r with Status := 3, FailMsgs := t.FailMsgs, UpdatedAt := now }
    else r

/-- Statement `UPDATE ... SET status=1 ... WHERE task_no=? AND status=?` of `Submit`. -/
def updateRunning (rows : List TaskEntity) (t : TaskEntity) (lastRetryAt : Option Time)
    (now : Time) (status : Int) : List TaskEntity :=
  rows.map fun r =>
    if r.TaskNo = t.TaskNo ∧ r.Status = status then
      { r with Status := 1, FailCount := t.FailCount, FailMsgs := t.FailMsgs,
               NextRunAt := t.NextRunAt, RunTimeoutAt := t.RunTimeoutAt,
               LastRetryAt := lastRetryAt, UpdatedAt := now }
    else r

/-- Bound on the depth of the calls `Failure` -> `Submit` -> `Failure`. -/
def callDepth : Nat := 3

/-- The last block of `Failure` (retries exhausted): the statement
`UPDATE ... SET status=3 ... WHERE task_no=?`. -/
def markFailed (w : World) (t : TaskEntity) : World × Option Err :=
  execUpdate w (updateFailed w.rows t w.now)

/-- The slow retry of `Failure`: the statement
`UPDATE ... SET status=0 ... WHERE task_no=? AND status=1`. -/
def writeBackPending (w : World) (t : TaskEntity) : World × Option Err :=
  execUpdate w (updateRetry w.rows t w.now)

/-- The body of `Submit` after its first guard: the `UPDATE` when `status > -1`,
then the one-shot timer when `DelayTime != 0`, then the cron timer when
`CronExpr` is not empty. `task` is the pointer, `t` the object it points to. -/
def submitBody (w : World) (ctx : trace.Context) (task : Nat) (t : TaskEntity)
    (status : Int) : World × Option Err :=
  let now := w.now
  orReturn
    (if status > -1 then
      execUpdate w (updateRunning w.rows t (if t.FailCount = 0 then none else some now) now status)
    else (w, none)) fun w1 =>
  match GetDelayTime t with
  | none => (w1, some (.panic "index out of range"))
  | some _ =>
    orReturn
      (if t.DelayTime ≠ 0 then AfterFunc w1 (timeSub t.NextRunAt now) (.after ctx task)
       else (w1, none)) fun w2 =>
    if t.CronExpr ≠ "" then
      match CronToDuration t.CronExpr with
      | (_, some e) => (w2, some (.error e))
      | (duration, none) => ScheduleFunc w2 duration (.cron ctx task)
    else (w2, none)

/-- The assignments of the retry branch of `Failure`: the next delay `delay` =
`Backoff[FailCount]`, the next run time, its deadline and the retry time. -/
def retryFields (t : TaskEntity) (delay : Int) (now : Time) : TaskEntity :=
  { t with DelayTime := delay, NextRunAt := now + durationMul delay Second,
           RunTimeoutAt := now + durationMul delay Second + durationMul t.Timeout Second,
           LastRetryAt := some now }

mutual
/-- Method `Storage.Failure`; the first numeric argument bounds the call depth. -/
def Failure (d : Storage) : Nat → World → trace.Context → Nat → World × Option Err
  | 0, w, _, _ => (w, some (.panic "call depth"))
  | fuel + 1, w, ctx, task =>
    match w.heap[task]? with
    | none => (w, some (.panic "nil pointer dereference"))
    | some t =>
      match GetDelayTime t with
      | none => (w, some (.panic "index out of range"))
      | some _ =>
        if t.FailCount < (t.Backoff.length : Int) then
          match sliceIndex t.Backoff t.FailCount with
          | none => (w, some (.panic "index out of range"))
          | some delay =>
            let t1 := retryFields t delay w.now
            if durationMul t1.DelayTime Second ≤ d.cfg.FastPathTime then
              let t2 : TaskEntity := { t1 with FailCount := t1.FailCount + 1 }
              Submit d fuel { w with heap := w.heap.set task t2 } ctx task 1
            else
              writeBackPending { w with heap := w.heap.set task t1 } t1
        else markFailed w t
/-- Method `Storage.Submit`; the first numeric argument bounds the call depth. -/
def Submit (d : Storage) : Nat → World → trace.Context → Nat → Int → World × Option Err
  | 0, w, _, _, _ => (w, some (.panic "call depth"))
  | fuel + 1, w, ctx, task, status =>
    match w.heap[task]? with
    | none => (w, some (.panic "nil pointer dereference"))
    | some t =>
      if t.FailCount ≥ (t.Backoff.length : Int) then Failure d fuel w ctx task
      else submitBody w ctx task t status
end

/-- The correlation record of `Execute`: `payload.Data["original"] = {msg_no,
trace_id}`, a nil map being replaced by a fresh one first. -/
def injectOriginal (p : callback.Payload) (taskNo : Int) (traceId : String) : callback.Payload :=
  let data := match p.Data with
    | none => []
    | some kv => kv
  { p with Data := some (callback.mapSet data "original"
      (.map [("msg_no", .int taskNo), ("trace_id", .str traceId)])) }

/-- The fail message `Execute` builds from what `Request` returned. -/
def failMsgOf (reply : callback.Reply) : FailMsg :=
  { Resp := reply.resp,
    Err := match reply.err with
      | some e => e
      | none => "" }

/-- The world once `Execute` has called `Request` for the object `t` behind `task`:
the payload carries the correlation record and the call is on record. -/
def afterRequest (w : World) (ctx : trace.Context) (task : Nat) (t : TaskEntity)
    (p1 : callback.Payload) : World :=
  { w with heap := w.heap.set task { t with Payload := some p1 },
           requests := w.requests ++
             [{ TaskNo := t.TaskNo, traceId := trace.Get (trace.Set .background (trace.Get ctx)),
                deadline := t.RunTimeoutAt, payload := p1 }] }

/-- Method `Storage.Execute`; `net` is what the remote endpoint would answer. -/
def Execute (d : Storage) (w : World) (net : callback.Reply) (ctx : trace.Context)
    (task : Nat) : World × Option Err :=
  match w.heap[task]? with
  | none => (w, some (.panic "nil pointer dereference"))
  | some t =>
    match GetDelayTime t with
    | none => (w, some (.panic "index out of range"))
    | some _ =>
      let rCtx := trace.Set .background (trace.Get ctx)
      match t.Payload with
      | none => (w, some (.panic "nil pointer dereference"))
      | some p =>
        match d.adapter (toUpper d.upper p.Schema) with
        | none =>
          let t1 := t.WithFailMsg
            { Resp := "", Err := "adapter not found for schema " ++ p.Schema }
          Failure d callDepth { w with heap := w.heap.set task t1 } ctx task
        | some adapter =>
          let p1 := injectOriginal p t.TaskNo (trace.Get ctx)
          let reply := adapter.Request net w.now t.RunTimeoutAt rCtx p1
          let w1 := afterRequest w ctx task t p1
          if reply.err = none ∧ reply.resp = "SUCCESS" then Success w1 ctx task
          else
            let t2 := ({ t with Payload := some p1 } : TaskEntity).WithFailMsg (failMsgOf reply)
            Failure d callDepth { w1 with heap := w1.heap.set task t2 } ctx task

/-- Defaults of `Add`: the `options` value before the option functions run. -/
def defaultOptions : options :=
  { delayTime := 5, timeout := 3, backoff := [5, 10, 30], cron := "",
    payload := some { Schema := "fmt", Url := "", Path := "", Data := none } }

/-- Statement `INSERT INTO task_queue`: `fail_msgs` and `last_retry_at` are not
among the inserted columns, `id` is assigned by the table. Modelled from the
spec: the unique index on `task_no` (the table definition is not in the sources),
so a second row with the same `task_no` is refused. -/
def insertRow (w : World) (t : TaskEntity) : World × Option Err :=
  if w.failed then (w.next, some (.error "exec"))
  else if w.rows.any (fun r => r.TaskNo == t.TaskNo) then
    (w.next, some (.error "duplicate entry for key task_no"))
  else
    ({ w.next with rows := w.rows ++
        [{ t with Id := (w.rows.length : Int) + 1, FailMsgs := [], LastRetryAt := none }] },
      none)

/-- The first lines of `Add`: the defaults, then each option function in turn. -/
def applyOptions (opts : List Opt) : options := opts.foldl (fun o opt => opt o) defaultOptions

/-- The `TaskEntity` that `Add` builds before the `INSERT`: the literal of the
source, then the fast-path adjustment of `status` and `fail_count`. -/
def newTaskEntity (d : Storage) (now : Time) (ctx : trace.Context) (o : options)
    (taskNo : Int) : TaskEntity :=
  let nextRun := now + durationMul o.delayTime Second
  let runTimeout := nextRun + durationMul o.timeout Second
  let task : TaskEntity :=
    { Id := 0, TaskNo := taskNo, Payload := o.payload, DelayTime := o.delayTime,
      Timeout := o.timeout, Backoff := o.backoff, CronExpr := o.cron, Status := 0,
      NextRunAt := nextRun, RunTimeoutAt := runTimeout, FailCount := -1,
      LastRetryAt := none, LockedBy := d.cfg.Node, FailMsgs := [],
      Extra := some { TraceId := trace.Get ctx }, CreatedAt := now, UpdatedAt := now }
  if durationMul o.delayTime Second ≤ d.cfg.FastPathTime then
    { task with Status := 1, FailCount := 0 }
  else task

/-- Method `Storage.Add`; `taskNo` is what the snowflake generator returns. The
result is the world and Go's `(int64, error)`. -/
def Add (d : Storage) (w : World) (ctx : trace.Context) (opts : List Opt) (taskNo : Int) :
    World × Int × Option Err :=
  let o := applyOptions opts
  let task := newTaskEntity d w.now ctx o taskNo
  let ins := insertRow { w with heap := w.heap ++ [task] } task
  if ins.2.isSome then (ins.1, 0, ins.2)
  else if durationMul o.delayTime Second ≤ d.cfg.FastPathTime then
    let sub := Submit d callDepth ins.1 (trace.Set .background (trace.Get ctx)) w.heap.length (-1)
    if sub.2.isSome then (sub.1, 0, sub.2) else (sub.1, task.TaskNo, none)
  else (ins.1, task.TaskNo, none)

/-- Method `Storage.FetchPendingTasks`: the records scanned from the selected
rows. A limit below zero, which the store rejects, selects nothing. -/
def FetchPendingTasks (w : World) (maxCount : Int) (t : Duration) :
    World × List TaskEntity × Option Err :=
  let now := w.now + t
  match sliceIndex w.ns 0, sliceIndex w.ns 1 with
  | some lo, some hi =>
    if w.failed then (w.next, [], some (.error "select"))
    else
      (w.next,
        ((w.rows.filter fun r =>
          r.Status = 0 ∧ r.NextRunAt ≤ now ∧ r.LockedBy > lo ∧ r.LockedBy ≤ hi).insertionSort
            (fun a b => a.NextRunAt ≤ b.NextRunAt)).take maxCount.toNat,
        none)
  | _, _ => (w, [], some (.panic "index out of range"))

/-- The `for` loop of the pending sweeper over the scanned records. The object of
a record is placed on the heap when the loop reaches it (no other code holds a
pointer to it before). An error of `Submit` is collected and the loop goes on; a
panic leaves the loop. -/
def pendingLoop (d : Storage) (ctx : trace.Context) : List TaskEntity → World → World × Option Err
  | [], w => (w, none)
  | t :: rest, w =>
    let task := w.heap.length
    let w1 : World := { w with heap := w.heap ++ [{ t with FailCount := t.FailCount + 1 }] }
    match Submit d callDepth w1 (trace.Append ctx t.TraceId) task 0 with
    | (w2, some (.panic m)) => (w2, some (.panic m))
    | (w2, some (.error m)) =>
      pendingLoop d ctx rest (collect w2 (.error ("execute task: " ++ m)))
    | (w2, none) => pendingLoop d ctx rest w2

/-- The pending sweeper, the closure `Start` schedules; `uuid` is what
`trace.GenerateTraceID` returns. -/
def pendingSweep (d : Storage) (w : World) (uuid : String) : World × Option Err :=
  let ctx := trace.Append .background uuid
  match FetchPendingTasks w d.cfg.PendingLimit d.cfg.AdvancePendingTime with
  | (w1, _, some (.panic m)) => (w1, some (.panic m))
  | (w1, _, some (.error m)) => (collect w1 (.error ("fetch pending tasks: " ++ m)), none)
  | (w1, tasks, none) => pendingLoop d ctx tasks w1

/-- Running the function of a timer. An error of `Execute` is collected; a panic
is recovered at the closure boundary and kept in `ch` as well. -/
def runClosure (d : Storage) (w : World) (uuid : String) (net : callback.Reply) :
    Closure → World
  | .after ctx task =>
    match Execute d w net ctx task with
    | (w1, some (.error m)) => collect w1 (.error ("execute after task: " ++ m))
    | (w1, some (.panic m)) => collect w1 (.panic m)
    | (w1, none) => w1
  | .cron ctx task =>
    match Execute d w net ctx task with
    | (w1, some (.error m)) => collect w1 (.error ("execute schedule task: " ++ m))
    | (w1, some (.panic m)) => collect w1 (.panic m)
    | (w1, none) => w1
  | .pending =>
    match pendingSweep d w uuid with
    | (w1, some e) => collect w1 e
    | (w1, none) => w1

/-- Modelled from the spec: helper `timeToMs` of package `timingwheel`, which is
not in the sources; the wheel counts in whole milliseconds. -/
def timeToMs (t : Time) : Int := Int.tdiv t Millisecond

/-- Whether the wheel can run a timer with expiration `e` at time `now`. Method
`add` puts the timer in the bucket whose expiration is `(e / tick) * tick`, in
milliseconds, or reports it expired when `e < currentTime + tick`; the poll loop
flushes a bucket once its expiration has come. So the timer can run from the
start of the tick that holds `e`. -/
def due (d : Storage) (now e : Time) : Bool :=
  decide (Int.tdiv (timeToMs e) (Int.tdiv d.cfg.Tick Millisecond) *
    Int.tdiv d.cfg.Tick Millisecond ≤ timeToMs now)

/-- The wheel fires timer `i` if it is due. A timer of `ScheduleFunc` first arms
itself again one interval after its expiration, which the wheel holds in whole
milliseconds (the result of that `addOrRun` is dropped), then runs its
function. -/
def fire (d : Storage) (w : World) (i : Nat) (uuid : String) (net : callback.Reply) : World :=
  match w.timers[i]? with
  | none => w
  | some t =>
    if due d w.now t.expiration then
      let w1 : World := { w with timers := w.timers.eraseIdx i }
      let w2 : World :=
        match t.every with
        | none => w1
        | some interval =>
          (w1.arm { t with expiration := timeToMs t.expiration * Millisecond + interval }).1
      runClosure d w2 uuid net t.f
    else w

/-- What can happen to a running node. -/
inductive Event where
  /-- A call of `Add`; `faults` scripts the out-of-process calls it makes. -/
  | add (ctx : trace.Context) (opts : List Opt) (taskNo : Int) (faults : List Bool)
  /-- Time passes. -/
  | advance (dt : Nat)
  /-- The wheel fires a timer. -/
  | fire (i : Nat) (uuid : String) (net : callback.Reply) (faults : List Bool)
  /-- The membership observer calls `SetNodes`. -/
  | setNodes (ns : List Int)

/-- One event. A panic of `SetNodes` is recovered by its caller. -/
def step (d : Storage) (w : World) : Event → World
  | .add ctx opts taskNo faults => (Add d { w with faults := faults } ctx opts taskNo).1
  | .advance dt => { w with now := w.now + (dt : Int) }
  | .fire i uuid net faults => fire d { w with faults := faults } i uuid net
  | .setNodes ns =>
    match SetNodes d.cfg.Node w.ns ns with
    | some ns1 => { w with ns := ns1 }
    | none => w

/-- A sequence of events, oldest first. -/
def run (d : Storage) (w : World) (events : List Event) : World := events.foldl (step d) w

/-- The world before `New`: an empty table, no objects, no timers. -/
def emptyWorld (now : Time) : World :=
  { now := now, faults := [], rows := [], heap := [], timers := [], requests := [],
    ch := [], ns := [] }

/-- Function `storage.New` followed by `Storage.Start`, on an empty table.
`timingwheel.New` panics on a tick below one millisecond, the snowflake node
accepts the ordinals 0 to 1023, `New` ends with `SetNodes([cfg.Node])` and
`Start` schedules the pending sweeper. `none` when one of them fails. -/
def boot (d : Storage) (now : Time) : Option World :=
  if Int.tdiv d.cfg.Tick Millisecond ≤ 0 then none
  else if d.cfg.Node < 0 ∨ d.cfg.Node > 1023 then none
  else
    match SetNodes d.cfg.Node [] [d.cfg.Node] with
    | none => none
    | some ns =>
      match ScheduleFunc { emptyWorld now with ns := ns } d.cfg.PendingInterval .pending with
      | (_, some _) => none
      | (w, none) => some w

end storage

/-! ## Definitions used to state the properties -/

namespace storage

/-- The walk of `SetNodes` told on the list itself: `prev` is the element just
before `rest`; the result is the pair `(ns[0], ns[1])` when an element reaches
`node`, and `none` when the walk ends without a match. -/
def rangeOf (node : Int) : Int → List Int → Option (Int × Int)
  | _, [] => none
  | prev, x :: xs =>
    if x ≥ node then some (prev, if xs = [] then MaxInt64 else x) else rangeOf node x xs

/-- The node-range resolver as the specification words it: prepend the sentinel
`-1`, find the first index `i` whose element reaches `self`, take the elements at
`i - 1` and `i`, the upper one replaced by the largest 64-bit integer when `i` is
the last index. -/
def specRange (self : Int) (L : List Int) : Option (Int × Int) :=
  let L1 := (-1 : Int) :: L
  let i := L1.findIdx (fun x => decide (x ≥ self))
  match L1[i - 1]?, L1[i]? with
  | some lo, some x => some (lo, if i = L1.length - 1 then MaxInt64 else x)
  | _, _ => none

/-- The range test of `FetchPendingTasks`, `locked_by > ns[0] AND locked_by <= ns[1]`,
on a stored range `ns` and a `locked_by` value `k`. -/
def sweeps (ns : List Int) (k : Int) : Bool :=
  match sliceIndex ns 0, sliceIndex ns 1 with
  | some lo, some hi => decide (lo < k ∧ k ≤ hi)
  | _, _ => false

/-- Node `n`, whose stored range was `dns`, sweeps the rows locked by `k` once it
has called `SetNodes(L)`. -/
def owns (n : Int) (dns L : List Int) (k : Int) : Prop :=
  ∃ ns, SetNodes n dns L = some ns ∧ sweeps ns k = true

/-! ## The retry invariant -/

/-- The object the function of a timer works on. -/
def Timer.obj (heap : List TaskEntity) (x : Timer) : Option TaskEntity :=
  match x.f with
  | .after _ p => heap[p]?
  | .cron _ p => heap[p]?
  | .pending => none

/-- Timer `x` will call `Execute` for the task numbered `T`. -/
def Timer.isFor (heap : List TaskEntity) (T : Int) (x : Timer) : Bool :=
  match x.obj heap with
  | some o => o.TaskNo == T
  | none => false

/-- The timers armed for the task numbered `T`. -/
def timersFor (w : World) (T : Int) : List Timer := w.timers.filter (Timer.isFor w.heap T)

/-- How many times an adapter's `Request` has been called for the task `T`. -/
def attempts (w : World) (T : Int) : Nat := (w.requests.filter (fun q => q.TaskNo == T)).length

/-- The status is one of PENDING, RUNNING, SUCCEEDED, FAILED. -/
def validStatus (r : TaskEntity) : Prop :=
  r.Status = 0 ∨ r.Status = 1 ∨ r.Status = 2 ∨ r.Status = 3

/-- A task whose delays are all non-zero and whose payload is present. -/
def Clean (r : TaskEntity) : Prop :=
  r.DelayTime ≠ 0 ∧ (∀ b ∈ r.Backoff, b ≠ 0) ∧ r.Payload.isSome = true

/-- No coming out-of-process call is scripted to fail. -/
def NoFault (faults : List Bool) : Prop := ∀ b ∈ faults, b = false

/-- An event whose out-of-process calls all succeed. -/
def Event.faultFree : Event → Prop
  | .add _ _ _ faults => NoFault faults
  | .advance _ => True
  | .fire _ _ _ faults => NoFault faults
  | .setNodes _ => True

/-- What holds of the row `r` of a task without cron expression. `nf` stands for
"no out-of-process call has failed so far". -/
structure TaskInv (nf : Prop) (w : World) (r : TaskEntity) : Prop where
  status : validStatus r
  one : (timersFor w r.TaskNo).length ≤ 1
  timer : ∀ x ∈ w.timers, ∀ o, x.obj w.heap = some o → o.TaskNo = r.TaskNo →
    x.every = none ∧ r.Status = 1 ∧ 0 ≤ o.FailCount ∧
    o.FailCount < (r.Backoff.length : Int) ∧ (attempts w r.TaskNo : Int) ≤ o.FailCount ∧
    (Clean r → o.Payload.isSome = true)
  pending : r.Status = 0 →
    -1 ≤ r.FailCount ∧ r.FailCount < (r.Backoff.length : Int) ∧
    (attempts w r.TaskNo : Int) ≤ r.FailCount + 1
  bound : attempts w r.TaskNo ≤ r.Backoff.length
  live : nf → Clean r → r.Status = 1 → timersFor w r.TaskNo ≠ []

/-- The invariant of the runs of a node. -/
structure Inv (nf : Prop) (w : World) : Prop where
  nodup : (w.rows.map (fun r => r.TaskNo)).Nodup
  objs : ∀ x ∈ w.timers, x.f = .pending ∨
    ∃ o, x.obj w.heap = some o ∧
      ∃ r ∈ w.rows, r.TaskNo = o.TaskNo ∧ r.Backoff = o.Backoff ∧ r.CronExpr = o.CronExpr
  reqs : ∀ q ∈ w.requests, ∃ r ∈ w.rows, r.TaskNo = q.TaskNo
  task : ∀ r ∈ w.rows, r.CronExpr = "" → TaskInv nf w r

/-- The columns of a row that no statement writes after the `INSERT`. -/
def RowStatic (r r1 : TaskEntity) : Prop :=
  r1.Id = r.Id ∧ r1.TaskNo = r.TaskNo ∧ r1.Payload = r.Payload ∧ r1.DelayTime = r.DelayTime ∧
  r1.Timeout = r.Timeout ∧ r1.Backoff = r.Backoff ∧ r1.CronExpr = r.CronExpr ∧
  r1.LockedBy = r.LockedBy ∧ r1.Extra = r.Extra ∧ r1.CreatedAt = r.CreatedAt

/-- The fields of an object that the core never assigns. -/
def ObjStatic (o o1 : TaskEntity) : Prop :=
  o1.TaskNo = o.TaskNo ∧ o1.Backoff = o.Backoff ∧ o1.CronExpr = o.CronExpr ∧
  o1.LockedBy = o.LockedBy ∧ (o.Payload.isSome = true → o1.Payload.isSome = true)

/-- What an operation on the object behind pointer `p`, whose task number is `T`,
can change: rows of `T` (never their static columns), the object itself (never
its static fields), and it can append timers on `p` and requests of `T`. -/
structure Eff (T : Int) (p : Nat) (w w1 : World) : Prop where
  now : w1.now = w.now
  ns : w1.ns = w.ns
  rows : ∃ f : TaskEntity → TaskEntity, w1.rows = w.rows.map f ∧
    ∀ r, RowStatic r (f r) ∧ (r.TaskNo ≠ T → f r = r) ∧ (validStatus r → validStatus (f r))
  heap_len : w1.heap.length = w.heap.length
  heap_other : ∀ q, q ≠ p → w1.heap[q]? = w.heap[q]?
  heap_self : ∀ o, w.heap[p]? = some o → ∃ o1, w1.heap[p]? = some o1 ∧ ObjStatic o o1
  timers : ∃ new, w1.timers = w.timers ++ new ∧
    ∀ x ∈ new, ∃ ctx, x.f = .after ctx p ∨ x.f = .cron ctx p
  requests : ∃ new, w1.requests = w.requests ++ new ∧ ∀ q ∈ new, q.TaskNo = T
  faults : ∃ k, w1.faults = w.faults.drop k

/-- The rows of the task numbered `T` that have no cron expression satisfy the
task invariant. -/
def TaskOK (nf : Prop) (w : World) (T : Int) : Prop :=
  ∀ r ∈ w.rows, r.TaskNo = T → r.CronExpr = "" → TaskInv nf w r

/-- The situation in which the core works on the object `t` behind pointer `p`
of a task without cron expression: `r` is the row of the task and no timer of
the task is in the wheel. -/
structure Local (nf : Prop) (w : World) (p : Nat) (t r : TaskEntity) : Prop where
  nodup : (w.rows.map (fun r => r.TaskNo)).Nodup
  heap : w.heap[p]? = some t
  row : r ∈ w.rows
  taskNo : r.TaskNo = t.TaskNo
  backoff : r.Backoff = t.Backoff
  cron : t.CronExpr = ""
  noTimer : ∀ x ∈ w.timers, ∀ o, x.obj w.heap = some o → o.TaskNo ≠ t.TaskNo
  valid : validStatus r
  bound : attempts w t.TaskNo ≤ t.Backoff.length
  pend : r.Status = 0 →
    -1 ≤ r.FailCount ∧ r.FailCount < (r.Backoff.length : Int) ∧
    (attempts w r.TaskNo : Int) ≤ r.FailCount + 1
  nofault : nf → NoFault w.faults
  payload : Clean r → t.Payload.isSome = true

/-! ## The bound on `fail_count` -/

/-- Data-model invariant 2 on a record: `fail_count <= len(backoff)`. -/
def FcOK (t : TaskEntity) : Prop := t.FailCount ≤ (t.Backoff.length : Int)

/-- Invariant 2 on a row; a PENDING row is strictly below the bound, since the
sweeper increments `fail_count` when it picks the row up. -/
def RowFc (r : TaskEntity) : Prop :=
  FcOK r ∧ (r.Status = 0 → r.FailCount < (r.Backoff.length : Int))

/-- Invariant 2 on the table and on the objects in memory. -/
structure FcInv (w : World) : Prop where
  rows : ∀ r ∈ w.rows, RowFc r
  heap : ∀ o ∈ w.heap, FcOK o

/-- The rows of the task of `t` carry the backoff list of `t`. -/
def Linked (w : World) (t : TaskEntity) : Prop :=
  ∀ r ∈ w.rows, r.TaskNo = t.TaskNo → r.Backoff = t.Backoff

/-- The table `rows1` is the table `rows` in which some rows were given the pair
`next_run_at = next`, `run_timeout_at = deadline`; every other row keeps its
pair, and no row changes its task number. -/
def DeadlinesSet (rows rows1 : List TaskEntity) (next deadline : Time) : Prop :=
  ∃ g : TaskEntity → TaskEntity, rows1 = rows.map g ∧
    ∀ r, (g r).TaskNo = r.TaskNo ∧
      (((g r).NextRunAt = r.NextRunAt ∧ (g r).RunTimeoutAt = r.RunTimeoutAt) ∨
        ((g r).NextRunAt = next ∧ (g r).RunTimeoutAt = deadline))

/-! ## The configuration and the scenarios of `storage_test.go` -/

/-- Function `setConfig` of `storage_test.go`: tick 1 s, 60 slots, node 0, a sweep
of at most 10 rows every 3 s looking 10 s ahead, fast path up to 15 s. -/
def testConfig : Config :=
  { Tick := 1 * Second, WheelSize := 60, Node := 0, PendingLimit := 10,
    PendingInterval := 3 * Second, AdvancePendingTime := 10 * Second,
    FastPathTime := 15 * Second }

/-- The runes above ASCII whose upper case is an ASCII letter, the long s and the
dotless i; the other runes are left as they are. A value for `Storage.upper` in
the scenarios, whose schemes are ASCII and never reach it. -/
def upperTable (c : Char) : Char :=
  if c.toNat = 0x17F then 'S' else if c.toNat = 0x131 then 'I' else c

/-- The storage of the tests, with the adapters the package registers. -/
def testStorage : Storage :=
  { cfg := testConfig, adapter := callback.GetAdapter, upper := upperTable }

/-- The world after `New` and `Start` at time 0. -/
def testWorld : World := (boot testStorage 0).getD (emptyWorld 0)

/-- The clock moves by `n` seconds. -/
def seconds (n : Nat) : Event := .advance (n * 1000000000)

/-- The wheel fires timer `i`; the network answer is not used by the `FMT` adapter. -/
def fires (i : Nat) : Event := .fire i "sweep" { resp := "", err := none } []

/-- Scenario S2, `Add(delay=5, backoff=[2,16])` with the default `fmt` payload
(the adapter answers `"FAIL"`), every timer fired at its expiration: the sweeper
at 3 s, 6 s, ..., the task at 5 s and 7 s. After the second failure the row waits
as PENDING for `next_run_at` = 23 s; the sweep at 15 s is the first to see it. -/
def scenarioS2 : List Event :=
  [ .add .background [WithDelayTime 5, WithBackoff [2, 16]] 1001 [],
    seconds 3, fires 0,   -- 3 s: sweep, nothing pending
    seconds 2, fires 0,   -- 5 s: first attempt
    seconds 1, fires 0,   -- 6 s: sweep
    seconds 1, fires 0,   -- 7 s: second attempt
    seconds 2, fires 0,   -- 9 s: sweep, the row is not yet within 10 s
    seconds 3, fires 0,   -- 12 s: sweep
    seconds 3, fires 0 ]  -- 15 s: sweep picks the row up

/-- Scenario S3, `Add(delay=20, backoff=[])` with the `fmt` payload whose
`data.result` is `"SUCCESS"`; the sweeper fires at 3 s, 6 s, 9 s and 12 s, the
last being the first sweep that sees the row (`next_run_at` = 20 s). -/
def scenarioS3 : List Event :=
  [ .add .background
      [WithPayload (some { Schema := "fmt", Url := "", Path := "",
                           Data := some [("result", .str "SUCCESS")] }),
       WithDelayTime 20, WithBackoff []] 1002 [],
    seconds 3, fires 0, seconds 3, fires 0, seconds 3, fires 0, seconds 3, fires 0 ]

/-- A task with a cron expression and one backoff entry, delivered over HTTP:
`Add(delay=5, backoff=[5], cron="*/10 * * * * *")`. The endpoint answers
`"SUCCESS"` to the attempt at 5 s; the cron firing at 10 s comes after the
deadline of the task, `run_timeout_at` = 8 s, so its call fails whatever the
endpoint would answer (here `"busy"`). The sweeper fires at 3 s, 6 s and 9 s. -/
def scenarioCronAfterSuccess : List Event :=
  [ .add .background
      [WithPayload (some { Schema := "http", Url := "127.0.0.1:8081",
                           Path := "/example/valid", Data := none }),
       WithDelayTime 5, WithBackoff [5], WithCron "*/10 * * * * *"] 1003 [],
    seconds 3, fires 0,
    seconds 2, .fire 0 "" { resp := "SUCCESS", err := none } [],
    seconds 1, fires 1,
    seconds 3, fires 1,
    seconds 1, .fire 0 "" { resp := "busy", err := none } [] ]

/-- A task with a cron expression, one backoff entry and the default `fmt`
payload (the adapter answers `"FAIL"`): `Add(delay=5, backoff=[5],
cron="*/10 * * * * *")`. The one-shot timer fires at 5 s, the cron timer at 10 s
and 20 s, the sweeper every 3 s in between. -/
def scenarioCronFailing : List Event :=
  [ .add .background [WithDelayTime 5, WithBackoff [5], WithCron "*/10 * * * * *"] 1004 [],
    seconds 3, fires 0,
    seconds 2, fires 0,   -- 5 s: the one-shot timer
    seconds 1, fires 1,
    seconds 3, fires 1,
    seconds 1, fires 0,   -- 10 s: the cron timer
    seconds 2, fires 0,
    seconds 3, fires 1,
    seconds 3, fires 1,
    seconds 2, fires 0 ]  -- 20 s: the cron timer

/-- A task whose first backoff entry is zero: `Add(delay=5, backoff=[0, 5])` with
the default `fmt` payload; the one-shot timer fires at 5 s. -/
def scenarioZeroBackoff : List Event :=
  [ .add .background [WithDelayTime 5, WithBackoff [0, 5]] 1005 [],
    seconds 3, fires 0,
    seconds 2, fires 0 ]

/-- A SUCCEEDED row of a task with two backoff entries. -/
def doneRow : TaskEntity :=
  { Id := 1, TaskNo := 7, Payload := some { Schema := "fmt", Url := "", Path := "", Data := none },
    DelayTime := 5, Timeout := 3, Backoff := [20, 30], CronExpr := "", Status := 2,
    NextRunAt := 5 * Second, RunTimeoutAt := 8 * Second, FailCount := 0, LastRetryAt := none,
    LockedBy := 0, FailMsgs := [], Extra := none, CreatedAt := 0, UpdatedAt := 5 * Second }

/-- A world whose table holds `doneRow` and whose heap holds the object of the
same task, at pointer 0. -/
def doneWorld : World :=
  { emptyWorld (6 * Second) with rows := [doneRow], heap := [{ doneRow with Status := 1 }] }

/-- The row of the task of scenario S2 when the scenario ends. -/
def rowS2 : TaskEntity :=
  { Id := 1, TaskNo := 1001,
    Payload := some { Schema := "fmt", Url := "", Path := "", Data := none },
    DelayTime := 5, Timeout := 3, Backoff := [2, 16], CronExpr := "", Status := 3,
    NextRunAt := 23 * Second, RunTimeoutAt := 26 * Second, FailCount := 1,
    LastRetryAt := some (7 * Second), LockedBy := 0,
    FailMsgs := [{ Resp := "FAIL", Err := "" }, { Resp := "FAIL", Err := "" }],
    Extra := some { TraceId := "" }, CreatedAt := 0, UpdatedAt := 15 * Second }

/-- A task whose payload names the scheme `ftp`, for which no adapter is
registered: `Add(delay=5, backoff=[2,16], payload={ftp})`. The sweeper fires at
3 s and the one-shot timer of the task at 5 s. -/
def scenarioNoAdapter : List Event :=
  [ .add .background
      [WithPayload (some { Schema := "ftp", Url := "", Path := "", Data := none }),
       WithDelayTime 5, WithBackoff [2, 16]] 1006 [],
    seconds 3, fires 0,
    seconds 2, fires 0 ]

/-- A RUNNING task with scheme `ftp` that has used up its two backoff entries. -/
def lostRow : TaskEntity :=
  { Id := 1, TaskNo := 8, Payload := some { Schema := "ftp", Url := "", Path := "", Data := none },
    DelayTime := 30, Timeout := 3, Backoff := [20, 30], CronExpr := "", Status := 1,
    NextRunAt := 5 * Second, RunTimeoutAt := 8 * Second, FailCount := 2, LastRetryAt := none,
    LockedBy := 0, FailMsgs := [], Extra := none, CreatedAt := 0, UpdatedAt := 5 * Second }

/-- A world whose table holds `lostRow` and whose heap holds its object, at
pointer 0. -/
def lostWorld : World :=
  { emptyWorld (6 * Second) with rows := [lostRow], heap := [lostRow] }

/-- A RUNNING task after its first failed attempt, with backoff `[20, 30]`. -/
def busyRow : TaskEntity :=
  { doneRow with TaskNo := 9, Status := 1, FailMsgs := [{ Resp := "FAIL", Err := "" }] }

/-- A world whose table holds `busyRow` and whose heap holds its object, at
pointer 0. -/
def busyWorld : World :=
  { emptyWorld (6 * Second) with rows := [busyRow], heap := [busyRow] }

/-- The world of a single RUNNING task with the backoff list `b`: the row
`busyRow` with that list, and its object at pointer 0. -/
def worldWith (b : List Int) : World :=
  { emptyWorld (6 * Second) with
    rows := [{ busyRow with Backoff := b }], heap := [{ busyRow with Backoff := b }] }

/-- The world of a single task: the row `r` and its object at pointer 0. -/
def worldOf (r : TaskEntity) : World :=
  { emptyWorld (6 * Second) with rows := [r], heap := [r] }

/-- A slow-path insert with one backoff entry: `Add(delay=20, backoff=[5])` with
the default `fmt` payload; the sweeper fires at 3 s, 6 s, 9 s and 12 s, the last
being the first sweep that sees the row (`next_run_at` = 20 s). -/
def scenarioSlowInsert : List Event :=
  [ .add .background [WithDelayTime 20, WithBackoff [5]] 1008 [],
    seconds 3, fires 0, seconds 3, fires 0, seconds 3, fires 0, seconds 3, fires 0 ]

/-- A task that has only a cron timer: `Add(delay=0, cron="*/10 * * * * *")` with
an `fmt` payload and the default backoff `[5, 10, 30]`. The row is inserted
RUNNING, no one-shot timer is armed, and the cron timer fires at 10 s. The `FMT`
adapter answers `data["result"]` when that is a string and `"FAIL"` otherwise. -/
def scenarioCronOnly (data : callback.Data) : List Event :=
  [ .add .background
      [WithPayload (some { Schema := "fmt", Url := "", Path := "", Data := data }),
       WithDelayTime 0, WithCron "*/10 * * * * *"] 1010 [],
    seconds 10, fires 1 ]

/-- A SUCCEEDED task with a cron expression and the backoff `[20, 30]`. -/
def cronRow : TaskEntity := { doneRow with TaskNo := 10, CronExpr := "*/10 * * * * *" }

/-- A world whose table holds `cronRow`, whose heap holds the object of the task
(still RUNNING in memory) at pointer 0, and whose wheel holds the cron timer of
the task, due at 6 s. -/
def cronWorld : World :=
  { emptyWorld (6 * Second) with
    rows := [cronRow], heap := [{ cronRow with Status := 1 }],
    timers := [{ expiration := 6 * Second, every := some (10 * Second),
                 f := .cron .background 0 }] }

/-- The table `rows1` holds the rows of `rows`, in the same order, each with the
`task_no` and the `locked_by` it had. -/
def LockedByKept (rows rows1 : List TaskEntity) : Prop :=
  ∃ f : TaskEntity → TaskEntity, rows1 = rows.map f ∧
    ∀ r, (f r).TaskNo = r.TaskNo ∧ (f r).LockedBy = r.LockedBy

/-- The table `rows1` is `rows` with `locked_by` kept, followed by new rows
whose `locked_by` is `node`. -/
def LockedByGrows (node : Int) (rows rows1 : List TaskEntity) : Prop :=
  ∃ rows0 new, rows1 = rows0 ++ new ∧ LockedByKept rows rows0 ∧ ∀ r ∈ new, r.LockedBy = node

end storage

/-! ## Package `timingwheel` -/

namespace timingwheel

/-- Modelled from the spec: type `bucket.Timer` (package `bucket` is not in the
sources), reduced to what `GetExpiration` returns, in milliseconds, and a tag
for the function the timer runs. -/
structure Timer where
  expiration : Int
  id : Nat
  deriving DecidableEq, Repr

/-- Modelled from the spec: type `bucket.Bucket`, "a concurrent list of timers
plus a `-1`-sentinel `expiration`". -/
structure Bucket where
  expiration : Int
  timers : List Timer
  deriving DecidableEq, Repr

/-- Modelled from the spec: `bucket.NewBucket`, no timer and the sentinel. -/
def NewBucket : Bucket := { expiration := -1, timers := [] }

/-- Modelled from the spec: `Bucket.Add`, the timer joins the list. -/
def Bucket.Add (b : Bucket) (t : Timer) : Bucket := { b with timers := b.timers ++ [t] }

/-- Modelled from the spec: `Bucket.SetExpiration` stores the value and reports
whether it differs from the stored one ("a bucket is enqueued only on the
transition `expiration <- new value != old`"). -/
def Bucket.SetExpiration (b : Bucket) (expiration : Int) : Bucket × Bool :=
  ({ b with expiration := expiration }, decide (b.expiration ≠ expiration))

/-- Modelled from the spec: `Bucket.Expiration`, the stored value. -/
def Bucket.Expiration (b : Bucket) : Int := b.expiration

/-- Modelled from the spec: an entry of `queue.DelayQueue` (package `queue` is not
in the sources). The bucket pointer is the tick of the wheel that owns the
bucket and the index of the bucket in `buckets`. -/
structure Item where
  tick : Int
  index : Nat
  priority : Int
  deriving DecidableEq, Repr

/-- Modelled from the spec: type `queue.DelayQueue`, the offers made so far,
oldest first. -/
structure DelayQueue where
  items : List Item
  deriving DecidableEq, Repr

/-- Modelled from the spec: `DelayQueue.Offer`. -/
def DelayQueue.Offer (q : DelayQueue) (tick : Int) (index : Nat) (expiration : Int) :
    DelayQueue :=
  { items := q.items ++ [{ tick := tick, index := index, priority := expiration }] }

/-- Struct `TimingWheel`, the fields `add` reads. The wheel reached through
`overflowWheel` is the next element of the list that holds this one; the queue,
shared by all levels, is passed next to the list. -/
structure TimingWheel where
  tick : Int
  wheelSize : Int
  interval : Int
  currentTime : Int
  buckets : List Bucket
  deriving DecidableEq, Repr

/-- Function `newTimingWheel`; `none` is the panic of `make` on a negative
length. `truncate` is the helper of the package, which is not in the sources. -/
def newTimingWheel (truncate : Int → Int → Int) (tickMs wheelSize startMs : Int) :
    Option TimingWheel :=
  if wheelSize < 0 then none
  else
    some { tick := tickMs, wheelSize := wheelSize, currentTime := truncate startMs tickMs,
           interval := wrapInt64 (tickMs * wheelSize),
           buckets := List.replicate wheelSize.toNat NewBucket }

/-- Function `timingwheel.New`: the wheel, with no overflow wheel, and the empty
queue. `startMs` is what `timeToMs(time.Now().UTC())` returns and `pool` the
error of `ants.NewPool`, if any. -/
def New (truncate : Int → Int → Int) (tick : Duration) (wheelSize startMs : Int)
    (pool : Option String) : Except Err (List TimingWheel × DelayQueue) :=
  let tickMs := Int.tdiv tick Millisecond
  if tickMs ≤ 0 then .error (.panic "tick must be greater than or equal to 1ms")
  else
    match pool with
    | some e => .error (.error e)
    | none =>
      match newTimingWheel truncate tickMs wheelSize startMs with
      | none => .error (.panic "makeslice: len out of range")
      | some tw => .ok ([tw], { items := [] })

/-- Method `TimingWheel.add` on the wheel at the head of the list, whose
overflow wheels follow; the empty list is the nil pointer. The first numeric
argument bounds the depth of the recursion; `none` is a run-time panic (a
division by zero, an index out of range) or the bound being reached. -/
def add (truncate : Int → Int → Int) :
    Nat → List TimingWheel → DelayQueue → Timer → Option (List TimingWheel × DelayQueue × Bool)
  | 0, _, _, _ => none
  | _ + 1, [], _, _ => none
  | fuel + 1, tw :: over, q, t =>
    let currentTime := tw.currentTime
    let expiration := t.expiration
    if expiration < wrapInt64 (currentTime + tw.tick) then some (tw :: over, q, false)
    else if expiration < wrapInt64 (currentTime + tw.interval) then
      if tw.tick = 0 then none
      else
        let virtualID := wrapInt64 (Int.tdiv expiration tw.tick)
        if tw.wheelSize = 0 then none
        else
          let i := Int.tmod virtualID tw.wheelSize
          match sliceIndex tw.buckets i with
          | none => none
          | some b =>
            let r := (b.Add t).SetExpiration (wrapInt64 (virtualID * tw.tick))
            let tw1 : TimingWheel := { tw with buckets := tw.buckets.set i.toNat r.1 }
            let q1 := if r.2 then q.Offer tw.tick i.toNat r.1.Expiration else q
            some (tw1 :: over, q1, true)
    else
      let overflowWheel :=
        match over with
        | [] =>
          match newTimingWheel truncate tw.interval tw.wheelSize currentTime with
          | none => none
          | some o => some [o]
        | o :: rest => some (o :: rest)
      match overflowWheel with
      | none => none
      | some o =>
        match add truncate fuel o q t with
        | none => none
        | some (o1, q1, r) => some (tw :: o1, q1, r)

/-- Rounding `x` down to a multiple of `m`, a value for the helper `truncate`
where a concrete one is needed. -/
def roundDown (x m : Int) : Int := if m ≤ 0 then x else x - x % m

/-- A level on which the 64-bit arithmetic of `add` is exact: the tick is at
least one millisecond, the interval is the product `tick * wheelSize`, the
current time is not negative, `currentTime + tick` and `currentTime + interval`
do not exceed the largest `int64`, and there are `wheelSize` buckets. -/
def TimingWheel.Sound (tw : TimingWheel) : Prop :=
  1 ≤ tw.tick ∧ 0 ≤ tw.wheelSize ∧ tw.interval = tw.tick * tw.wheelSize ∧
  0 ≤ tw.currentTime ∧ tw.currentTime + tw.tick ≤ MaxInt64 ∧
  tw.currentTime + tw.interval ≤ MaxInt64 ∧ tw.buckets.length = tw.wheelSize.toNat

/-- Each overflow wheel of the list has the interval of the wheel before it as
tick, and the same wheel size. -/
def Chained : List TimingWheel → Prop
  | [] => True
  | [_] => True
  | a :: b :: rest => b.tick = a.interval ∧ b.wheelSize = a.wheelSize ∧ Chained (b :: rest)

/-- A wheel with tick 1 ms and 4 buckets at 10 ms, no timer in it. -/
def smallWheel : TimingWheel :=
  { tick := 1, wheelSize := 4, interval := 4, currentTime := 10,
    buckets := List.replicate 4 NewBucket }

/-- A wheel with tick 10 ms and 4 buckets at 100 ms, no timer in it. -/
def coarseWheel : TimingWheel :=
  { tick := 10, wheelSize := 4, interval := 40, currentTime := 100,
    buckets := List.replicate 4 NewBucket }

end timingwheel

/-! # Properties -/

/-! ## The node-range resolver -/

namespace storage

theorem setNodesLoop_rangeOf (node : Int) (dns : List Int) :
    ∀ (rest pre : List Int) (prev : Int),
      setNodesLoop node (pre ++ prev :: rest) dns rest.length (pre.length + 1) =
        match rangeOf node prev rest with
        | some (lo, hi) => some [lo, hi]
        | none => some dns := by
  intro rest
  induction rest with
  | nil => intro pre prev; simp [setNodesLoop, rangeOf]
  | cons x xs ih =>
    intro pre prev
    have hget : (pre ++ prev :: x :: xs)[pre.length + 1]? = some x := by
      rw [List.getElem?_append_right (by omega)]
      simp
    have hprev : sliceIndex (pre ++ prev :: x :: xs) (((pre.length + 1 : Nat) : Int) - 1)
        = some prev := by
      have h1 : (((pre.length + 1 : Nat) : Int) - 1) = (pre.length : Int) := by push_cast; ring
      rw [h1]
      unfold sliceIndex
      rw [if_neg (by omega), Int.toNat_natCast, List.getElem?_append_right (by omega)]
      simp
    have hlast : (((pre.length + 1 : Nat) : Int) =
        ((pre ++ prev :: x :: xs).length : Int) - 1) ↔ xs = [] := by
      rw [← List.length_eq_zero]
      simp only [List.length_append, List.length_cons]
      push_cast
      omega
    simp only [List.length_cons, setNodesLoop, hget, rangeOf]
    by_cases hx : x ≥ node
    · rw [if_pos hx, if_pos hx, hprev]
      by_cases hxs : xs = []
      · rw [if_pos (hlast.mpr hxs), if_pos hxs]
      · rw [if_neg (fun h => hxs (hlast.mp h)), if_neg hxs]
    · rw [if_neg hx, if_neg hx]
      have := ih (pre ++ [prev]) x
      simpa [List.append_assoc] using this

theorem SetNodes_rangeOf (node : Int) (dns L : List Int) (h0 : 0 ≤ node) :
    SetNodes node dns L =
      match rangeOf node (-1) (if L.length = 0 then [node] else L) with
      | some (lo, hi) => some [lo, hi]
      | none => some dns := by
  unfold SetNodes
  simp only [List.length_cons]
  have hlt : ¬ ((-1 : Int) ≥ node) := by omega
  rw [setNodesLoop]
  simp only [List.getElem?_cons_zero, hlt, if_false]
  exact setNodesLoop_rangeOf node dns _ [] (-1)


theorem rangeOf_findIdx (s : Int) : ∀ (rest : List Int) (prev : Int),
    rangeOf s prev rest =
      match (prev :: rest)[rest.findIdx (fun x => decide (x ≥ s))]?,
            rest[rest.findIdx (fun x => decide (x ≥ s))]? with
      | some lo, some x =>
        some (lo, if rest.findIdx (fun x => decide (x ≥ s)) + 1 = rest.length
          then MaxInt64 else x)
      | _, _ => none := by
  intro rest
  induction rest with
  | nil => intro prev; simp [rangeOf]
  | cons x xs ih =>
    intro prev
    by_cases hx : x ≥ s
    · have hd : decide (x ≥ s) = true := by simpa using hx
      simp only [rangeOf, if_pos hx, List.findIdx_cons, hd, cond_true,
        List.getElem?_cons_zero, List.length_cons]
      by_cases hxs : xs = []
      · subst hxs; simp
      · have : ¬ (0 + 1 = xs.length + 1) := by
          intro h
          exact hxs (List.length_eq_zero.mp (by omega))
        rw [if_neg hxs, if_neg this]
    · have hd : decide (x ≥ s) = false := by simpa using hx
      simp only [rangeOf, if_neg hx, List.findIdx_cons, hd, cond_false,
        List.getElem?_cons_succ, List.length_cons, ih x, add_left_inj]

theorem specRange_eq_rangeOf (s : Int) (L : List Int) (hs : 0 ≤ s) :
    specRange s L = rangeOf s (-1) L := by
  have hd : decide ((-1 : Int) ≥ s) = false := by
    simp only [ge_iff_le, decide_eq_false_iff_not, not_le]; omega
  rw [rangeOf_findIdx]
  simp only [specRange, List.findIdx_cons, hd, cond_false, Nat.add_sub_cancel,
    List.getElem?_cons_succ, List.length_cons]
  try rfl

theorem rangeOf_some_of_mem (s : Int) : ∀ (rest : List Int) (prev : Int),
    (∃ x ∈ rest, x ≥ s) → ∃ lo hi, rangeOf s prev rest = some (lo, hi) := by
  intro rest
  induction rest with
  | nil => intro prev h; obtain ⟨x, hx, _⟩ := h; cases hx
  | cons y ys ih =>
    intro prev h
    by_cases hy : y ≥ s
    · exact ⟨prev, if ys = [] then MaxInt64 else y, by simp only [rangeOf, if_pos hy]⟩
    · obtain ⟨x, hx, hxs⟩ := h
      have hx1 : x ∈ ys := by
        rcases List.mem_cons.mp hx with h1 | h1
        · subst h1; exact absurd hxs hy
        · exact h1
      obtain ⟨lo, hi, h2⟩ := ih y ⟨x, hx1, hxs⟩
      exact ⟨lo, hi, by simp only [rangeOf, if_neg hy, h2]⟩

/-- C9. `SetNodes` computes the range the specification defines: for a self
ordinal `s >= 0` and a list `L` with an element `>= s`, the stored range after
`SetNodes(L)` is the pair the specification's wording yields (`specRange`). -/
theorem SetNodes_computes_spec_range (s : Int) (dns L : List Int) (hs : 0 ≤ s)
    (hL : ∃ x ∈ L, x ≥ s) :
    ∃ lo hi, specRange s L = some (lo, hi) ∧ SetNodes s dns L = some [lo, hi] := by
  obtain ⟨lo, hi, h⟩ := rangeOf_some_of_mem s L (-1) hL
  have hne : ¬ (L.length = 0) := by
    obtain ⟨x, hx, _⟩ := hL
    intro h0
    rw [List.length_eq_zero] at h0
    subst h0
    cases hx
  refine ⟨lo, hi, ?_, ?_⟩
  · rw [specRange_eq_rangeOf s L hs, h]
  · rw [SetNodes_rangeOf s dns L hs, if_neg hne, h]

theorem SetNodes_computes_spec_range_witness :
    ∃ lo hi, specRange 1 [0, 1, 2] = some (lo, hi) ∧ SetNodes 1 [] [0, 1, 2] = some [lo, hi] :=
  SetNodes_computes_spec_range 1 [] [0, 1, 2] (by decide) ⟨1, by decide, by decide⟩

end storage

namespace storage

theorem rangeOf_lo_ge (n : Int) : ∀ (L : List Int) (prev lo hi : Int),
    (prev :: L).Pairwise (· < ·) → rangeOf n prev L = some (lo, hi) → prev ≤ lo := by
  intro L
  induction L with
  | nil => intro prev lo hi _ h; simp [rangeOf] at h
  | cons x xs ih =>
    intro prev lo hi hp h
    have hpx : prev < x := (List.pairwise_cons.mp hp).1 x (List.mem_cons_self _ _)
    have hp2 : (x :: xs).Pairwise (· < ·) := (List.pairwise_cons.mp hp).2
    by_cases hx : x ≥ n
    · simp only [rangeOf, if_pos hx, Option.some.injEq, Prod.mk.injEq] at h
      omega
    · simp only [rangeOf, if_neg hx] at h
      have := ih x lo hi hp2 h
      omega

/-- The band an element of a strictly increasing list gets contains the element. -/
theorem rangeOf_self (k : Int) (hk : k ≤ MaxInt64) : ∀ (L : List Int) (prev : Int),
    (prev :: L).Pairwise (· < ·) → k ∈ L →
    ∃ lo hi, rangeOf k prev L = some (lo, hi) ∧ lo < k ∧ k ≤ hi := by
  intro L
  induction L with
  | nil => intro prev _ h; cases h
  | cons x xs ih =>
    intro prev hp hk1
    have hpx : prev < x := (List.pairwise_cons.mp hp).1 x (List.mem_cons_self _ _)
    have hp2 : (x :: xs).Pairwise (· < ·) := (List.pairwise_cons.mp hp).2
    rcases List.mem_cons.mp hk1 with h1 | h1
    · subst h1
      refine ⟨prev, if xs = [] then MaxInt64 else k, ?_, hpx, ?_⟩
      · simp only [rangeOf, ge_iff_le, le_refl, if_true]
      · split
        · exact hk
        · exact le_refl _
    · have hxk : x < k := (List.pairwise_cons.mp hp2).1 k h1
      have hx : ¬ (x ≥ k) := by omega
      obtain ⟨lo, hi, h2, h3, h4⟩ := ih x hp2 h1
      exact ⟨lo, hi, by simp only [rangeOf, if_neg hx, h2], h3, h4⟩

theorem rangeOf_exists (k : Int) (hk : k ≤ MaxInt64) : ∀ (L : List Int) (prev : Int),
    (prev :: L).Pairwise (· < ·) → L ≠ [] → prev < k →
    ∃ n ∈ L, ∃ lo hi, rangeOf n prev L = some (lo, hi) ∧ lo < k ∧ k ≤ hi := by
  intro L
  induction L with
  | nil => intro prev _ h; exact absurd rfl h
  | cons x xs ih =>
    intro prev hp _ hpk
    have hp2 : (x :: xs).Pairwise (· < ·) := (List.pairwise_cons.mp hp).2
    by_cases hc : xs = [] ∨ k ≤ x
    · refine ⟨x, List.mem_cons_self _ _, prev, if xs = [] then MaxInt64 else x, ?_, hpk, ?_⟩
      · simp only [rangeOf, ge_iff_le, le_refl, if_true]
      · split
        · exact hk
        · rcases hc with h | h
          · contradiction
          · exact h
    · push_neg at hc
      obtain ⟨n, hn, lo, hi, h2, h3, h4⟩ := ih x hp2 hc.1 hc.2
      have hxn : x < n := (List.pairwise_cons.mp hp2).1 n hn
      have hx : ¬ (x ≥ n) := by omega
      exact ⟨n, List.mem_cons_of_mem _ hn, lo, hi, by simp only [rangeOf, if_neg hx, h2], h3, h4⟩

theorem rangeOf_unique (k : Int) : ∀ (L : List Int) (prev : Int),
    (prev :: L).Pairwise (· < ·) → ∀ n ∈ L, ∀ m ∈ L,
    (∃ lo hi, rangeOf n prev L = some (lo, hi) ∧ lo < k ∧ k ≤ hi) →
    (∃ lo hi, rangeOf m prev L = some (lo, hi) ∧ lo < k ∧ k ≤ hi) → n = m := by
  intro L
  induction L with
  | nil => intro prev _ n hn; cases hn
  | cons x xs ih =>
    intro prev hp n hn m hm ⟨lo1, hi1, e1, a1, b1⟩ ⟨lo2, hi2, e2, a2, b2⟩
    have hp2 : (x :: xs).Pairwise (· < ·) := (List.pairwise_cons.mp hp).2
    have key : ∀ a ∈ xs, ∀ lo hi, rangeOf x prev (x :: xs) = some (lo, hi) → k ≤ hi →
        ∀ lo3 hi3, rangeOf a prev (x :: xs) = some (lo3, hi3) → lo3 < k → False := by
      intro a ha lo hi e b lo3 hi3 e3 a3
      have hxa : x < a := (List.pairwise_cons.mp hp2).1 a ha
      have hx : ¬ (x ≥ a) := by omega
      have hne : xs ≠ [] := List.ne_nil_of_mem ha
      simp only [rangeOf, ge_iff_le, le_refl, if_true, if_neg hne, Option.some.injEq,
        Prod.mk.injEq] at e
      simp only [rangeOf, if_neg hx] at e3
      have := rangeOf_lo_ge a xs x lo3 hi3 hp2 e3
      omega
    rcases List.mem_cons.mp hn with h1 | h1 <;> rcases List.mem_cons.mp hm with h2 | h2
    · rw [h1, h2]
    · subst h1
      exact (key m h2 lo1 hi1 e1 b1 lo2 hi2 e2 a2).elim
    · subst h2
      exact (key n h1 lo2 hi2 e2 b2 lo1 hi1 e1 a1).elim
    · have hxn : ¬ (x ≥ n) := by have := (List.pairwise_cons.mp hp2).1 n h1; omega
      have hxm : ¬ (x ≥ m) := by have := (List.pairwise_cons.mp hp2).1 m h2; omega
      simp only [rangeOf, if_neg hxn] at e1
      simp only [rangeOf, if_neg hxm] at e2
      exact ih x hp2 n h1 m h2 ⟨lo1, hi1, e1, a1, b1⟩ ⟨lo2, hi2, e2, a2, b2⟩

end storage

namespace storage

theorem sweeps_pair (lo hi k : Int) : sweeps [lo, hi] k = true ↔ lo < k ∧ k ≤ hi := by
  simp [sweeps, sliceIndex]

theorem pairwise_sentinel (L : List Int) (hs : L.Pairwise (· < ·)) (hnn : ∀ n ∈ L, 0 ≤ n) :
    ((-1 : Int) :: L).Pairwise (· < ·) := by
  refine List.pairwise_cons.mpr ⟨?_, hs⟩
  intro a ha
  have := hnn a ha
  omega

theorem owns_iff_rangeOf (L : List Int) (n : Int) (hn : n ∈ L) (h0 : 0 ≤ n) (dns : List Int)
    (k : Int) :
    owns n dns L k ↔ ∃ lo hi, rangeOf n (-1) L = some (lo, hi) ∧ lo < k ∧ k ≤ hi := by
  have hne : ¬ (L.length = 0) := by
    intro h
    rw [List.length_eq_zero] at h
    subst h
    cases hn
  obtain ⟨lo, hi, hr⟩ := rangeOf_some_of_mem n L (-1) ⟨n, hn, le_refl _⟩
  have hS : SetNodes n dns L = some [lo, hi] := by
    rw [SetNodes_rangeOf n dns L h0, if_neg hne, hr]
  constructor
  · rintro ⟨ns, h1, h2⟩
    rw [hS] at h1
    cases h1
    exact ⟨lo, hi, hr, (sweeps_pair lo hi k).mp h2⟩
  · rintro ⟨lo1, hi1, h1, h2⟩
    rw [hr] at h1
    cases h1
    exact ⟨[lo, hi], hS, (sweeps_pair lo hi k).mpr h2⟩

/-- C8. Shard isolation: for a strictly increasing list `L` of non-negative live
ordinals, each node of `L` computing its range by `SetNodes(L)`, every `locked_by`
value `k` with `0 <= k <= MaxInt64` is swept by at most one node of `L`, by at
least one when `L` has a node at all, and by `k` itself when `k` is in `L`. -/
theorem shard_isolation (L : List Int) (hs : L.Pairwise (· < ·)) (hnn : ∀ n ∈ L, 0 ≤ n)
    (dns : Int → List Int) (k : Int) (hk0 : 0 ≤ k) (hk1 : k ≤ MaxInt64) :
    (∀ n ∈ L, ∀ m ∈ L, owns n (dns n) L k → owns m (dns m) L k → n = m) ∧
    (L ≠ [] → ∃ n ∈ L, owns n (dns n) L k) ∧
    (k ∈ L → owns k (dns k) L k) := by
  have hp := pairwise_sentinel L hs hnn
  refine ⟨?_, ?_, ?_⟩
  · intro n hn m hm h1 h2
    exact rangeOf_unique k L (-1) hp n hn m hm
      ((owns_iff_rangeOf L n hn (hnn n hn) (dns n) k).mp h1)
      ((owns_iff_rangeOf L m hm (hnn m hm) (dns m) k).mp h2)
  · intro hne
    obtain ⟨n, hn, h⟩ := rangeOf_exists k hk1 L (-1) hp hne (by omega)
    exact ⟨n, hn, (owns_iff_rangeOf L n hn (hnn n hn) (dns n) k).mpr h⟩
  · intro hk
    exact (owns_iff_rangeOf L k hk hk0 (dns k) k).mpr (rangeOf_self k hk1 L (-1) hp hk)

theorem shard_isolation_witness :
    (∀ n ∈ [(0 : Int), 1], ∀ m ∈ [(0 : Int), 1],
        owns n [] [0, 1] 1 → owns m [] [0, 1] 1 → n = m) ∧
    ([(0 : Int), 1] ≠ [] → ∃ n ∈ [(0 : Int), 1], owns n [] [0, 1] 1) ∧
    ((1 : Int) ∈ [(0 : Int), 1] → owns 1 [] [0, 1] 1) :=
  shard_isolation [0, 1] (by decide) (by decide) (fun _ => []) 1 (by decide) (by decide)

/-- The bands of the two-node list `[0, 1]`: node 0 gets `(-1, 0]`, node 1 gets
`(0, MaxInt64]`. -/
theorem SetNodes_two_nodes :
    SetNodes 0 [] [0, 1] = some [-1, 0] ∧ SetNodes 1 [] [0, 1] = some [0, MaxInt64] := by
  decide

end storage

namespace storage

theorem rangeOf_append_lt (n : Int) (rest : List Int) : ∀ (A : List Int) (prev : Int),
    (∀ a ∈ A, a < n) → rangeOf n prev (A ++ rest) = rangeOf n (A.getLastD prev) rest := by
  intro A
  induction A with
  | nil => intro prev _; rfl
  | cons a A1 ih =>
    intro prev h
    have ha : ¬ (a ≥ n) := by have := h a (List.mem_cons_self _ _); omega
    have h1 : ∀ b ∈ A1, b < n := fun b hb => h b (List.mem_cons_of_mem _ hb)
    rw [List.cons_append, rangeOf, if_neg ha, ih a h1, List.getLastD_cons]

theorem rangeOf_append_congr (n : Int) (r1 r2 : List Int) (h1 : r1 ≠ []) (h2 : r2 ≠ []) :
    ∀ (A : List Int) (prev : Int), (∃ a ∈ A, a ≥ n) →
      rangeOf n prev (A ++ r1) = rangeOf n prev (A ++ r2) := by
  intro A
  induction A with
  | nil => intro prev h; obtain ⟨a, ha, _⟩ := h; cases ha
  | cons a A1 ih =>
    intro prev h
    by_cases ha : a ≥ n
    · have e1 : A1 ++ r1 ≠ [] := by simp [h1]
      have e2 : A1 ++ r2 ≠ [] := by simp [h2]
      rw [List.cons_append, List.cons_append, rangeOf, rangeOf, if_pos ha, if_pos ha, if_neg e1,
        if_neg e2]
    · obtain ⟨b, hb, hbn⟩ := h
      have hb1 : b ∈ A1 := by
        rcases List.mem_cons.mp hb with h3 | h3
        · subst h3; exact absurd hbn ha
        · exact h3
      rw [List.cons_append, List.cons_append, rangeOf, rangeOf, if_neg ha, if_neg ha,
        ih a ⟨b, hb1, hbn⟩]

/-- In a strictly increasing list, an element `m` and the next larger element `s`
stand side by side. -/
theorem adjacent_split (L : List Int) (hs : L.Pairwise (· < ·)) (m s : Int) (hm : m ∈ L)
    (hsL : s ∈ L) (hms : m < s) (hnext : ∀ x ∈ L, ¬ (m < x ∧ x < s)) :
    ∃ A B, L = A ++ m :: s :: B := by
  obtain ⟨A, C, hL⟩ := List.append_of_mem hm
  subst hL
  have hp := List.pairwise_append.mp hs
  have hsC : s ∈ C := by
    rcases List.mem_append.mp hsL with h | h
    · have := hp.2.2 s h m (List.mem_cons_self _ _); omega
    · rcases List.mem_cons.mp h with h1 | h1
      · omega
      · exact h1
  cases C with
  | nil => cases hsC
  | cons c C1 =>
    have hmc : m < c := (List.pairwise_cons.mp hp.2.1).1 c (List.mem_cons_self _ _)
    have hcL : c ∈ A ++ m :: c :: C1 := by simp
    have hcs : ¬ (c < s) := fun h => hnext c hcL ⟨hmc, h⟩
    have hc : c = s := by
      rcases List.mem_cons.mp hsC with h1 | h1
      · exact h1.symm
      · have hp3 := (List.pairwise_cons.mp hp.2.1).2
        have := (List.pairwise_cons.mp hp3).1 s h1
        omega
    subst hc
    exact ⟨A, C1, rfl⟩

/-- C10. Membership change: in a strictly increasing list `L` of non-negative
ordinals, let `m` be an element and `s` the next larger element. Before the
removal `m` holds `(lo_m, m]` and `s` holds `(m, hi_s]`; after `m` is removed `s`
holds `(lo_m, hi_s]`, the union of the two bands, and every other remaining node
computes the range it had. -/
theorem membership_change (L : List Int) (hs : L.Pairwise (· < ·)) (hnn : ∀ n ∈ L, 0 ≤ n)
    (m s : Int) (hm : m ∈ L) (hsL : s ∈ L) (hms : m < s)
    (hnext : ∀ x ∈ L, ¬ (m < x ∧ x < s)) (dns : List Int) :
    ∃ lo_m hi_s,
      SetNodes m dns L = some [lo_m, m] ∧
      SetNodes s dns L = some [m, hi_s] ∧
      SetNodes s dns (L.erase m) = some [lo_m, hi_s] ∧
      ∀ n ∈ L, n ≠ m → n ≠ s → SetNodes n dns (L.erase m) = SetNodes n dns L := by
  obtain ⟨A, B, hL⟩ := adjacent_split L hs m s hm hsL hms hnext
  subst hL
  have hp := List.pairwise_append.mp hs
  have hAm : ∀ a ∈ A, a < m := fun a ha => hp.2.2 a ha m (List.mem_cons_self _ _)
  have hAs : ∀ a ∈ A, a < s := fun a ha => by have := hAm a ha; omega
  have hmA : m ∉ A := fun h => by have := hAm m h; omega
  have hB : ∀ b ∈ B, s < b := fun b hb =>
    (List.pairwise_cons.mp (List.pairwise_cons.mp hp.2.1).2).1 b hb
  have herase : (A ++ m :: s :: B).erase m = A ++ s :: B := by
    rw [List.erase_append_right _ hmA, List.erase_cons_head]
  have hm0 : 0 ≤ m := hnn m hm
  have hs0 : 0 ≤ s := hnn s hsL
  have hlen1 : ¬ ((A ++ m :: s :: B).length = 0) := by simp
  have hlen2 : ¬ ((A ++ s :: B).length = 0) := by simp
  refine ⟨A.getLastD (-1), if B = [] then MaxInt64 else s, ?_, ?_, ?_, ?_⟩
  · rw [SetNodes_rangeOf m dns _ hm0, if_neg hlen1, rangeOf_append_lt m _ A (-1) hAm]
    simp [rangeOf]
  · have e : A ++ m :: s :: B = (A ++ [m]) ++ s :: B := by simp
    have hlt : ∀ a ∈ A ++ [m], a < s := by
      intro a ha
      rcases List.mem_append.mp ha with h | h
      · exact hAs a h
      · simp at h; omega
    rw [SetNodes_rangeOf s dns _ hs0, if_neg hlen1, e, rangeOf_append_lt s _ (A ++ [m]) (-1) hlt]
    simp [rangeOf]
  · rw [herase, SetNodes_rangeOf s dns _ hs0, if_neg hlen2, rangeOf_append_lt s _ A (-1) hAs]
    simp [rangeOf]
  · intro n hn hnm hns
    have hn0 : 0 ≤ n := hnn n hn
    rw [herase, SetNodes_rangeOf n dns _ hn0, SetNodes_rangeOf n dns _ hn0, if_neg hlen1,
      if_neg hlen2]
    rcases List.mem_append.mp hn with h | h
    · rw [rangeOf_append_congr n (s :: B) (m :: s :: B) (by simp) (by simp) A (-1)
        ⟨n, h, le_refl _⟩]
    · have hnB : n ∈ B := by
        rcases List.mem_cons.mp h with h1 | h1
        · exact absurd h1 hnm
        · rcases List.mem_cons.mp h1 with h2 | h2
          · exact absurd h2 hns
          · exact h2
      have hsn : s < n := hB n hnB
      have e1 : A ++ m :: s :: B = (A ++ [m, s]) ++ B := by simp
      have e2 : A ++ s :: B = (A ++ [s]) ++ B := by simp
      have hlt1 : ∀ a ∈ A ++ [m, s], a < n := by
        intro a ha
        rcases List.mem_append.mp ha with h3 | h3
        · have := hAs a h3; omega
        · simp at h3; omega
      have hlt2 : ∀ a ∈ A ++ [s], a < n := by
        intro a ha
        rcases List.mem_append.mp ha with h3 | h3
        · have := hAs a h3; omega
        · simp at h3; omega
      have g1 : (A ++ [m, s]).getLastD (-1) = s := by
        have : A ++ [m, s] = (A ++ [m]) ++ [s] := by simp
        rw [this, List.getLastD_concat]
      have g2 : (A ++ [s]).getLastD (-1) = s := List.getLastD_concat _ _ _
      rw [e1, e2, rangeOf_append_lt n B _ (-1) hlt1, rangeOf_append_lt n B _ (-1) hlt2, g1, g2]

theorem membership_change_witness :
    ∃ lo_m hi_s,
      SetNodes 1 [] [0, 1, 2] = some [lo_m, 1] ∧
      SetNodes 2 [] [0, 1, 2] = some [1, hi_s] ∧
      SetNodes 2 [] ([(0 : Int), 1, 2].erase 1) = some [lo_m, hi_s] ∧
      ∀ n ∈ [(0 : Int), 1, 2], n ≠ 1 → n ≠ 2 →
        SetNodes n [] ([(0 : Int), 1, 2].erase 1) = SetNodes n [] [0, 1, 2] :=
  membership_change [0, 1, 2] (by decide) (by decide) 1 2 (by decide) (by decide) (by decide)
    (by decide) []

/-- Scenario S5: with the nodes `[0, 1, 2]` and node 1 removed, node 0 keeps
`(-1, 0]`, node 2 gets `(0, MaxInt64]` and sweeps the rows locked by 1. -/
theorem membership_change_S5 :
    SetNodes 0 [] ([(0 : Int), 1, 2].erase 1) = some [-1, 0] ∧
    SetNodes 2 [] ([(0 : Int), 1, 2].erase 1) = some [0, MaxInt64] ∧
    sweeps [0, MaxInt64] 1 = true := by
  decide

end storage

namespace storage

/-! ## Scenarios S2 and S3 on the code -/

/-- C2 (evaluation of the code). Scenario S2, `Add(delay=5, backoff=[2,16])` with an
adapter that always answers `"FAIL"` and `fast_path_time` = 15 s: the adapter is
called twice, not three times; the row ends FAILED with two fail messages, and
no timer of the task is left in the wheel. -/
theorem scenarioS2_two_attempts :
    (run testStorage testWorld scenarioS2).requests.length = 2 ∧
    (run testStorage testWorld scenarioS2).rows.map (fun r => (r.TaskNo, r.Status, r.FailMsgs.length))
      = [(1001, 3, 2)] ∧
    (run testStorage testWorld scenarioS2).timers.map (fun t => t.f) = [Closure.pending] := by
  decide!

/-- C5 (evaluation of the code). Scenario S3, `Add(delay=20, backoff=[])` with the
`FMT` adapter and `data.result = "SUCCESS"`: the row is inserted PENDING, and the
first sweep that sees it marks it FAILED; the adapter is never called and no
timer of the task is armed. -/
theorem scenarioS3_never_attempted :
    (run testStorage testWorld (scenarioS3.take 1)).rows.map (fun r => (r.TaskNo, r.Status, r.FailCount))
      = [(1002, 0, -1)] ∧
    (run testStorage testWorld scenarioS3).rows.map (fun r => (r.TaskNo, r.Status)) = [(1002, 3)] ∧
    (run testStorage testWorld scenarioS3).requests = [] ∧
    (run testStorage testWorld scenarioS3).timers.map (fun t => t.f) = [Closure.pending] := by
  decide!

end storage

namespace storage

/-! ## Symbolic execution of the store operations -/

@[simp] theorem next_rows (w : World) : w.next.rows = w.rows := rfl
@[simp] theorem next_heap (w : World) : w.next.heap = w.heap := rfl
@[simp] theorem next_timers (w : World) : w.next.timers = w.timers := rfl
@[simp] theorem next_requests (w : World) : w.next.requests = w.requests := rfl
@[simp] theorem next_now (w : World) : w.next.now = w.now := rfl
@[simp] theorem next_ns (w : World) : w.next.ns = w.ns := rfl
@[simp] theorem next_ch (w : World) : w.next.ch = w.ch := rfl

theorem arm_ok (w : World) (t : Timer) (h : w.failed = false) :
    w.arm t = ({ w.next with timers := w.timers ++ [t] }, none) := by
  simp [World.arm, h]

theorem arm_fail (w : World) (t : Timer) (h : w.failed = true) :
    w.arm t = (w.next, some (.error "pool submit")) := by
  simp [World.arm, h]

@[simp] theorem orReturn_none (w : World) (k : World → World × Option Err) :
    orReturn (w, none) k = k w := rfl

@[simp] theorem orReturn_some (w : World) (e : Err) (k : World → World × Option Err) :
    orReturn (w, some e) k = (w, some e) := rfl

theorem orReturn_pure (r : World × Option Err) : orReturn r (fun w => (w, none)) = r := by
  rcases r with ⟨w, _ | e⟩ <;> rfl

theorem execUpdate_ok (w : World) (rows : List TaskEntity) (h : w.failed = false) :
    execUpdate w rows = ({ w.next with rows := rows }, none) := by
  simp [execUpdate, h]

theorem execUpdate_fail (w : World) (rows : List TaskEntity) (h : w.failed = true) :
    execUpdate w rows = (w.next, some (.error "exec")) := by
  simp [execUpdate, h]

theorem sliceIndex_some {α : Type} (xs : List α) (i : Int) (h0 : 0 ≤ i)
    (h1 : i < (xs.length : Int)) : ∃ v, sliceIndex xs i = some v ∧ v ∈ xs := by
  have hlt : i.toNat < xs.length := by omega
  refine ⟨xs[i.toNat], ?_, List.getElem_mem _⟩
  unfold sliceIndex
  rw [if_neg (by omega), List.getElem?_eq_getElem hlt]

/-- `GetDelayTime` does not panic while `fail_count <= len(backoff)`. -/
theorem GetDelayTime_some (t : TaskEntity) (h : t.FailCount ≤ (t.Backoff.length : Int)) :
    ∃ v, GetDelayTime t = some v := by
  unfold GetDelayTime
  by_cases hfc : t.FailCount > 0
  · rw [if_pos hfc]
    obtain ⟨v, hv, _⟩ := sliceIndex_some t.Backoff (t.FailCount - 1) (by omega) (by omega)
    exact ⟨v, hv⟩
  · rw [if_neg hfc]; exact ⟨_, rfl⟩

theorem Submit_exhausted (d : Storage) (fuel : Nat) (w : World) (ctx : trace.Context)
    (task : Nat) (status : Int) (t : TaskEntity) (ht : w.heap[task]? = some t)
    (h : t.FailCount ≥ (t.Backoff.length : Int)) :
    Submit d (fuel + 1) w ctx task status = Failure d fuel w ctx task := by
  rw [Submit]; simp only [ht, if_pos h]

theorem Submit_live (d : Storage) (fuel : Nat) (w : World) (ctx : trace.Context)
    (task : Nat) (status : Int) (t : TaskEntity) (ht : w.heap[task]? = some t)
    (h : t.FailCount < (t.Backoff.length : Int)) :
    Submit d (fuel + 1) w ctx task status = submitBody w ctx task t status := by
  have h1 : ¬ (t.FailCount ≥ (t.Backoff.length : Int)) := by omega
  rw [Submit]; simp only [ht, if_neg h1]

theorem Failure_exhausted (d : Storage) (fuel : Nat) (w : World) (ctx : trace.Context)
    (task : Nat) (t : TaskEntity) (v : Int) (ht : w.heap[task]? = some t)
    (hg : GetDelayTime t = some v) (h : ¬ (t.FailCount < (t.Backoff.length : Int))) :
    Failure d (fuel + 1) w ctx task = markFailed w t := by
  rw [Failure]; simp only [ht, hg, if_neg h]

theorem Failure_fast (d : Storage) (fuel : Nat) (w : World) (ctx : trace.Context)
    (task : Nat) (t : TaskEntity) (v delay : Int) (ht : w.heap[task]? = some t)
    (hg : GetDelayTime t = some v) (h : t.FailCount < (t.Backoff.length : Int))
    (hi : sliceIndex t.Backoff t.FailCount = some delay)
    (hf : durationMul delay Second ≤ d.cfg.FastPathTime) :
    Failure d (fuel + 1) w ctx task =
      Submit d fuel
        { w with
          heap := w.heap.set task
                    { (retryFields t delay w.now) with FailCount := t.FailCount + 1 } }
        ctx task 1 := by
  have hf1 : durationMul (retryFields t delay w.now).DelayTime Second ≤ d.cfg.FastPathTime := hf
  rw [Failure]; simp only [ht, hg, if_pos h, hi, if_pos hf1]; rfl

theorem Failure_slow (d : Storage) (fuel : Nat) (w : World) (ctx : trace.Context)
    (task : Nat) (t : TaskEntity) (v delay : Int) (ht : w.heap[task]? = some t)
    (hg : GetDelayTime t = some v) (h : t.FailCount < (t.Backoff.length : Int))
    (hi : sliceIndex t.Backoff t.FailCount = some delay)
    (hf : ¬ (durationMul delay Second ≤ d.cfg.FastPathTime)) :
    Failure d (fuel + 1) w ctx task =
      writeBackPending { w with heap := w.heap.set task (retryFields t delay w.now) }
        (retryFields t delay w.now) := by
  have hf1 : ¬ (durationMul (retryFields t delay w.now).DelayTime Second ≤ d.cfg.FastPathTime) :=
    hf
  rw [Failure]; simp only [ht, hg, if_pos h, hi, if_neg hf1]

/-- For a task without cron expression, `submitBody` is the `UPDATE` followed by
the one-shot timer. -/
theorem submitBody_nocron (w : World) (ctx : trace.Context) (task : Nat) (t : TaskEntity)
    (status v : Int) (hc : t.CronExpr = "") (hg : GetDelayTime t = some v) :
    submitBody w ctx task t status =
      orReturn
        (if status > -1 then
          execUpdate w (updateRunning w.rows t
            (if t.FailCount = 0 then none else some w.now) w.now status)
        else (w, none)) fun w1 =>
      if t.DelayTime ≠ 0 then
        w1.arm { expiration := w1.now + timeSub t.NextRunAt w.now, every := none,
                 f := .after ctx task }
      else (w1, none) := by
  unfold submitBody
  simp only [hg, hc, ne_eq, not_true_eq_false, if_false, orReturn_pure, AfterFunc]

end storage

namespace storage

/-! ## Terminal rows -/

theorem getElem?_set_same {α : Type} (l : List α) (i : Nat) (a b : α) (h : l[i]? = some a) :
    (l.set i b)[i]? = some b := by
  have hi : i < l.length := by
    by_contra hc
    rw [List.getElem?_eq_none (by omega)] at h
    cases h
  simp [List.getElem?_set, hi]

theorem map_keep {f : TaskEntity → TaskEntity} (rows : List TaskEntity) (i : Nat)
    (r : TaskEntity) (hr : rows[i]? = some r) (hf : f r = r) : (rows.map f)[i]? = some r := by
  rw [List.getElem?_map, hr, Option.map_some', hf]

theorem updateRunning_keep (rows : List TaskEntity) (t : TaskEntity) (l : Option Time)
    (now : Time) (status : Int) (i : Nat) (r : TaskEntity) (hr : rows[i]? = some r)
    (h : r.Status ≠ status) : (updateRunning rows t l now status)[i]? = some r := by
  unfold updateRunning
  apply map_keep rows i r hr
  rw [if_neg]
  exact fun hc => h hc.2

theorem updateRetry_keep (rows : List TaskEntity) (t : TaskEntity) (now : Time) (i : Nat)
    (r : TaskEntity) (hr : rows[i]? = some r) (h : r.Status ≠ 1) :
    (updateRetry rows t now)[i]? = some r := by
  unfold updateRetry
  apply map_keep rows i r hr
  rw [if_neg]
  exact fun hc => h hc.2

theorem updateSucceeded_keep (rows : List TaskEntity) (t : TaskEntity) (now : Time) (i : Nat)
    (r : TaskEntity) (hr : rows[i]? = some r) (h : r.Status ≠ 1) :
    (updateSucceeded rows t now)[i]? = some r := by
  unfold updateSucceeded
  apply map_keep rows i r hr
  rw [if_neg]
  exact fun hc => h hc.2

theorem execUpdate_keep (w : World) (rows : List TaskEntity) (i : Nat) (r : TaskEntity)
    (hr : w.rows[i]? = some r) (h : rows[i]? = some r) :
    (execUpdate w rows).1.rows[i]? = some r := by
  unfold execUpdate
  split
  · exact hr
  · exact h

theorem arm_rows (w : World) (t : Timer) : (w.arm t).1.rows = w.rows := by
  unfold World.arm; split <;> rfl

theorem orReturn_keep (r0 : World × Option Err) (k : World → World × Option Err) (i : Nat)
    (r : TaskEntity) (h0 : r0.1.rows[i]? = some r)
    (hk : ∀ w1, w1.rows[i]? = some r → (k w1).1.rows[i]? = some r) :
    (orReturn r0 k).1.rows[i]? = some r := by
  rcases r0 with ⟨w, _ | e⟩
  · exact hk w h0
  · exact h0

theorem submitBody_keep (w : World) (ctx : trace.Context) (task : Nat) (t : TaskEntity)
    (status : Int) (i : Nat) (r : TaskEntity) (hr : w.rows[i]? = some r)
    (h : r.Status ≠ status) : (submitBody w ctx task t status).1.rows[i]? = some r := by
  unfold submitBody
  apply orReturn_keep
  · split
    · exact execUpdate_keep w _ i r hr (updateRunning_keep _ _ _ _ _ i r hr h)
    · exact hr
  · intro w1 h1
    split
    · exact h1
    · apply orReturn_keep
      · split
        · rw [AfterFunc, arm_rows]; exact h1
        · exact h1
      · intro w2 h2
        split
        · split
          · exact h2
          · rw [ScheduleFunc, arm_rows]; exact h2
        · exact h2

/-- C6, amended. A row that is SUCCEEDED (2) or FAILED (3) keeps every field
through `Success`, through `Submit` called with `fromStatus` -1, 0 or 1 on a task
with `fail_count < len(backoff)`, and through `Failure` on a task with
`fail_count < len(backoff)` whose retry is scheduled: either the next delay
`backoff[fail_count]` exceeds `fast_path_time`, or `fail_count + 1 <
len(backoff)`. -/
theorem terminal_rows_kept (d : Storage) (w : World) (i : Nat) (r : TaskEntity)
    (hr : w.rows[i]? = some r) (hterm : r.Status = 2 ∨ r.Status = 3)
    (ctx : trace.Context) (task : Nat) (t : TaskEntity) (ht : w.heap[task]? = some t)
    (hfc : t.FailCount < (t.Backoff.length : Int)) :
    (Success w ctx task).1.rows[i]? = some r ∧
    (∀ fuel status, status = -1 ∨ status = 0 ∨ status = 1 →
      (Submit d fuel w ctx task status).1.rows[i]? = some r) ∧
    (∀ fuel delay, sliceIndex t.Backoff t.FailCount = some delay →
      (¬ (durationMul delay Second ≤ d.cfg.FastPathTime) ∨
        t.FailCount + 1 < (t.Backoff.length : Int)) →
      (Failure d fuel w ctx task).1.rows[i]? = some r) := by
  have h1 : r.Status ≠ 1 := by omega
  refine ⟨?_, ?_, ?_⟩
  · unfold Success
    simp only [ht]
    split
    · exact hr
    · exact execUpdate_keep w _ i r hr (updateSucceeded_keep _ _ _ i r hr h1)
  · intro fuel status hs
    cases fuel with
    | zero => simpa [Submit] using hr
    | succ fuel =>
      rw [Submit_live d fuel w ctx task status t ht hfc]
      exact submitBody_keep w ctx task t status i r hr (by omega)
  · intro fuel delay hi hcase
    cases fuel with
    | zero => simpa [Failure] using hr
    | succ fuel =>
      cases hg : GetDelayTime t with
      | none => rw [Failure]; simpa [ht, hg] using hr
      | some v =>
        by_cases hf : durationMul delay Second ≤ d.cfg.FastPathTime
        · have hlen : t.FailCount + 1 < (t.Backoff.length : Int) := by
            rcases hcase with h | h
            · exact absurd hf h
            · exact h
          rw [Failure_fast d fuel w ctx task t v delay ht hg hfc hi hf]
          cases fuel with
          | zero => simpa [Submit] using hr
          | succ fuel =>
            have hlen2 : ({ (retryFields t delay w.now) with
                FailCount := t.FailCount + 1 } : TaskEntity).FailCount <
                (({ (retryFields t delay w.now) with
                  FailCount := t.FailCount + 1 } : TaskEntity).Backoff.length : Int) := hlen
            rw [Submit_live d fuel _ ctx task 1 _ (getElem?_set_same w.heap task t _ ht) hlen2]
            exact submitBody_keep _ ctx task _ 1 i r hr h1
        · rw [Failure_slow d fuel w ctx task t v delay ht hg hfc hi hf]
          exact execUpdate_keep _ _ i r hr (updateRetry_keep _ _ _ i r hr h1)

end storage

namespace storage

theorem terminal_rows_kept_witness :
    (Success doneWorld .background 0).1.rows[0]? = some doneRow ∧
    (∀ fuel status, status = -1 ∨ status = 0 ∨ status = 1 →
      (Submit testStorage fuel doneWorld .background 0 status).1.rows[0]? = some doneRow) ∧
    (∀ fuel delay, sliceIndex [(20 : Int), 30] 0 = some delay →
      (¬ (durationMul delay Second ≤ testStorage.cfg.FastPathTime) ∨
        (0 : Int) + 1 < (([(20 : Int), 30] : List Int).length : Int)) →
      (Failure testStorage fuel doneWorld .background 0).1.rows[0]? = some doneRow) :=
  terminal_rows_kept testStorage doneWorld 0 doneRow rfl (Or.inl rfl) .background 0
    { doneRow with Status := 1 } rfl (by decide)

/-- C6, the claim as stated fails. In `scenarioCronAfterSuccess` the row is
SUCCEEDED after the attempt at 5 s; the cron firing at 10 s fails, `Failure`
increments `fail_count` to `len(backoff)` and the update of the exhausted
retries, which has no `status` guard, turns the SUCCEEDED row into FAILED. And
`Submit` called with `fromStatus` = 2 on the SUCCEEDED row makes it RUNNING. -/
theorem terminal_row_overwritten :
    (run testStorage testWorld (scenarioCronAfterSuccess.take 5)).rows.map
      (fun r => (r.TaskNo, r.Status)) = [(1003, 2)] ∧
    (run testStorage testWorld scenarioCronAfterSuccess).rows.map
      (fun r => (r.TaskNo, r.Status)) = [(1003, 3)] ∧
    (Submit testStorage callDepth (run testStorage testWorld (scenarioCronAfterSuccess.take 5))
      .background 0 2).1.rows.map (fun r => (r.TaskNo, r.Status)) = [(1003, 1)] := by
  decide!

/-! ## The success criterion of `Execute` -/

/-- C7. For a task whose scheme has a registered adapter (and whose
`fail_count` does not exceed `len(backoff)`), `Execute` injects the correlation
record, calls `Request` once, and then is `Success` when `Request` returned no
error and exactly `"SUCCESS"`; in every other case it is `Failure` on the task
with exactly one fail message `{resp, err}` appended, `err` being the error text
or empty. -/
theorem Execute_success_criterion (d : Storage) (w : World) (net : callback.Reply)
    (ctx : trace.Context) (task : Nat) (t : TaskEntity) (p : callback.Payload)
    (a : callback.ICallback) (ht : w.heap[task]? = some t) (hp : t.Payload = some p)
    (ha : d.adapter (toUpper d.upper p.Schema) = some a)
    (hfc : t.FailCount ≤ (t.Backoff.length : Int)) :
    let p1 := injectOriginal p t.TaskNo (trace.Get ctx)
    let reply := a.Request net w.now t.RunTimeoutAt (trace.Set .background (trace.Get ctx)) p1
    let w1 := afterRequest w ctx task t p1
    let t2 : TaskEntity :=
      { t with Payload := some p1,
               FailMsgs := t.FailMsgs ++ [{ Resp := reply.resp, Err := reply.err.getD "" }] }
    w1.requests = w.requests ++
      [{ TaskNo := t.TaskNo, traceId := trace.Get ctx, deadline := t.RunTimeoutAt,
         payload := p1 }] ∧
    (reply.err = none ∧ reply.resp = "SUCCESS" →
      Execute d w net ctx task = Success w1 ctx task) ∧
    (¬ (reply.err = none ∧ reply.resp = "SUCCESS") →
      Execute d w net ctx task =
        Failure d callDepth { w1 with heap := w1.heap.set task t2 } ctx task) := by
  obtain ⟨v, hv⟩ := GetDelayTime_some t hfc
  intro p1 reply w1 t2
  refine ⟨rfl, ?_, ?_⟩
  · intro hok
    unfold Execute
    simp only [ht, hv, hp, ha]
    rw [if_pos hok]
  · intro hno
    have ht2 : (({ t with Payload := some p1 } : TaskEntity).WithFailMsg (failMsgOf reply)) = t2 := by
      simp only [TaskEntity.WithFailMsg, failMsgOf, t2]
      cases reply.err <;> rfl
    unfold Execute
    simp only [ht, hv, hp, ha]
    rw [if_neg hno, ht2]

theorem Execute_success_criterion_witness :
    let t := { doneRow with Status := 1 }
    let p : callback.Payload := { Schema := "fmt", Url := "", Path := "", Data := none }
    let p1 := injectOriginal p t.TaskNo (trace.Get .background)
    let reply := callback.NewFmt.Request { resp := "", err := none } doneWorld.now
      t.RunTimeoutAt (trace.Set .background (trace.Get .background)) p1
    let w1 := afterRequest doneWorld .background 0 t p1
    let t2 : TaskEntity :=
      { t with Payload := some p1,
               FailMsgs := t.FailMsgs ++ [{ Resp := reply.resp, Err := reply.err.getD "" }] }
    w1.requests = doneWorld.requests ++
      [{ TaskNo := t.TaskNo, traceId := trace.Get .background, deadline := t.RunTimeoutAt,
         payload := p1 }] ∧
    (reply.err = none ∧ reply.resp = "SUCCESS" →
      Execute testStorage doneWorld { resp := "", err := none } .background 0 =
        Success w1 .background 0) ∧
    (¬ (reply.err = none ∧ reply.resp = "SUCCESS") →
      Execute testStorage doneWorld { resp := "", err := none } .background 0 =
        Failure testStorage callDepth { w1 with heap := w1.heap.set 0 t2 } .background 0) :=
  Execute_success_criterion testStorage doneWorld { resp := "", err := none } .background 0
    { doneRow with Status := 1 } { Schema := "fmt", Url := "", Path := "", Data := none }
    callback.NewFmt rfl rfl rfl (by decide)

end storage

namespace storage

/-! ## `Add`: the fast path and the slow path -/

theorem insertRow_ok (w : World) (t : TaskEntity) (hf : w.failed = false)
    (hfresh : ∀ r ∈ w.rows, r.TaskNo ≠ t.TaskNo) :
    insertRow w t =
      ({ w.next with rows := w.rows ++
          [{ t with Id := (w.rows.length : Int) + 1, FailMsgs := [], LastRetryAt := none }] },
        none) := by
  have hany : (w.rows.any fun r => r.TaskNo == t.TaskNo) = false := by
    rw [List.any_eq_false]
    intro r hr
    simpa using hfresh r hr
  simp [insertRow, hf, hany]

theorem insertRow_none (w w2 : World) (t : TaskEntity) (h : insertRow w t = (w2, none)) :
    w2 = { w.next with rows := w.rows ++
          [{ t with Id := (w.rows.length : Int) + 1, FailMsgs := [], LastRetryAt := none }] } := by
  unfold insertRow at h
  split at h
  · cases h
  · split at h
    · cases h
    · cases h; rfl

/-- C4. The row `Add` inserts has `(status, fail_count) = (RUNNING, 0)` exactly
when `time.Duration(delay_time) * time.Second <= fast_path_time`, and `(PENDING,
-1)` otherwise. When the `INSERT` is accepted the row joins the table; on the
slow path `Add` then returns at once, the wheel untouched, and on the fast path
it goes on with `Submit(task, -1)`. -/
theorem Add_path_decision (d : Storage) (w : World) (ctx : trace.Context) (opts : List Opt)
    (taskNo : Int) :
    let o := applyOptions opts
    let row := newTaskEntity d w.now ctx o taskNo
    let w2 : World :=
      { w.next with heap := w.heap ++ [row],
                    rows := w.rows ++ [{ row with Id := (w.rows.length : Int) + 1 }] }
    ((row.Status = 1 ∧ row.FailCount = 0) ↔
      durationMul o.delayTime Second ≤ d.cfg.FastPathTime) ∧
    (¬ (durationMul o.delayTime Second ≤ d.cfg.FastPathTime) →
      row.Status = 0 ∧ row.FailCount = -1) ∧
    (w.failed = false → (∀ r ∈ w.rows, r.TaskNo ≠ taskNo) →
      (¬ (durationMul o.delayTime Second ≤ d.cfg.FastPathTime) →
        Add d w ctx opts taskNo = (w2, taskNo, none) ∧ w2.timers = w.timers) ∧
      (durationMul o.delayTime Second ≤ d.cfg.FastPathTime →
        (Add d w ctx opts taskNo).1 =
          (Submit d callDepth w2 (trace.Set .background (trace.Get ctx))
            w.heap.length (-1)).1)) := by
  intro o row w2
  have hTask : row.TaskNo = taskNo := by
    simp only [row, newTaskEntity]; split <;> rfl
  refine ⟨?_, ?_, ?_⟩
  · simp only [row, newTaskEntity]
    split
    · simp [*]
    · simp [*]
  · intro hslow
    simp only [row, newTaskEntity, if_neg hslow, and_self]
  · intro hf hfresh
    have hf1 : ({ w with heap := w.heap ++ [row] } : World).failed = false := hf
    have hfresh1 : ∀ r ∈ ({ w with heap := w.heap ++ [row] } : World).rows,
        r.TaskNo ≠ row.TaskNo := by
      intro r hr
      rw [hTask]
      exact hfresh r hr
    have hw2 : ({ ({ w with heap := w.heap ++ [row] } : World).next with
        rows := ({ w with heap := w.heap ++ [row] } : World).rows ++
          [{ row with
              Id := (({ w with heap := w.heap ++ [row] } : World).rows.length : Int) + 1
              FailMsgs := []
              LastRetryAt := none }] } : World) = w2 := by
      simp only [w2, row, newTaskEntity]
      split <;> rfl
    have hins : insertRow { w with heap := w.heap ++ [row] } row = (w2, none) := by
      rw [insertRow_ok _ _ hf1 hfresh1, hw2]
    constructor
    · intro hslow
      refine ⟨?_, rfl⟩
      simp only [Add]
      rw [hins]
      simp only [Option.isSome_none, Bool.false_eq_true, if_false]
      rw [if_neg hslow, hTask]
    · intro hfast
      simp only [Add]
      rw [hins]
      simp only [Option.isSome_none, Bool.false_eq_true, if_false]
      rw [if_pos hfast]
      split <;> rfl

end storage

namespace storage

theorem Add_path_decision_witness :
    (Add testStorage testWorld .background [WithDelayTime 20, WithBackoff [4, 25]] 1008).2
      = (1008, none) ∧
    (Add testStorage testWorld .background [WithDelayTime 20, WithBackoff [4, 25]] 1008).1.timers
      = testWorld.timers := by
  have h := ((Add_path_decision testStorage testWorld .background
    [WithDelayTime 20, WithBackoff [4, 25]] 1008).2.2 (by decide!) (by decide!)).1 (by decide!)
  rw [h.1]
  exact ⟨rfl, h.2⟩

theorem arm_heap (w : World) (t : Timer) : (w.arm t).1.heap = w.heap := by
  unfold World.arm; split <;> rfl

theorem arm_none (w w2 : World) (x : Timer) (h : w.arm x = (w2, none)) :
    w2 = { w.next with timers := w.timers ++ [x] } := by
  unfold World.arm at h
  split at h
  · cases h
  · cases h; rfl

theorem arm_timers_prefix (w : World) (x : Timer) :
    ∃ l, (w.arm x).1.timers = w.timers ++ l := by
  unfold World.arm
  split
  · exact ⟨[], by simp⟩
  · exact ⟨[x], rfl⟩

/-- `submitBody` called with `fromStatus` = -1 on a task with a non-zero delay:
when it returns no error the rows and the heap are untouched and the one-shot
timer `x` is in the wheel. -/
theorem submitBody_armed (w : World) (ctx : trace.Context) (task : Nat) (t : TaskEntity)
    (x : Timer)
    (hx : x = { expiration := w.now + timeSub t.NextRunAt w.now, every := none,
                f := .after ctx task })
    (hd : t.DelayTime ≠ 0) (hok : (submitBody w ctx task t (-1)).2 = none) :
    (submitBody w ctx task t (-1)).1.rows = w.rows ∧
    (submitBody w ctx task t (-1)).1.heap = w.heap ∧
    x ∈ (submitBody w ctx task t (-1)).1.timers := by
  unfold submitBody at hok ⊢
  have hs : ¬ ((-1 : Int) > -1) := by omega
  simp only [if_neg hs, orReturn_none, if_pos hd, AfterFunc, ← hx] at hok ⊢
  cases hg : GetDelayTime t with
  | none => simp [hg] at hok
  | some v =>
    simp only [hg] at hok ⊢
    rcases harm : w.arm x with ⟨w2, _ | e⟩
    · have hw2 := arm_none _ _ _ harm
      simp only [harm, orReturn_none] at hok ⊢
      have hmem : x ∈ w2.timers := by rw [hw2]; simp
      have hr : w2.rows = w.rows := by rw [hw2]; rfl
      have hh : w2.heap = w.heap := by rw [hw2]; rfl
      split
      · split
        · exact ⟨hr, hh, hmem⟩
        · rw [ScheduleFunc]
          obtain ⟨l, hl⟩ := arm_timers_prefix w2 _
          refine ⟨by rw [arm_rows, hr], by rw [arm_heap, hh], ?_⟩
          rw [hl]
          exact List.mem_append_left _ hmem
      · exact ⟨hr, hh, hmem⟩
    · simp [harm] at hok

theorem newTaskEntity_fast (d : Storage) (now : Time) (ctx : trace.Context) (o : options)
    (taskNo : Int) (hfast : durationMul o.delayTime Second ≤ d.cfg.FastPathTime) :
    (newTaskEntity d now ctx o taskNo).TaskNo = taskNo ∧
    (newTaskEntity d now ctx o taskNo).Status = 1 ∧
    (newTaskEntity d now ctx o taskNo).FailCount = 0 ∧
    (newTaskEntity d now ctx o taskNo).Backoff = o.backoff ∧
    (newTaskEntity d now ctx o taskNo).DelayTime = o.delayTime ∧
    (newTaskEntity d now ctx o taskNo).NextRunAt = now + durationMul o.delayTime Second := by
  simp only [newTaskEntity, if_pos hfast, and_self]

/-- The world `Add` leaves behind and the error it returns, told by its steps. -/
theorem Add_result (d : Storage) (w : World) (ctx : trace.Context) (opts : List Opt)
    (taskNo : Int) (task : TaskEntity) (ins sub : World × Option Err)
    (htask : task = newTaskEntity d w.now ctx (applyOptions opts) taskNo)
    (hins : ins = insertRow { w with heap := w.heap ++ [task] } task)
    (hsub : sub = Submit d callDepth ins.1 (trace.Set .background (trace.Get ctx))
      w.heap.length (-1)) :
    (Add d w ctx opts taskNo).1 =
      (if ins.2.isSome then ins.1
       else if durationMul (applyOptions opts).delayTime Second ≤ d.cfg.FastPathTime then sub.1
       else ins.1) ∧
    (Add d w ctx opts taskNo).2.2 =
      (if ins.2.isSome then ins.2
       else if durationMul (applyOptions opts).delayTime Second ≤ d.cfg.FastPathTime then sub.2
       else none) := by
  subst htask hins hsub
  simp only [Add]
  split
  · exact ⟨rfl, rfl⟩
  · split
    · split
      · exact ⟨rfl, rfl⟩
      · rename_i h
        refine ⟨rfl, ?_⟩
        simp only [Bool.not_eq_true, Option.not_isSome, Option.isNone_iff_eq_none] at h
        exact h.symm
    · exact ⟨rfl, rfl⟩

/-- C3, amended. For a non-zero `delay_time` with `time.Duration(delay_time) *
time.Second <= fast_path_time` and a non-empty backoff list, when `Add` returns
without error the row it inserted is in the table with `status` = RUNNING (1) and
`fail_count` = 0, and the wheel holds a one-shot timer whose function is
`Execute` on the object of that task. -/
theorem Add_fast_path_arms (d : Storage) (w : World) (ctx : trace.Context) (opts : List Opt)
    (taskNo : Int)
    (hfast : durationMul (applyOptions opts).delayTime Second ≤ d.cfg.FastPathTime)
    (hdelay : (applyOptions opts).delayTime ≠ 0) (hb : (applyOptions opts).backoff ≠ [])
    (hok : (Add d w ctx opts taskNo).2.2 = none) :
    ∃ row x t,
      (Add d w ctx opts taskNo).1.rows = w.rows ++ [row] ∧
      row.TaskNo = taskNo ∧ row.Status = 1 ∧ row.FailCount = 0 ∧
      x ∈ (Add d w ctx opts taskNo).1.timers ∧ x.every = none ∧
      x.f = .after (trace.Set .background (trace.Get ctx)) w.heap.length ∧
      x.expiration = w.now +
        timeSub (w.now + durationMul (applyOptions opts).delayTime Second) w.now ∧
      (Add d w ctx opts taskNo).1.heap[w.heap.length]? = some t ∧ t.TaskNo = taskNo := by
  obtain ⟨h1, h2, h3, h4, h5, h6⟩ :=
    newTaskEntity_fast d w.now ctx (applyOptions opts) taskNo hfast
  generalize htask : newTaskEntity d w.now ctx (applyOptions opts) taskNo = task at h1 h2 h3 h4 h5 h6
  obtain ⟨hA1, hA2⟩ := Add_result d w ctx opts taskNo task _ _ htask.symm rfl rfl
  rw [hA2] at hok
  rw [hA1]
  rcases hins : insertRow { w with heap := w.heap ++ [task] } task with ⟨w2, _ | e⟩
  · have hw2 := insertRow_none _ _ _ hins
    have hheap : w2.heap[w.heap.length]? = some task := by rw [hw2]; simp
    have hlive : task.FailCount < (task.Backoff.length : Int) := by
      rw [h3, h4]
      have : 0 < (applyOptions opts).backoff.length := List.length_pos.mpr hb
      omega
    have hsub : Submit d callDepth w2 (trace.Set .background (trace.Get ctx)) w.heap.length (-1)
        = submitBody w2 (trace.Set .background (trace.Get ctx)) w.heap.length task (-1) :=
      Submit_live d 2 w2 _ _ _ _ hheap hlive
    simp only [hins, hsub, Option.isSome_none, Bool.false_eq_true, if_false, if_pos hfast]
      at hok ⊢
    obtain ⟨hr, hh, hx⟩ := submitBody_armed w2 (trace.Set .background (trace.Get ctx))
      w.heap.length task _ rfl (by rw [h5]; exact hdelay) hok
    have hrows : w2.rows = w.rows ++ [{ task with
        Id := (w.rows.length : Int) + 1
        FailMsgs := []
        LastRetryAt := none }] := by rw [hw2]
    have hnow : w2.now = w.now := by rw [hw2]; rfl
    refine ⟨_, _, task, hr.trans hrows, h1, h2, h3, hx, rfl, rfl, ?_, ?_, h1⟩
    · simp only [hnow, h6]
    · rw [hh, hheap]
  · simp [hins] at hok

theorem Add_fast_path_arms_witness :
    ∃ row x t,
      (Add testStorage testWorld .background [WithDelayTime 5, WithBackoff [2, 16]] 1001).1.rows
        = testWorld.rows ++ [row] ∧
      row.TaskNo = 1001 ∧ row.Status = 1 ∧ row.FailCount = 0 ∧
      x ∈ (Add testStorage testWorld .background
            [WithDelayTime 5, WithBackoff [2, 16]] 1001).1.timers ∧
      x.every = none ∧
      x.f = .after (trace.Set .background (trace.Get .background)) testWorld.heap.length ∧
      x.expiration = testWorld.now +
        timeSub (testWorld.now +
          durationMul (applyOptions [WithDelayTime 5, WithBackoff [2, 16]]).delayTime Second)
          testWorld.now ∧
      (Add testStorage testWorld .background
          [WithDelayTime 5, WithBackoff [2, 16]] 1001).1.heap[testWorld.heap.length]? = some t ∧
      t.TaskNo = 1001 :=
  Add_fast_path_arms testStorage testWorld .background [WithDelayTime 5, WithBackoff [2, 16]] 1001
    (by decide!) (by decide!) (by decide!) (by decide!)

/-- C3, the claim as stated fails. `Add(delay=0)` with the default backoff is on
the fast path and returns no error: the row is RUNNING with `fail_count` = 0, but
`Submit` skips the one-shot timer (`DelayTime != 0` is false) and, there being no
cron expression, the wheel holds no timer for the task. And `Add(delay=5,
backoff=[])` returns no error with the row already FAILED and no timer armed. -/
theorem Add_fast_path_without_timer :
    (Add testStorage testWorld .background [WithDelayTime 0] 1006).2.2 = none ∧
    (Add testStorage testWorld .background [WithDelayTime 0] 1006).1.rows.map
      (fun r => (r.TaskNo, r.Status, r.FailCount)) = [(1006, 1, 0)] ∧
    (Add testStorage testWorld .background [WithDelayTime 0] 1006).1.timers.map
      (fun x => x.f) = [Closure.pending] ∧
    (Add testStorage testWorld .background [WithDelayTime 5, WithBackoff []] 1007).2.2 = none ∧
    (Add testStorage testWorld .background [WithDelayTime 5, WithBackoff []] 1007).1.rows.map
      (fun r => (r.TaskNo, r.Status, r.FailCount)) = [(1007, 3, 0)] ∧
    (Add testStorage testWorld .background [WithDelayTime 5, WithBackoff []] 1007).1.timers.map
      (fun x => x.f) = [Closure.pending] := by
  decide!

end storage

namespace storage

/-! ## The effect of the store operations -/

theorem RowStatic.refl_row (r : TaskEntity) : RowStatic r r :=
  ⟨rfl, rfl, rfl, rfl, rfl, rfl, rfl, rfl, rfl, rfl⟩

theorem RowStatic.trans_row {a b c : TaskEntity} (h1 : RowStatic a b) (h2 : RowStatic b c) :
    RowStatic a c := by
  obtain ⟨a1, a2, a3, a4, a5, a6, a7, a8, a9, a10⟩ := h1
  obtain ⟨b1, b2, b3, b4, b5, b6, b7, b8, b9, b10⟩ := h2
  exact ⟨b1.trans a1, b2.trans a2, b3.trans a3, b4.trans a4, b5.trans a5, b6.trans a6,
    b7.trans a7, b8.trans a8, b9.trans a9, b10.trans a10⟩

theorem ObjStatic.refl_obj (o : TaskEntity) : ObjStatic o o := ⟨rfl, rfl, rfl, rfl, id⟩

theorem ObjStatic.trans_obj {a b c : TaskEntity} (h1 : ObjStatic a b) (h2 : ObjStatic b c) :
    ObjStatic a c := by
  obtain ⟨a1, a2, a3, a4, a5⟩ := h1
  obtain ⟨b1, b2, b3, b4, b5⟩ := h2
  exact ⟨b1.trans a1, b2.trans a2, b3.trans a3, b4.trans a4, fun h => b5 (a5 h)⟩

theorem Eff.refl_eff (T : Int) (p : Nat) (w : World) : Eff T p w w where
  now := rfl
  ns := rfl
  rows := ⟨id, by simp, fun r => ⟨RowStatic.refl_row r, fun _ => rfl, id⟩⟩
  heap_len := rfl
  heap_other := fun _ _ => rfl
  heap_self := fun o h => ⟨o, h, ObjStatic.refl_obj o⟩
  timers := ⟨[], by simp, by simp⟩
  requests := ⟨[], by simp, by simp⟩
  faults := ⟨0, rfl⟩

theorem Eff.trans_eff {T : Int} {p : Nat} {w w1 w2 : World} (h1 : Eff T p w w1)
    (h2 : Eff T p w1 w2) : Eff T p w w2 where
  now := h2.now.trans h1.now
  ns := h2.ns.trans h1.ns
  rows := by
    obtain ⟨f1, e1, g1⟩ := h1.rows
    obtain ⟨f2, e2, g2⟩ := h2.rows
    refine ⟨f2 ∘ f1, by rw [e2, e1, List.map_map], fun r => ⟨?_, ?_, ?_⟩⟩
    · exact (g1 r).1.trans_row (g2 (f1 r)).1
    · intro hT
      have e := (g1 r).2.1 hT
      show f2 (f1 r) = r
      rw [e]
      exact (g2 r).2.1 hT
    · intro hv
      exact (g2 (f1 r)).2.2 ((g1 r).2.2 hv)
  heap_len := h2.heap_len.trans h1.heap_len
  heap_other := fun q hq => (h2.heap_other q hq).trans (h1.heap_other q hq)
  heap_self := by
    intro o ho
    obtain ⟨o1, ho1, s1⟩ := h1.heap_self o ho
    obtain ⟨o2, ho2, s2⟩ := h2.heap_self o1 ho1
    exact ⟨o2, ho2, s1.trans_obj s2⟩
  timers := by
    obtain ⟨n1, e1, g1⟩ := h1.timers
    obtain ⟨n2, e2, g2⟩ := h2.timers
    refine ⟨n1 ++ n2, by rw [e2, e1, List.append_assoc], ?_⟩
    intro x hx
    rcases List.mem_append.mp hx with h | h
    · exact g1 x h
    · exact g2 x h
  requests := by
    obtain ⟨n1, e1, g1⟩ := h1.requests
    obtain ⟨n2, e2, g2⟩ := h2.requests
    refine ⟨n1 ++ n2, by rw [e2, e1, List.append_assoc], ?_⟩
    intro x hx
    rcases List.mem_append.mp hx with h | h
    · exact g1 x h
    · exact g2 x h
  faults := by
    obtain ⟨k1, e1⟩ := h1.faults
    obtain ⟨k2, e2⟩ := h2.faults
    exact ⟨k1 + k2, by rw [e2, e1, List.drop_drop, Nat.add_comm]⟩

/-- Worlds that differ only in the fault script and the error log. -/
theorem Eff_of_same (T : Int) (p : Nat) (w w1 : World) (h1 : w1.now = w.now)
    (h2 : w1.ns = w.ns) (h3 : w1.rows = w.rows) (h4 : w1.heap = w.heap)
    (h5 : w1.timers = w.timers) (h6 : w1.requests = w.requests)
    (h7 : ∃ k, w1.faults = w.faults.drop k) : Eff T p w w1 where
  now := h1
  ns := h2
  rows := ⟨id, by simp [h3], fun r => ⟨RowStatic.refl_row r, fun _ => rfl, id⟩⟩
  heap_len := by rw [h4]
  heap_other := fun _ _ => by rw [h4]
  heap_self := fun o h => ⟨o, by rw [h4]; exact h, ObjStatic.refl_obj o⟩
  timers := ⟨[], by simp [h5], by simp⟩
  requests := ⟨[], by simp [h6], by simp⟩
  faults := h7

theorem Eff_next (T : Int) (p : Nat) (w : World) : Eff T p w w.next :=
  Eff_of_same T p w w.next rfl rfl rfl rfl rfl rfl ⟨1, by simp [World.next]⟩

theorem Eff_collect (T : Int) (p : Nat) (w : World) (e : Err) : Eff T p w (collect w e) :=
  Eff_of_same T p w _ rfl rfl rfl rfl rfl rfl ⟨0, rfl⟩

theorem Eff_setHeap (T : Int) (p : Nat) (w : World) (o o1 : TaskEntity)
    (ho : w.heap[p]? = some o) (hs : ObjStatic o o1) :
    Eff T p w { w with heap := w.heap.set p o1 } where
  now := rfl
  ns := rfl
  rows := ⟨id, by simp, fun r => ⟨RowStatic.refl_row r, fun _ => rfl, id⟩⟩
  heap_len := by simp
  heap_other := fun q hq => by
    show (w.heap.set p o1)[q]? = w.heap[q]?
    rw [List.getElem?_set_ne (Ne.symm hq)]
  heap_self := fun o2 h2 => by
    refine ⟨o1, getElem?_set_same w.heap p o o1 ho, ?_⟩
    rw [ho] at h2
    cases h2
    exact hs
  timers := ⟨[], by simp, by simp⟩
  requests := ⟨[], by simp, by simp⟩
  faults := ⟨0, rfl⟩

theorem Eff_arm (T : Int) (p : Nat) (w : World) (x : Timer)
    (hx : ∃ ctx, x.f = .after ctx p ∨ x.f = .cron ctx p) : Eff T p w (w.arm x).1 := by
  unfold World.arm
  split
  · exact Eff_next T p w
  · exact
      { now := rfl
        ns := rfl
        rows := ⟨id, by simp, fun r => ⟨RowStatic.refl_row r, fun _ => rfl, id⟩⟩
        heap_len := rfl
        heap_other := fun _ _ => rfl
        heap_self := fun o h => ⟨o, h, ObjStatic.refl_obj o⟩
        timers := ⟨[x], rfl, by simpa using hx⟩
        requests := ⟨[], by simp, by simp⟩
        faults := ⟨1, by simp [World.next]⟩ }

theorem Eff_execUpdate (T : Int) (p : Nat) (w : World) (f : TaskEntity → TaskEntity)
    (hf : ∀ r, RowStatic r (f r) ∧ (r.TaskNo ≠ T → f r = r) ∧ (validStatus r → validStatus (f r))) :
    Eff T p w (execUpdate w (w.rows.map f)).1 := by
  unfold execUpdate
  split
  · exact Eff_next T p w
  · exact
      { now := rfl
        ns := rfl
        rows := ⟨f, rfl, hf⟩
        heap_len := rfl
        heap_other := fun _ _ => rfl
        heap_self := fun o h => ⟨o, h, ObjStatic.refl_obj o⟩
        timers := ⟨[], by simp, by simp⟩
        requests := ⟨[], by simp, by simp⟩
        faults := ⟨1, by simp [World.next]⟩ }

theorem Eff_orReturn (T : Int) (p : Nat) (w : World) (r : World × Option Err)
    (k : World → World × Option Err) (h1 : Eff T p w r.1)
    (h2 : ∀ w1, Eff T p w w1 → Eff T p w (k w1).1) : Eff T p w (orReturn r k).1 := by
  rcases r with ⟨w1, _ | e⟩
  · exact h2 w1 h1
  · exact h1

end storage

namespace storage

theorem validStatus_of (r : TaskEntity) (s : Int) (h : s = 0 ∨ s = 1 ∨ s = 2 ∨ s = 3) :
    validStatus { r with Status := s } := h

theorem updateRunning_step (T : Int) (t : TaskEntity) (hT : t.TaskNo = T) (l : Option Time)
    (now : Time) (status : Int) (r : TaskEntity) :
    RowStatic r (if r.TaskNo = t.TaskNo ∧ r.Status = status then
        { r with Status := 1, FailCount := t.FailCount, FailMsgs := t.FailMsgs,
                 NextRunAt := t.NextRunAt, RunTimeoutAt := t.RunTimeoutAt,
                 LastRetryAt := l, UpdatedAt := now } else r) ∧
    (r.TaskNo ≠ T → (if r.TaskNo = t.TaskNo ∧ r.Status = status then
        { r with Status := 1, FailCount := t.FailCount, FailMsgs := t.FailMsgs,
                 NextRunAt := t.NextRunAt, RunTimeoutAt := t.RunTimeoutAt,
                 LastRetryAt := l, UpdatedAt := now } else r) = r) ∧
    (validStatus r → validStatus (if r.TaskNo = t.TaskNo ∧ r.Status = status then
        { r with Status := 1, FailCount := t.FailCount, FailMsgs := t.FailMsgs,
                 NextRunAt := t.NextRunAt, RunTimeoutAt := t.RunTimeoutAt,
                 LastRetryAt := l, UpdatedAt := now } else r)) := by
  subst hT
  split
  · rename_i h
    exact ⟨RowStatic.refl_row r, fun hne => absurd h.1 hne, fun _ => Or.inr (Or.inl rfl)⟩
  · exact ⟨RowStatic.refl_row r, fun _ => rfl, id⟩

theorem updateRetry_step (T : Int) (t : TaskEntity) (hT : t.TaskNo = T)
    (now : Time) (r : TaskEntity) :
    RowStatic r (if r.TaskNo = t.TaskNo ∧ r.Status = 1 then
        { r with Status := 0, FailCount := t.FailCount, FailMsgs := t.FailMsgs,
                 NextRunAt := t.NextRunAt, RunTimeoutAt := t.RunTimeoutAt,
                 LastRetryAt := some now, UpdatedAt := now } else r) ∧
    (r.TaskNo ≠ T → (if r.TaskNo = t.TaskNo ∧ r.Status = 1 then
        { r with Status := 0, FailCount := t.FailCount, FailMsgs := t.FailMsgs,
                 NextRunAt := t.NextRunAt, RunTimeoutAt := t.RunTimeoutAt,
                 LastRetryAt := some now, UpdatedAt := now } else r) = r) ∧
    (validStatus r → validStatus (if r.TaskNo = t.TaskNo ∧ r.Status = 1 then
        { r with Status := 0, FailCount := t.FailCount, FailMsgs := t.FailMsgs,
                 NextRunAt := t.NextRunAt, RunTimeoutAt := t.RunTimeoutAt,
                 LastRetryAt := some now, UpdatedAt := now } else r)) := by
  subst hT
  split
  · rename_i h
    exact ⟨RowStatic.refl_row r, fun hne => absurd h.1 hne, fun _ => Or.inl rfl⟩
  · exact ⟨RowStatic.refl_row r, fun _ => rfl, id⟩

theorem updateFailed_step (T : Int) (t : TaskEntity) (hT : t.TaskNo = T)
    (now : Time) (r : TaskEntity) :
    RowStatic r (if r.TaskNo = t.TaskNo then
        { r with Status := 3, FailMsgs := t.FailMsgs, UpdatedAt := now } else r) ∧
    (r.TaskNo ≠ T → (if r.TaskNo = t.TaskNo then
        { r with Status := 3, FailMsgs := t.FailMsgs, UpdatedAt := now } else r) = r) ∧
    (validStatus r → validStatus (if r.TaskNo = t.TaskNo then
        { r with Status := 3, FailMsgs := t.FailMsgs, UpdatedAt := now } else r)) := by
  subst hT
  split
  · rename_i h
    exact ⟨RowStatic.refl_row r, fun hne => absurd h hne, fun _ => Or.inr (Or.inr (Or.inr rfl))⟩
  · exact ⟨RowStatic.refl_row r, fun _ => rfl, id⟩

theorem updateSucceeded_step (T : Int) (t : TaskEntity) (hT : t.TaskNo = T)
    (now : Time) (r : TaskEntity) :
    RowStatic r (if r.TaskNo = t.TaskNo ∧ r.Status = 1 then
        { r with Status := 2, UpdatedAt := now } else r) ∧
    (r.TaskNo ≠ T → (if r.TaskNo = t.TaskNo ∧ r.Status = 1 then
        { r with Status := 2, UpdatedAt := now } else r) = r) ∧
    (validStatus r → validStatus (if r.TaskNo = t.TaskNo ∧ r.Status = 1 then
        { r with Status := 2, UpdatedAt := now } else r)) := by
  subst hT
  split
  · rename_i h
    exact ⟨RowStatic.refl_row r, fun hne => absurd h.1 hne, fun _ => Or.inr (Or.inr (Or.inl rfl))⟩
  · exact ⟨RowStatic.refl_row r, fun _ => rfl, id⟩

theorem markFailed_eff (w : World) (p : Nat) (t : TaskEntity) :
    Eff t.TaskNo p w (markFailed w t).1 :=
  Eff_execUpdate t.TaskNo p w _ (updateFailed_step t.TaskNo t rfl w.now)

theorem writeBackPending_eff (w : World) (p : Nat) (t : TaskEntity) :
    Eff t.TaskNo p w (writeBackPending w t).1 :=
  Eff_execUpdate t.TaskNo p w _ (updateRetry_step t.TaskNo t rfl w.now)

theorem submitBody_eff (w : World) (ctx : trace.Context) (p : Nat) (t : TaskEntity)
    (status : Int) : Eff t.TaskNo p w (submitBody w ctx p t status).1 := by
  unfold submitBody
  apply Eff_orReturn
  · split
    · exact Eff_execUpdate t.TaskNo p w _ (updateRunning_step t.TaskNo t rfl _ w.now status)
    · exact Eff.refl_eff _ _ _
  · intro w1 h1
    split
    · exact h1
    · apply Eff_orReturn
      · split
        · exact h1.trans_eff (Eff_arm _ _ _ _ ⟨ctx, Or.inl rfl⟩)
        · exact h1
      · intro w2 h2
        split
        · split
          · exact h2
          · exact h2.trans_eff (Eff_arm _ _ _ _ ⟨ctx, Or.inr rfl⟩)
        · exact h2

theorem retryFields_static (t : TaskEntity) (delay : Int) (now : Time) (k : Int) :
    ObjStatic t { (retryFields t delay now) with FailCount := k } ∧
    ObjStatic t (retryFields t delay now) :=
  ⟨⟨rfl, rfl, rfl, rfl, id⟩, ⟨rfl, rfl, rfl, rfl, id⟩⟩

/-- `Failure` and `Submit` on the object behind `p` touch only that object, the
rows of its task and the timers on `p`. -/
theorem Failure_Submit_eff (d : Storage) (ctx : trace.Context) (p : Nat) (T : Int) :
    ∀ (fuel : Nat),
    (∀ (w : World) (t : TaskEntity), w.heap[p]? = some t → t.TaskNo = T →
      Eff T p w (Failure d fuel w ctx p).1) ∧
    (∀ (w : World) (t : TaskEntity) (status : Int), w.heap[p]? = some t → t.TaskNo = T →
      Eff T p w (Submit d fuel w ctx p status).1) := by
  intro fuel
  induction fuel with
  | zero =>
    exact ⟨fun w t _ _ => by rw [Failure]; exact Eff.refl_eff _ _ _,
      fun w t s _ _ => by rw [Submit]; exact Eff.refl_eff _ _ _⟩
  | succ fuel ih =>
    constructor
    · intro w t ht hT
      subst hT
      rw [Failure]
      simp only [ht]
      split
      · exact Eff.refl_eff _ _ _
      · split
        · split
          · exact Eff.refl_eff _ _ _
          · rename_i delay _
            split
            · have hs := (retryFields_static t delay w.now (t.FailCount + 1)).1
              have h1 := Eff_setHeap t.TaskNo p w t _ ht hs
              exact h1.trans_eff (ih.2 _ _ 1 (getElem?_set_same w.heap p t _ ht) rfl)
            · have hs := (retryFields_static t delay w.now 0).2
              have h1 := Eff_setHeap t.TaskNo p w t _ ht hs
              exact h1.trans_eff (writeBackPending_eff _ p (retryFields t delay w.now))
        · exact markFailed_eff w p t
    · intro w t status ht hT
      subst hT
      rw [Submit]
      simp only [ht]
      split
      · exact ih.1 w t ht rfl
      · exact submitBody_eff w ctx p t status

theorem Success_eff (w : World) (ctx : trace.Context) (p : Nat) (t : TaskEntity) (T : Int)
    (ht : w.heap[p]? = some t) (hT : t.TaskNo = T) : Eff T p w (Success w ctx p).1 := by
  subst hT
  unfold Success
  simp only [ht]
  split
  · exact Eff.refl_eff _ _ _
  · exact Eff_execUpdate t.TaskNo p w _ (updateSucceeded_step t.TaskNo t rfl w.now)

theorem afterRequest_eff (w : World) (ctx : trace.Context) (p : Nat) (t : TaskEntity)
    (p1 : callback.Payload) (ht : w.heap[p]? = some t) :
    Eff t.TaskNo p w (afterRequest w ctx p t p1) where
  now := rfl
  ns := rfl
  rows := ⟨id, by simp [afterRequest], fun r => ⟨RowStatic.refl_row r, fun _ => rfl, id⟩⟩
  heap_len := by simp [afterRequest]
  heap_other := fun q hq => by
    show (w.heap.set p _)[q]? = w.heap[q]?
    rw [List.getElem?_set_ne (Ne.symm hq)]
  heap_self := fun o2 h2 => by
    refine ⟨_, getElem?_set_same w.heap p t _ ht, ?_⟩
    rw [ht] at h2
    cases h2
    exact ⟨rfl, rfl, rfl, rfl, fun _ => rfl⟩
  timers := ⟨[], by simp [afterRequest], by simp⟩
  requests := ⟨[_], rfl, by simp⟩
  faults := ⟨0, rfl⟩

theorem Execute_eff (d : Storage) (w : World) (net : callback.Reply) (ctx : trace.Context)
    (p : Nat) (t : TaskEntity) (ht : w.heap[p]? = some t) :
    Eff t.TaskNo p w (Execute d w net ctx p).1 := by
  unfold Execute
  simp only [ht]
  split
  · exact Eff.refl_eff _ _ _
  · split
    · exact Eff.refl_eff _ _ _
    · rename_i pl _
      split
      · have hs : ObjStatic t (t.WithFailMsg
            { Resp := "", Err := "adapter not found for schema " ++ pl.Schema }) :=
          ⟨rfl, rfl, rfl, rfl, id⟩
        have h1 := Eff_setHeap t.TaskNo p w t _ ht hs
        exact h1.trans_eff ((Failure_Submit_eff d ctx p t.TaskNo callDepth).1 _ _
          (getElem?_set_same w.heap p t _ ht) rfl)
      · rename_i a _
        have h1 := afterRequest_eff w ctx p t (injectOriginal pl t.TaskNo (trace.Get ctx)) ht
        have hg : (afterRequest w ctx p t (injectOriginal pl t.TaskNo (trace.Get ctx))).heap[p]?
            = some { t with Payload := some (injectOriginal pl t.TaskNo (trace.Get ctx)) } :=
          getElem?_set_same w.heap p t _ ht
        split
        · exact h1.trans_eff (Success_eff _ ctx p _ t.TaskNo hg rfl)
        · have hs : ObjStatic
              { t with Payload := some (injectOriginal pl t.TaskNo (trace.Get ctx)) }
              (({ t with Payload := some (injectOriginal pl t.TaskNo (trace.Get ctx)) }
                  : TaskEntity).WithFailMsg
                (failMsgOf (a.Request net w.now t.RunTimeoutAt (trace.Set .background (trace.Get ctx))
                  (injectOriginal pl t.TaskNo (trace.Get ctx))))) :=
            ⟨rfl, rfl, rfl, rfl, id⟩
          have h2 := Eff_setHeap t.TaskNo p _ _ _ hg hs
          exact h1.trans_eff (h2.trans_eff ((Failure_Submit_eff d ctx p t.TaskNo callDepth).1 _ _
            (getElem?_set_same _ p _ _ hg) rfl))

end storage

namespace storage

/-! ## What an effect leaves alone -/

theorem Eff.heap_get {T : Int} {p : Nat} {w w1 : World} (h : Eff T p w w1) (q : Nat)
    (o : TaskEntity) (ho : w.heap[q]? = some o) :
    ∃ o1, w1.heap[q]? = some o1 ∧ ObjStatic o o1 ∧ (q ≠ p → o1 = o) := by
  by_cases hq : q = p
  · subst hq
    obtain ⟨o1, h1, h2⟩ := h.heap_self o ho
    exact ⟨o1, h1, h2, fun hne => absurd rfl hne⟩
  · exact ⟨o, by rw [h.heap_other q hq]; exact ho, ObjStatic.refl_obj o, fun _ => rfl⟩

theorem Eff.heap_get_back {T : Int} {p : Nat} {w w1 : World} (h : Eff T p w w1) (q : Nat)
    (o1 : TaskEntity) (ho : w1.heap[q]? = some o1) :
    ∃ o, w.heap[q]? = some o ∧ ObjStatic o o1 ∧ (q ≠ p → o1 = o) := by
  have hq : q < w.heap.length := by
    rw [← h.heap_len]
    exact (List.getElem?_eq_some.mp ho).1
  obtain ⟨o2, h2, h3, h4⟩ := h.heap_get q _ (List.getElem?_eq_getElem hq)
  rw [ho] at h2
  cases h2
  exact ⟨_, List.getElem?_eq_getElem hq, h3, h4⟩

theorem Timer.obj_cases (heap : List TaskEntity) (x : Timer) (o : TaskEntity)
    (h : x.obj heap = some o) : ∃ ctx q, (x.f = .after ctx q ∨ x.f = .cron ctx q) ∧
      heap[q]? = some o := by
  unfold Timer.obj at h
  split at h
  · rename_i ctx q hf; exact ⟨ctx, q, Or.inl hf, h⟩
  · rename_i ctx q hf; exact ⟨ctx, q, Or.inr hf, h⟩
  · cases h

theorem Timer.obj_of (heap : List TaskEntity) (x : Timer) (ctx : trace.Context) (q : Nat)
    (h : x.f = .after ctx q ∨ x.f = .cron ctx q) : x.obj heap = heap[q]? := by
  unfold Timer.obj
  rcases h with h | h <;> rw [h]

theorem Eff.obj {T : Int} {p : Nat} {w w1 : World} (h : Eff T p w w1) (x : Timer)
    (o : TaskEntity) (ho : x.obj w.heap = some o) :
    ∃ o1, x.obj w1.heap = some o1 ∧ ObjStatic o o1 ∧
      ((∀ tp, w.heap[p]? = some tp → tp.TaskNo = T) → o.TaskNo ≠ T → o1 = o) := by
  obtain ⟨ctx, q, hf, hq⟩ := Timer.obj_cases _ _ _ ho
  obtain ⟨o1, h1, h2, h3⟩ := h.heap_get q o hq
  refine ⟨o1, by rw [Timer.obj_of _ x ctx q hf]; exact h1, h2, ?_⟩
  intro hp hne
  apply h3
  intro hqp
  subst hqp
  exact hne (hp o hq)

theorem Eff.obj_back {T : Int} {p : Nat} {w w1 : World} (h : Eff T p w w1) (x : Timer)
    (o1 : TaskEntity) (ho : x.obj w1.heap = some o1) :
    ∃ o, x.obj w.heap = some o ∧ ObjStatic o o1 ∧
      ((∀ tp, w.heap[p]? = some tp → tp.TaskNo = T) → o1.TaskNo ≠ T → o1 = o) := by
  obtain ⟨ctx, q, hf, hq⟩ := Timer.obj_cases _ _ _ ho
  obtain ⟨o, h1, h2, h3⟩ := h.heap_get_back q o1 hq
  refine ⟨o, by rw [Timer.obj_of _ x ctx q hf]; exact h1, h2, ?_⟩
  intro hp hne
  apply h3
  intro hqp
  subst hqp
  exact hne (h2.1.trans (hp o h1))

theorem Eff.isFor_eq {T : Int} {p : Nat} {w w1 : World} (h : Eff T p w w1) (x : Timer) (K : Int) :
    Timer.isFor w1.heap K x = Timer.isFor w.heap K x := by
  unfold Timer.isFor
  cases h0 : x.obj w.heap with
  | none =>
    cases h1 : x.obj w1.heap with
    | none => rfl
    | some o1 =>
      obtain ⟨o, h2, _⟩ := h.obj_back x o1 h1
      rw [h0] at h2
      cases h2
  | some o =>
    obtain ⟨o1, h1, h2, _⟩ := h.obj x o h0
    simp only [h1, h2.1]

theorem Eff.attempts_eq {T : Int} {p : Nat} {w w1 : World} (h : Eff T p w w1) (K : Int)
    (hK : K ≠ T) : attempts w1 K = attempts w K := by
  obtain ⟨new, e, g⟩ := h.requests
  unfold attempts
  rw [e, List.filter_append]
  have : new.filter (fun q => q.TaskNo == K) = [] := by
    rw [List.filter_eq_nil_iff]
    intro q hq
    have := g q hq
    simp only [beq_iff_eq]
    omega
  rw [this, List.append_nil]

theorem Eff.attempts_le {T : Int} {p : Nat} {w w1 : World} (h : Eff T p w w1) (K : Int) :
    attempts w K ≤ attempts w1 K := by
  obtain ⟨new, e, _⟩ := h.requests
  unfold attempts
  rw [e, List.filter_append, List.length_append]
  omega

theorem Eff.timersFor_eq {T : Int} {p : Nat} {w w1 : World} (h : Eff T p w w1) (t : TaskEntity)
    (ht : w.heap[p]? = some t) (hT : t.TaskNo = T) (K : Int) (hK : K ≠ T) :
    timersFor w1 K = timersFor w K := by
  obtain ⟨new, e, g⟩ := h.timers
  obtain ⟨o1, ho1, hs⟩ := h.heap_self t ht
  unfold timersFor
  rw [e, List.filter_append]
  have hnew : new.filter (Timer.isFor w1.heap K) = [] := by
    rw [List.filter_eq_nil_iff]
    intro x hx
    obtain ⟨ctx, hf⟩ := g x hx
    unfold Timer.isFor
    rw [Timer.obj_of _ x ctx p hf, ho1]
    simp only [beq_iff_eq]
    intro hc
    exact hK (hc.symm.trans (hs.1.trans hT))
  rw [hnew, List.append_nil]
  apply List.filter_congr
  intro x _
  exact h.isFor_eq x K

theorem Eff.rows_mem {T : Int} {p : Nat} {w w1 : World} (h : Eff T p w w1) (r1 : TaskEntity)
    (hr : r1 ∈ w1.rows) :
    ∃ r ∈ w.rows, RowStatic r r1 ∧ (r.TaskNo ≠ T → r1 = r) ∧ (validStatus r → validStatus r1) := by
  obtain ⟨f, e, g⟩ := h.rows
  rw [e] at hr
  obtain ⟨r, hr1, hr2⟩ := List.mem_map.mp hr
  subst hr2
  exact ⟨r, hr1, (g r).1, (g r).2.1, (g r).2.2⟩

theorem Eff.rows_mem_fwd {T : Int} {p : Nat} {w w1 : World} (h : Eff T p w w1) (r : TaskEntity)
    (hr : r ∈ w.rows) :
    ∃ r1 ∈ w1.rows, RowStatic r r1 ∧ (r.TaskNo ≠ T → r1 = r) := by
  obtain ⟨f, e, g⟩ := h.rows
  exact ⟨f r, by rw [e]; exact List.mem_map_of_mem f hr, (g r).1, (g r).2.1⟩

theorem Eff.nodup {T : Int} {p : Nat} {w w1 : World} (h : Eff T p w w1) :
    w1.rows.map (fun r => r.TaskNo) = w.rows.map (fun r => r.TaskNo) := by
  obtain ⟨f, e, g⟩ := h.rows
  rw [e, List.map_map]
  apply List.map_congr_left
  intro r _
  exact (g r).1.2.1

end storage

namespace storage

/-- An operation on the object behind `p` keeps the invariant as soon as it
re-establishes it for the rows of its own task. -/
theorem Inv_of_eff (nf : Prop) (w w1 : World) (T : Int) (p : Nat) (t : TaskEntity)
    (hnodup : (w.rows.map (fun r => r.TaskNo)).Nodup)
    (hobjs : ∀ x ∈ w.timers, x.f = .pending ∨
      ∃ o, x.obj w.heap = some o ∧
        ∃ r ∈ w.rows, r.TaskNo = o.TaskNo ∧ r.Backoff = o.Backoff ∧ r.CronExpr = o.CronExpr)
    (hreqs : ∀ q ∈ w.requests, ∃ r ∈ w.rows, r.TaskNo = q.TaskNo)
    (htask : ∀ r ∈ w.rows, r.TaskNo ≠ T → r.CronExpr = "" → TaskInv nf w r)
    (heff : Eff T p w w1) (ht : w.heap[p]? = some t) (hT : t.TaskNo = T)
    (hrow : ∃ r ∈ w.rows, r.TaskNo = T ∧ r.Backoff = t.Backoff ∧ r.CronExpr = t.CronExpr)
    (hlocal : ∀ r1 ∈ w1.rows, r1.TaskNo = T → r1.CronExpr = "" → TaskInv nf w1 r1) :
    Inv nf w1 := by
  have hp : ∀ tp, w.heap[p]? = some tp → tp.TaskNo = T := by
    intro tp h
    rw [ht] at h
    cases h
    exact hT
  obtain ⟨r0, hr0, hr0T, hr0B, hr0C⟩ := hrow
  obtain ⟨r01, hr01, hs01, _⟩ := heff.rows_mem_fwd r0 hr0
  refine ⟨?_, ?_, ?_, ?_⟩
  · rw [heff.nodup]; exact hnodup
  · intro x hx
    obtain ⟨new, e, g⟩ := heff.timers
    rw [e] at hx
    rcases List.mem_append.mp hx with h | h
    · rcases hobjs x h with hpend | ⟨o, ho, r, hr, h1, h2, h3⟩
      · exact Or.inl hpend
      · right
        obtain ⟨o1, ho1, hs, _⟩ := heff.obj x o ho
        obtain ⟨r1, hr1, hsr, _⟩ := heff.rows_mem_fwd r hr
        exact ⟨o1, ho1, r1, hr1, hsr.2.1.trans (h1.trans hs.1.symm),
          hsr.2.2.2.2.2.1.trans (h2.trans hs.2.1.symm),
          hsr.2.2.2.2.2.2.1.trans (h3.trans hs.2.2.1.symm)⟩
    · right
      obtain ⟨ctx, hf⟩ := g x h
      obtain ⟨o1, ho1, hs⟩ := heff.heap_self t ht
      refine ⟨o1, by rw [Timer.obj_of _ x ctx p hf]; exact ho1, r01, hr01, ?_, ?_, ?_⟩
      · exact hs01.2.1.trans (hr0T.trans (hT.symm.trans hs.1.symm))
      · exact hs01.2.2.2.2.2.1.trans (hr0B.trans hs.2.1.symm)
      · exact hs01.2.2.2.2.2.2.1.trans (hr0C.trans hs.2.2.1.symm)
  · intro q hq
    obtain ⟨new, e, g⟩ := heff.requests
    rw [e] at hq
    rcases List.mem_append.mp hq with h | h
    · obtain ⟨r, hr, h1⟩ := hreqs q h
      obtain ⟨r1, hr1, hsr, _⟩ := heff.rows_mem_fwd r hr
      exact ⟨r1, hr1, hsr.2.1.trans h1⟩
    · exact ⟨r01, hr01, hs01.2.1.trans (hr0T.trans (g q h).symm)⟩
  · intro r1 hr1 hc
    by_cases hK : r1.TaskNo = T
    · exact hlocal r1 hr1 hK hc
    · obtain ⟨r, hr, hsr, hsame, _⟩ := heff.rows_mem r1 hr1
      have hrK : r.TaskNo ≠ T := fun h => hK (hsr.2.1.trans h)
      have e := hsame hrK
      subst e
      have ti := htask r1 hr hK hc
      have hatt := heff.attempts_eq r1.TaskNo hK
      have htf := heff.timersFor_eq t ht hT r1.TaskNo hK
      refine ⟨ti.status, by rw [htf]; exact ti.one, ?_, ?_, by rw [hatt]; exact ti.bound, ?_⟩
      · intro x hx o1 ho1 ho1T
        obtain ⟨new, e, g⟩ := heff.timers
        rw [e] at hx
        have hx0 : x ∈ w.timers := by
          rcases List.mem_append.mp hx with h | h
          · exact h
          · exfalso
            obtain ⟨ctx, hf⟩ := g x h
            obtain ⟨o2, ho2, hs⟩ := heff.heap_self t ht
            rw [Timer.obj_of _ x ctx p hf, ho2] at ho1
            cases ho1
            exact hK (ho1T.symm.trans (hs.1.trans hT))
        obtain ⟨o, ho, _, hback⟩ := heff.obj_back x o1 ho1
        have e2 := hback hp (fun h => hK (ho1T.symm.trans h))
        subst e2
        rw [hatt]
        exact ti.timer x hx0 o1 ho ho1T
      · intro hs
        rw [hatt]
        exact ti.pending hs
      · intro hnf hcl hs
        rw [htf]
        exact ti.live hnf hcl hs

end storage

namespace storage

/-! ## Re-establishing the invariant of the task at work -/

theorem unique_row (rows : List TaskEntity) (h : (rows.map (fun r => r.TaskNo)).Nodup)
    (r r1 : TaskEntity) (hr : r ∈ rows) (hr1 : r1 ∈ rows) (he : r1.TaskNo = r.TaskNo) :
    r1 = r :=
  List.inj_on_of_nodup_map h hr1 hr he

theorem NoFault_failed (w : World) (h : NoFault w.faults) : w.failed = false := by
  unfold World.failed
  cases hf : w.faults with
  | nil => rfl
  | cons b fs =>
    rw [hf] at h
    exact h b (List.mem_cons_self _ _)

theorem NoFault_tail (fs : List Bool) (h : NoFault fs) : NoFault fs.tail := by
  intro b hb
  exact h b (List.mem_of_mem_tail hb)

/-- A row of a task that has no timer in the wheel. -/
theorem TaskInv_noTimer (nf : Prop) (w : World) (r : TaskEntity)
    (hno : ∀ x ∈ w.timers, ∀ o, x.obj w.heap = some o → o.TaskNo ≠ r.TaskNo)
    (hv : validStatus r)
    (hp : r.Status = 0 → -1 ≤ r.FailCount ∧ r.FailCount < (r.Backoff.length : Int) ∧
      (attempts w r.TaskNo : Int) ≤ r.FailCount + 1)
    (hb : attempts w r.TaskNo ≤ r.Backoff.length)
    (hl : nf → Clean r → r.Status ≠ 1) : TaskInv nf w r := by
  have hnil : timersFor w r.TaskNo = [] := by
    unfold timersFor
    rw [List.filter_eq_nil_iff]
    intro x hx
    unfold Timer.isFor
    cases ho : x.obj w.heap with
    | none => simp
    | some o => simpa using hno x hx o ho
  refine ⟨hv, by rw [hnil]; simp, ?_, hp, hb, ?_⟩
  · intro x hx o ho hT
    exact absurd hT (hno x hx o ho)
  · intro h1 h2 h3
    exact absurd h3 (hl h1 h2)

/-- A RUNNING row of a task whose only timer is the last one armed. -/
theorem TaskInv_oneTimer (nf : Prop) (w : World) (r : TaskEntity) (ts : List Timer) (x : Timer)
    (o : TaskEntity) (hts : w.timers = ts ++ [x])
    (hno : ∀ y ∈ ts, ∀ o1, y.obj w.heap = some o1 → o1.TaskNo ≠ r.TaskNo)
    (hx : x.obj w.heap = some o) (hT : o.TaskNo = r.TaskNo) (he : x.every = none)
    (hs : r.Status = 1) (h0 : 0 ≤ o.FailCount) (h1 : o.FailCount < (r.Backoff.length : Int))
    (ha : (attempts w r.TaskNo : Int) ≤ o.FailCount)
    (hpl : Clean r → o.Payload.isSome = true)
    (hb : attempts w r.TaskNo ≤ r.Backoff.length) : TaskInv nf w r := by
  have hfil : timersFor w r.TaskNo = [x] := by
    unfold timersFor
    rw [hts, List.filter_append]
    have h1 : ts.filter (Timer.isFor w.heap r.TaskNo) = [] := by
      rw [List.filter_eq_nil_iff]
      intro y hy
      unfold Timer.isFor
      cases ho : y.obj w.heap with
      | none => simp
      | some o1 => simpa using hno y hy o1 ho
    have h2 : Timer.isFor w.heap r.TaskNo x = true := by
      unfold Timer.isFor
      rw [hx]
      simpa using hT
    rw [h1, List.nil_append, List.filter_cons_of_pos h2, List.filter_nil]
  refine ⟨Or.inr (Or.inl hs), by rw [hfil]; simp, ?_, ?_, hb, ?_⟩
  · intro y hy o1 ho1 hT1
    rw [hts] at hy
    rcases List.mem_append.mp hy with h | h
    · exact absurd hT1 (hno y h o1 ho1)
    · have e : y = x := by simpa using h
      subst e
      rw [hx] at ho1
      cases ho1
      exact ⟨he, hs, h0, h1, ha, hpl⟩
  · intro h; omega
  · intro _ _ _
    rw [hfil]
    simp

theorem Clean_static (r r1 : TaskEntity) (h : RowStatic r r1) : Clean r1 ↔ Clean r := by
  obtain ⟨_, _, h3, h4, _, h6, _⟩ := h
  unfold Clean
  rw [h3, h4, h6]

/-- Leaf: the operation ends with the rows as they are and no timer armed. -/
theorem Local.done {nf : Prop} {w : World} {p : Nat} {t r : TaskEntity}
    (L : Local nf w p t r) (hl : nf → Clean r → r.Status ≠ 1) : TaskOK nf w t.TaskNo := by
  intro r1 hr1 hT _
  have e := unique_row w.rows L.nodup r r1 L.row hr1 (hT.trans L.taskNo.symm)
  subst e
  exact TaskInv_noTimer nf w r1 (fun x hx o ho => by rw [L.taskNo]; exact L.noTimer x hx o ho)
    L.valid L.pend (by rw [L.taskNo, L.backoff]; exact L.bound) hl

/-- The fault script moves on. -/
theorem Local.next {nf : Prop} {w : World} {p : Nat} {t r : TaskEntity}
    (L : Local nf w p t r) : Local nf w.next p t r :=
  { nodup := L.nodup, heap := L.heap, row := L.row, taskNo := L.taskNo, backoff := L.backoff,
    cron := L.cron, noTimer := L.noTimer, valid := L.valid, bound := L.bound, pend := L.pend,
    nofault := fun h => NoFault_tail _ (L.nofault h), payload := L.payload }

/-- Leaf: an out-of-process call failed. -/
theorem Local.failed {nf : Prop} {w : World} {p : Nat} {t r : TaskEntity}
    (L : Local nf w p t r) (hf : w.failed = true) : TaskOK nf w.next t.TaskNo := by
  apply L.next.done
  intro h _ _
  have := NoFault_failed w (L.nofault h)
  rw [hf] at this
  cases this

end storage

namespace storage

/-- The `UPDATE` of the operation went through: `g` is what it does to a row. -/
theorem Local.updated {nf : Prop} {w : World} {p : Nat} {t r : TaskEntity}
    (L : Local nf w p t r) (g : TaskEntity → TaskEntity) (hg : ∀ a, RowStatic a (g a))
    (hv : validStatus (g r))
    (hp : (g r).Status = 0 → -1 ≤ (g r).FailCount ∧
      (g r).FailCount < (r.Backoff.length : Int) ∧
      (attempts w r.TaskNo : Int) ≤ (g r).FailCount + 1) :
    Local nf { w.next with rows := w.rows.map g } p t (g r) where
  nodup := by
    show ((w.rows.map g).map (fun r => r.TaskNo)).Nodup
    rw [List.map_map]
    have : w.rows.map ((fun r => r.TaskNo) ∘ g) = w.rows.map (fun r => r.TaskNo) := by
      apply List.map_congr_left
      intro a _
      exact (hg a).2.1
    rw [this]
    exact L.nodup
  heap := L.heap
  row := List.mem_map_of_mem g L.row
  taskNo := (hg r).2.1.trans L.taskNo
  backoff := (hg r).2.2.2.2.2.1.trans L.backoff
  cron := L.cron
  noTimer := L.noTimer
  valid := hv
  bound := L.bound
  pend := by
    intro h
    obtain ⟨h1, h2, h3⟩ := hp h
    rw [(hg r).2.2.2.2.2.1, (hg r).2.1]
    exact ⟨h1, h2, h3⟩
  nofault := fun h => NoFault_tail _ (L.nofault h)
  payload := fun h => L.payload ((Clean_static r (g r) (hg r)).mp h)

/-- The object behind `p` was assigned new field values. -/
theorem Local.assigned {nf : Prop} {w : World} {p : Nat} {t r : TaskEntity}
    (L : Local nf w p t r) (t1 : TaskEntity) (h1 : t1.TaskNo = t.TaskNo)
    (h2 : t1.Backoff = t.Backoff) (h3 : t1.CronExpr = t.CronExpr) (h4 : t1.LockedBy = t.LockedBy)
    (h5 : t.Payload.isSome = true → t1.Payload.isSome = true) :
    Local nf { w with heap := w.heap.set p t1 } p t1 r where
  nodup := L.nodup
  heap := getElem?_set_same w.heap p t t1 L.heap
  row := L.row
  taskNo := L.taskNo.trans h1.symm
  backoff := L.backoff.trans h2.symm
  cron := h3.trans L.cron
  noTimer := by
    intro x hx o1 ho1
    have heff := Eff_setHeap t.TaskNo p w t t1 L.heap ⟨h1, h2, h3, h4, h5⟩
    obtain ⟨o, ho, hs, _⟩ := heff.obj_back x o1 ho1
    rw [h1, hs.1]
    exact L.noTimer x hx o ho
  valid := L.valid
  bound := by rw [h1, h2]; exact L.bound
  pend := L.pend
  nofault := L.nofault
  payload := fun h => h5 (L.payload h)

/-- The adapter has been called once more for the task. -/
theorem Local.requested {nf : Prop} {w : World} {p : Nat} {t r : TaskEntity}
    (L : Local nf w p t r) (ctx : trace.Context) (p1 : callback.Payload) (hs : r.Status ≠ 0)
    (hb : attempts w t.TaskNo + 1 ≤ t.Backoff.length) :
    Local nf (afterRequest w ctx p t p1) p { t with Payload := some p1 } r ∧
    attempts (afterRequest w ctx p t p1) t.TaskNo = attempts w t.TaskNo + 1 := by
  have hatt : attempts (afterRequest w ctx p t p1) t.TaskNo = attempts w t.TaskNo + 1 := by
    simp [attempts, storage.afterRequest, List.filter_append]
  refine ⟨?_, hatt⟩
  have L1 := L.assigned { t with Payload := some p1 } rfl rfl rfl rfl (fun _ => rfl)
  exact
    { nodup := L1.nodup
      heap := L1.heap
      row := L1.row
      taskNo := L1.taskNo
      backoff := L1.backoff
      cron := L1.cron
      noTimer := L1.noTimer
      valid := L1.valid
      bound := by
        show attempts (storage.afterRequest w ctx p t p1) t.TaskNo ≤ t.Backoff.length
        rw [hatt]; exact hb
      pend := fun h => absurd h hs
      nofault := L1.nofault
      payload := L1.payload }

/-- Leaf: the one-shot timer of the task is handed to the wheel. -/
theorem Local.armed {nf : Prop} {w : World} {p : Nat} {t r : TaskEntity}
    (L : Local nf w p t r) (x : Timer) (ctx : trace.Context) (hf : x.f = .after ctx p)
    (he : x.every = none) (hs : r.Status = 1) (h0 : 0 ≤ t.FailCount)
    (h1 : t.FailCount < (t.Backoff.length : Int))
    (ha : (attempts w t.TaskNo : Int) ≤ t.FailCount) : TaskOK nf (w.arm x).1 t.TaskNo := by
  by_cases hfail : w.failed = true
  · rw [arm_fail w x hfail]
    exact L.failed hfail
  · have hok : w.failed = false := by simpa using hfail
    rw [arm_ok w x hok]
    intro r1 hr1 hT _
    have e := unique_row w.rows L.nodup r r1 L.row hr1 (hT.trans L.taskNo.symm)
    subst e
    have hx : x.obj w.heap = some t := by
      rw [Timer.obj_of _ x ctx p (Or.inl hf)]; exact L.heap
    exact TaskInv_oneTimer nf _ r1 w.timers x t rfl
      (fun y hy o ho => by rw [L.taskNo]; exact L.noTimer y hy o ho)
      hx L.taskNo.symm he hs h0 (by rw [L.backoff]; exact h1)
      (by rw [L.taskNo]; exact ha) L.payload
      (by rw [L.taskNo, L.backoff]; exact L.bound)

end storage

namespace storage

/-- Leaf: an `UPDATE` that leaves the row of the task in a state other than
RUNNING, or fails, ends the operation. -/
theorem Local.exec {nf : Prop} {w : World} {p : Nat} {t r : TaskEntity}
    (L : Local nf w p t r) (g : TaskEntity → TaskEntity) (hg : ∀ a, RowStatic a (g a))
    (hv : validStatus (g r))
    (hp : (g r).Status = 0 → -1 ≤ (g r).FailCount ∧
      (g r).FailCount < (r.Backoff.length : Int) ∧
      (attempts w r.TaskNo : Int) ≤ (g r).FailCount + 1)
    (hl : (g r).Status ≠ 1) : TaskOK nf (execUpdate w (w.rows.map g)).1 t.TaskNo := by
  by_cases hfail : w.failed = true
  · rw [execUpdate_fail _ _ hfail]
    exact L.failed hfail
  · have hok : w.failed = false := by simpa using hfail
    rw [execUpdate_ok _ _ hok]
    exact (L.updated g hg hv hp).done (fun _ _ => hl)

theorem local_markFailed {nf : Prop} {w : World} {p : Nat} {t r : TaskEntity}
    (L : Local nf w p t r) : TaskOK nf (markFailed w t).1 t.TaskNo := by
  have hs : (if r.TaskNo = t.TaskNo then
      ({ r with Status := 3, FailMsgs := t.FailMsgs, UpdatedAt := w.now } : TaskEntity)
      else r).Status = 3 := by
    rw [if_pos L.taskNo]
  exact L.exec _ (fun a => (updateFailed_step t.TaskNo t rfl w.now a).1)
    ((updateFailed_step t.TaskNo t rfl w.now r).2.2 L.valid)
    (fun h => by rw [hs] at h; omega) (by rw [hs]; omega)

theorem local_writeBackPending {nf : Prop} {w : World} {p : Nat} {t r : TaskEntity}
    (L : Local nf w p t r) (hs : r.Status = 1) (h0 : -1 ≤ t.FailCount)
    (h1 : t.FailCount < (t.Backoff.length : Int))
    (ha : (attempts w t.TaskNo : Int) ≤ t.FailCount + 1) :
    TaskOK nf (writeBackPending w t).1 t.TaskNo := by
  refine L.exec _ (fun a => (updateRetry_step t.TaskNo t rfl w.now a).1)
    ((updateRetry_step t.TaskNo t rfl w.now r).2.2 L.valid) ?_ ?_
  · intro _
    beta_reduce
    rw [if_pos ⟨L.taskNo, hs⟩, L.backoff, L.taskNo]
    exact ⟨h0, h1, ha⟩
  · beta_reduce
    rw [if_pos ⟨L.taskNo, hs⟩]
    show (0 : Int) ≠ 1
    omega

theorem local_Success {nf : Prop} {w : World} {p : Nat} {t r : TaskEntity}
    (L : Local nf w p t r) (ctx : trace.Context) (hs : r.Status = 1)
    (h1 : t.FailCount ≤ (t.Backoff.length : Int)) :
    TaskOK nf (Success w ctx p).1 t.TaskNo := by
  obtain ⟨v, hv⟩ := GetDelayTime_some t h1
  have e : (if r.TaskNo = t.TaskNo ∧ r.Status = 1 then
      ({ r with Status := 2, UpdatedAt := w.now } : TaskEntity) else r).Status = 2 := by
    rw [if_pos ⟨L.taskNo, hs⟩]
  unfold Success
  simp only [L.heap, hv]
  exact L.exec _ (fun a => (updateSucceeded_step t.TaskNo t rfl w.now a).1)
    ((updateSucceeded_step t.TaskNo t rfl w.now r).2.2 L.valid)
    (fun h => by rw [e] at h; omega) (by rw [e]; omega)

theorem local_submitBody {nf : Prop} {w : World} {p : Nat} {t r : TaskEntity}
    (L : Local nf w p t r) (ctx : trace.Context) (status : Int)
    (h0 : 0 ≤ t.FailCount) (h1 : t.FailCount < (t.Backoff.length : Int))
    (ha : (attempts w t.TaskNo : Int) ≤ t.FailCount)
    (hs : status > -1 → r.Status = status) (hs1 : ¬ status > -1 → r.Status = 1)
    (hd : Clean r → t.DelayTime ≠ 0) :
    TaskOK nf (submitBody w ctx p t status).1 t.TaskNo := by
  obtain ⟨v, hv⟩ := GetDelayTime_some t (by omega)
  rw [submitBody_nocron w ctx p t status v L.cron hv]
  by_cases hst : status > -1
  · rw [if_pos hst]
    by_cases hfail : w.failed = true
    · rw [execUpdate_fail _ _ hfail, orReturn_some]
      exact L.failed hfail
    · have hok : w.failed = false := by simpa using hfail
      rw [execUpdate_ok _ _ hok, orReturn_none]
      have e : (if r.TaskNo = t.TaskNo ∧ r.Status = status then
          ({ r with Status := 1, FailCount := t.FailCount, FailMsgs := t.FailMsgs,
                    NextRunAt := t.NextRunAt, RunTimeoutAt := t.RunTimeoutAt,
                    LastRetryAt := (if t.FailCount = 0 then none else some w.now),
                    UpdatedAt := w.now } : TaskEntity) else r).Status = 1 := by
        rw [if_pos ⟨L.taskNo, hs hst⟩]
      have L1 := L.updated _
        (fun a => (updateRunning_step t.TaskNo t rfl
          (if t.FailCount = 0 then none else some w.now) w.now status a).1)
        ((updateRunning_step t.TaskNo t rfl
          (if t.FailCount = 0 then none else some w.now) w.now status r).2.2 L.valid)
        (fun h => by rw [e] at h; omega)
      by_cases hdz : t.DelayTime ≠ 0
      · rw [if_pos hdz]
        exact L1.armed _ ctx rfl rfl e h0 h1 ha
      · rw [if_neg hdz]
        refine L1.done (fun _ hc _ => hdz (hd ?_))
        exact (Clean_static r _ ((updateRunning_step t.TaskNo t rfl
          (if t.FailCount = 0 then none else some w.now) w.now status r).1)).mp hc
  · rw [if_neg hst, orReturn_none]
    by_cases hdz : t.DelayTime ≠ 0
    · rw [if_pos hdz]
      exact L.armed _ ctx rfl rfl (hs1 hst) h0 h1 ha
    · rw [if_neg hdz]
      exact L.done (fun _ hc _ => hdz (hd hc))

end storage

namespace storage

theorem local_Failure {nf : Prop} {w : World} {p : Nat} {t r : TaskEntity} (d : Storage)
    (L : Local nf w p t r) (ctx : trace.Context) (fuel : Nat) (hs : r.Status = 1)
    (h0 : 0 ≤ t.FailCount) (h1 : t.FailCount < (t.Backoff.length : Int))
    (ha : (attempts w t.TaskNo : Int) ≤ t.FailCount + 1) :
    TaskOK nf (Failure d (fuel + 3) w ctx p).1 t.TaskNo := by
  obtain ⟨v, hv⟩ := GetDelayTime_some t (by omega)
  obtain ⟨delay, hi, hmem⟩ := sliceIndex_some t.Backoff t.FailCount h0 h1
  by_cases hf : durationMul delay Second ≤ d.cfg.FastPathTime
  · rw [Failure_fast d (fuel + 2) w ctx p t v delay L.heap hv h1 hi hf]
    have L2 := L.assigned { (retryFields t delay w.now) with FailCount := t.FailCount + 1 }
      rfl rfl rfl rfl (fun h => h)
    by_cases hx : t.FailCount + 1 ≥ (t.Backoff.length : Int)
    · rw [Submit_exhausted d (fuel + 1) _ ctx p 1 _ L2.heap hx]
      obtain ⟨v2, hv2⟩ := GetDelayTime_some
        { (retryFields t delay w.now) with FailCount := t.FailCount + 1 }
        (show t.FailCount + 1 ≤ (t.Backoff.length : Int) by omega)
      rw [Failure_exhausted d fuel _ ctx p _ v2 L2.heap hv2
        (show ¬ (t.FailCount + 1 < (t.Backoff.length : Int)) by omega)]
      exact local_markFailed L2
    · have hlt : t.FailCount + 1 < (t.Backoff.length : Int) := by omega
      rw [Submit_live d (fuel + 1) _ ctx p 1 _ L2.heap hlt]
      refine local_submitBody L2 ctx 1 (show 0 ≤ t.FailCount + 1 by omega) hlt ha
        (fun _ => hs) (fun h => absurd (by decide) h) ?_
      intro hc
      show delay ≠ 0
      exact hc.2.1 delay (by rw [L.backoff]; exact hmem)
  · rw [Failure_slow d (fuel + 2) w ctx p t v delay L.heap hv h1 hi hf]
    have L1 := L.assigned (retryFields t delay w.now) rfl rfl rfl rfl (fun h => h)
    exact local_writeBackPending L1 hs (show -1 ≤ t.FailCount by omega) h1 ha

theorem local_Submit {nf : Prop} {w : World} {p : Nat} {t r : TaskEntity} (d : Storage)
    (L : Local nf w p t r) (ctx : trace.Context) (status : Int) (fuel : Nat)
    (h0 : 0 ≤ t.FailCount) (h1 : t.FailCount ≤ (t.Backoff.length : Int))
    (ha : t.FailCount < (t.Backoff.length : Int) → (attempts w t.TaskNo : Int) ≤ t.FailCount)
    (hs : status > -1 → r.Status = status) (hs1 : ¬ status > -1 → r.Status = 1)
    (hd : Clean r → t.DelayTime ≠ 0) :
    TaskOK nf (Submit d (fuel + 2) w ctx p status).1 t.TaskNo := by
  by_cases hx : t.FailCount ≥ (t.Backoff.length : Int)
  · rw [Submit_exhausted d (fuel + 1) w ctx p status t L.heap hx]
    obtain ⟨v, hv⟩ := GetDelayTime_some t h1
    rw [Failure_exhausted d fuel w ctx p t v L.heap hv (by omega)]
    exact local_markFailed L
  · have hlt : t.FailCount < (t.Backoff.length : Int) := by omega
    rw [Submit_live d (fuel + 1) w ctx p status t L.heap hlt]
    exact local_submitBody L ctx status h0 hlt (ha hlt) hs hs1 hd

theorem local_Execute {nf : Prop} {w : World} {p : Nat} {t r : TaskEntity} (d : Storage)
    (L : Local nf w p t r) (net : callback.Reply) (ctx : trace.Context) (hs : r.Status = 1)
    (h0 : 0 ≤ t.FailCount) (h1 : t.FailCount < (t.Backoff.length : Int))
    (ha : (attempts w t.TaskNo : Int) ≤ t.FailCount) :
    TaskOK nf (Execute d w net ctx p).1 t.TaskNo := by
  obtain ⟨v, hv⟩ := GetDelayTime_some t (by omega)
  unfold Execute
  simp only [L.heap, hv]
  cases hp : t.Payload with
  | none =>
    refine L.done (fun _ hc _ => ?_)
    have := L.payload hc
    rw [hp] at this
    cases this
  | some pl =>
    simp only []
    cases had : d.adapter (toUpper d.upper pl.Schema) with
    | none =>
      simp only []
      have L1 := L.assigned
        (t.WithFailMsg { Resp := "", Err := "adapter not found for schema " ++ pl.Schema })
        rfl rfl rfl rfl (fun h => h)
      exact local_Failure d L1 ctx 0 hs h0 h1 (by
        show (attempts w t.TaskNo : Int) ≤ t.FailCount + 1
        omega)
    | some a =>
      simp only []
      have hb : attempts w t.TaskNo + 1 ≤ t.Backoff.length := by omega
      obtain ⟨L1, hatt⟩ := L.requested ctx (injectOriginal pl t.TaskNo (trace.Get ctx))
        (by omega) hb
      split
      · exact local_Success L1 ctx hs (show t.FailCount ≤ (t.Backoff.length : Int) by omega)
      · have L2 := L1.assigned
          (({ t with Payload := some (injectOriginal pl t.TaskNo (trace.Get ctx)) }
              : TaskEntity).WithFailMsg
            (failMsgOf (a.Request net w.now t.RunTimeoutAt (trace.Set .background (trace.Get ctx))
              (injectOriginal pl t.TaskNo (trace.Get ctx)))))
          rfl rfl rfl rfl (fun h => h)
        exact local_Failure d L2 ctx 0 hs h0 h1 (by
          show (attempts (afterRequest w ctx p t (injectOriginal pl t.TaskNo (trace.Get ctx)))
            t.TaskNo : Int) ≤ t.FailCount + 1
          rw [hatt]
          push_cast
          omega)

end storage

namespace storage

/-! ## The invariant under the moves of the wheel and of the allocator -/

theorem NoFault_drop (fs : List Bool) (k : Nat) (h : NoFault fs) : NoFault (fs.drop k) := by
  intro b hb
  exact h b (List.mem_of_mem_drop hb)

theorem filter_eraseIdx_neg {α : Type} (q : α → Bool) : ∀ (l : List α) (i : Nat) (x : α),
    l[i]? = some x → q x = false → (l.eraseIdx i).filter q = l.filter q := by
  intro l
  induction l with
  | nil => intro i x h; simp at h
  | cons a l ih =>
    intro i x h hq
    cases i with
    | zero =>
      simp only [List.getElem?_cons_zero, Option.some.injEq] at h
      subst h
      simp [List.eraseIdx, hq]
    | succ i =>
      simp only [List.getElem?_cons_succ] at h
      simp only [List.eraseIdx_cons_succ, List.filter_cons]
      rw [ih i x h hq]

theorem filter_eraseIdx_pos {α : Type} (q : α → Bool) : ∀ (l : List α) (i : Nat) (x : α),
    l[i]? = some x → q x = true →
    (l.filter q).length = ((l.eraseIdx i).filter q).length + 1 := by
  intro l
  induction l with
  | nil => intro i x h; simp at h
  | cons a l ih =>
    intro i x h hq
    cases i with
    | zero =>
      simp only [List.getElem?_cons_zero, Option.some.injEq] at h
      subst h
      simp [List.eraseIdx, hq]
    | succ i =>
      simp only [List.getElem?_cons_succ] at h
      simp only [List.eraseIdx_cons_succ, List.filter_cons]
      have := ih i x h hq
      split <;> simp [this]

/-- The invariant of a row carries over to a world with the same requests and the
same timers for the task of the row. -/
theorem TaskInv_transfer (nf : Prop) (w w1 : World) (r : TaskEntity)
    (hreq : w1.requests = w.requests)
    (htf : timersFor w1 r.TaskNo = timersFor w r.TaskNo)
    (hmem : ∀ x ∈ w1.timers, ∀ o, x.obj w1.heap = some o → o.TaskNo = r.TaskNo →
      x ∈ w.timers ∧ x.obj w.heap = some o)
    (h : TaskInv nf w r) : TaskInv nf w1 r := by
  have hatt : attempts w1 r.TaskNo = attempts w r.TaskNo := by
    unfold attempts; rw [hreq]
  refine ⟨h.status, by rw [htf]; exact h.one, ?_, ?_, by rw [hatt]; exact h.bound, ?_⟩
  · intro x hx o ho hT
    obtain ⟨hx0, ho0⟩ := hmem x hx o ho hT
    rw [hatt]
    exact h.timer x hx0 o ho0 hT
  · intro hs
    rw [hatt]
    exact h.pending hs
  · intro h1 h2 h3
    rw [htf]
    exact h.live h1 h2 h3

theorem obj_of_f (heap : List TaskEntity) (x y : Timer) (h : y.f = x.f) :
    y.obj heap = x.obj heap := by
  unfold Timer.obj
  rw [h]

/-- A timer leaves the wheel, and timers with the same function may join it: the
rows of the other tasks keep their invariant. -/
theorem TaskInv_erase (nf : Prop) (w w2 : World) (i : Nat) (x : Timer) (extra : List Timer)
    (r : TaskEntity) (hx : w.timers[i]? = some x) (hextra : ∀ y ∈ extra, y.f = x.f)
    (hheap : w2.heap = w.heap) (hreq : w2.requests = w.requests)
    (htim : w2.timers = w.timers.eraseIdx i ++ extra)
    (hnot : Timer.isFor w.heap r.TaskNo x = false)
    (h : TaskInv nf w r) : TaskInv nf w2 r := by
  have hex : ∀ y ∈ extra, Timer.isFor w.heap r.TaskNo y = false := by
    intro y hy
    unfold Timer.isFor at hnot ⊢
    rw [obj_of_f w.heap x y (hextra y hy)]
    exact hnot
  refine TaskInv_transfer nf w w2 r hreq ?_ ?_ h
  · unfold timersFor
    rw [htim, hheap, List.filter_append, filter_eraseIdx_neg _ _ i x hx hnot]
    have : extra.filter (Timer.isFor w.heap r.TaskNo) = [] := by
      rw [List.filter_eq_nil_iff]
      intro y hy
      rw [hex y hy]
      simp
    rw [this, List.append_nil]
  · intro y hy o ho hT
    rw [hheap] at ho
    rw [htim] at hy
    rcases List.mem_append.mp hy with h1 | h1
    · exact ⟨List.mem_of_mem_eraseIdx h1, ho⟩
    · exfalso
      have := hex y h1
      unfold Timer.isFor at this
      rw [ho] at this
      simp at this
      exact this hT

theorem objs_erase (w w2 : World) (i : Nat) (x : Timer) (extra : List Timer)
    (hx : w.timers[i]? = some x) (hextra : ∀ y ∈ extra, y.f = x.f)
    (hrows : w2.rows = w.rows) (hheap : w2.heap = w.heap)
    (htim : w2.timers = w.timers.eraseIdx i ++ extra)
    (hobjs : ∀ x ∈ w.timers, x.f = .pending ∨
      ∃ o, x.obj w.heap = some o ∧
        ∃ r ∈ w.rows, r.TaskNo = o.TaskNo ∧ r.Backoff = o.Backoff ∧ r.CronExpr = o.CronExpr) :
    ∀ x ∈ w2.timers, x.f = .pending ∨
      ∃ o, x.obj w2.heap = some o ∧
        ∃ r ∈ w2.rows, r.TaskNo = o.TaskNo ∧ r.Backoff = o.Backoff ∧ r.CronExpr = o.CronExpr := by
  intro y hy
  rw [hheap, hrows]
  rw [htim] at hy
  rcases List.mem_append.mp hy with h1 | h1
  · exact hobjs y (List.mem_of_mem_eraseIdx h1)
  · have hxm : x ∈ w.timers := List.mem_iff_getElem?.mpr ⟨i, hx⟩
    have hf := hextra y h1
    rw [hf, obj_of_f w.heap x y hf]
    exact hobjs x hxm

/-- An object is allocated: no timer points to it yet. -/
theorem obj_alloc (w : World) (t : TaskEntity) (x : Timer)
    (h : x.f = .pending ∨ ∃ o, x.obj w.heap = some o) :
    x.obj (w.heap ++ [t]) = x.obj w.heap := by
  rcases h with h | ⟨o, ho⟩
  · unfold Timer.obj; rw [h]
  · rcases Timer.obj_cases w.heap x o ho with ⟨ctx, q, hf, hq⟩
    have hlt : q < w.heap.length := by
      rcases Nat.lt_or_ge q w.heap.length with h | h
      · exact h
      · rw [List.getElem?_eq_none h] at hq; cases hq
    rw [Timer.obj_of _ x ctx q hf, Timer.obj_of _ x ctx q hf, List.getElem?_append_left hlt]

end storage

namespace storage

/-- Worlds with the same table, objects, timers and requests. -/
theorem Inv_same (nf : Prop) (w w1 : World) (h1 : w1.rows = w.rows) (h2 : w1.heap = w.heap)
    (h3 : w1.timers = w.timers) (h4 : w1.requests = w.requests) (h : Inv nf w) :
    Inv nf w1 := by
  refine ⟨by rw [h1]; exact h.nodup, by rw [h1, h2, h3]; exact h.objs,
    by rw [h1, h4]; exact h.reqs, ?_⟩
  intro r hr hc
  rw [h1] at hr
  refine TaskInv_transfer nf w w1 r h4 (by unfold timersFor; rw [h2, h3]) ?_ (h.task r hr hc)
  intro x hx o ho _
  rw [h3] at hx
  rw [h2] at ho
  exact ⟨hx, ho⟩

/-- The rows of a task with a cron expression are outside the invariant. -/
theorem TaskOK_cron (nf : Prop) (w w1 : World) (T : Int) (p : Nat) (r : TaskEntity)
    (heff : Eff T p w w1) (hn : (w.rows.map (fun r => r.TaskNo)).Nodup) (hr : r ∈ w.rows)
    (hT : r.TaskNo = T) (hc : r.CronExpr ≠ "") : TaskOK nf w1 T := by
  intro r1 hr1 hT1 hc1
  exfalso
  obtain ⟨r0, hr0, hs, _⟩ := heff.rows_mem r1 hr1
  have e := unique_row w.rows hn r r0 hr hr0 ((hs.2.1.symm.trans hT1).trans hT.symm)
  subst e
  exact hc (hs.2.2.2.2.2.2.1.symm.trans hc1)

theorem attempts_congr (w w1 : World) (h : w1.requests = w.requests) (T : Int) :
    attempts w1 T = attempts w T := by
  unfold attempts; rw [h]

/-- The wheel has taken timer `i`, a timer of `Execute`, out (and, for a periodic
timer, armed it again): `Execute` keeps the invariant. -/
theorem fire_exec (nf : Prop) (d : Storage) (w w2 : World) (i : Nat) (x : Timer)
    (extra : List Timer) (net : callback.Reply) (ctx : trace.Context) (p : Nat)
    (hinv : Inv nf w) (hx : w.timers[i]? = some x)
    (hf : x.f = .after ctx p ∨ x.f = .cron ctx p)
    (hextra : ∀ y ∈ extra, y.f = x.f) (hnone : x.every = none → extra = [])
    (hrows : w2.rows = w.rows) (hheap : w2.heap = w.heap) (hreq : w2.requests = w.requests)
    (htim : w2.timers = w.timers.eraseIdx i ++ extra) (hnf : nf → NoFault w2.faults) :
    Inv nf (Execute d w2 net ctx p).1 := by
  have hxm : x ∈ w.timers := List.mem_iff_getElem?.mpr ⟨i, hx⟩
  have hobj : x.obj w.heap = w.heap[p]? := Timer.obj_of _ x ctx p hf
  rcases hinv.objs x hxm with hp | ⟨o, ho, r, hr, hrT, hrB, hrC⟩
  · rcases hf with h | h <;> rw [h] at hp <;> cases hp
  have ht : w.heap[p]? = some o := by rw [← hobj]; exact ho
  have ht2 : w2.heap[p]? = some o := by rw [hheap]; exact ht
  have heff := Execute_eff d w2 net ctx p o ht2
  have hnd2 : (w2.rows.map (fun r => r.TaskNo)).Nodup := by rw [hrows]; exact hinv.nodup
  have hr2 : r ∈ w2.rows := by rw [hrows]; exact hr
  refine Inv_of_eff nf w2 _ o.TaskNo p o hnd2
    (objs_erase w w2 i x extra hx hextra hrows hheap htim hinv.objs)
    (by rw [hrows, hreq]; exact hinv.reqs) ?_ heff ht2 rfl ⟨r, hr2, hrT, hrB, hrC⟩ ?_
  · intro r1 hr1 hne hc
    rw [hrows] at hr1
    refine TaskInv_erase nf w w2 i x extra r1 hx hextra hheap hreq htim ?_ (hinv.task r1 hr1 hc)
    unfold Timer.isFor
    rw [ho]
    simpa using fun h => hne h.symm
  · by_cases hc : r.CronExpr = ""
    · have ti := hinv.task r hr hc
      obtain ⟨he, hs, h0, h1, ha, hpl⟩ := ti.timer x hxm o ho hrT.symm
      have hti : w2.timers = w.timers.eraseIdx i := by
        rw [htim, hnone he, List.append_nil]
      have hfor : Timer.isFor w.heap r.TaskNo x = true := by
        unfold Timer.isFor
        rw [ho]
        simpa using hrT.symm
      have hlen := filter_eraseIdx_pos (Timer.isFor w.heap r.TaskNo) w.timers i x hx hfor
      have hone := ti.one
      unfold timersFor at hone
      have hnil : (w.timers.eraseIdx i).filter (Timer.isFor w.heap r.TaskNo) = [] := by
        apply List.eq_nil_of_length_eq_zero
        omega
      have hatt := attempts_congr w w2 hreq o.TaskNo
      have L : Local nf w2 p o r :=
        { nodup := hnd2
          heap := ht2
          row := hr2
          taskNo := hrT
          backoff := hrB
          cron := hrC.symm.trans hc
          noTimer := by
            intro y hy o1 ho1 hT1
            rw [hti] at hy
            rw [hheap] at ho1
            have := (List.filter_eq_nil_iff.mp hnil) y hy
            unfold Timer.isFor at this
            rw [ho1] at this
            simp at this
            exact this (hT1.trans hrT.symm)
          valid := ti.status
          bound := by rw [hatt, ← hrT, ← hrB]; exact ti.bound
          pend := fun h => by omega
          nofault := hnf
          payload := hpl }
      exact local_Execute d L net ctx hs h0 (by rw [← hrB]; exact h1)
        (by rw [hatt, ← hrT]; exact ha)
    · exact TaskOK_cron nf w2 _ o.TaskNo p r heff hnd2 hr2 hrT hc

end storage

namespace storage

/-! ## The pending sweeper -/

/-- What `FetchPendingTasks` returns: PENDING rows of the table, each once; the
call touches nothing but the fault script. -/
theorem FetchPendingTasks_spec (w : World) (maxCount : Int) (t : Duration)
    (hn : (w.rows.map (fun r => r.TaskNo)).Nodup) :
    (FetchPendingTasks w maxCount t).1.rows = w.rows ∧
    (FetchPendingTasks w maxCount t).1.heap = w.heap ∧
    (FetchPendingTasks w maxCount t).1.timers = w.timers ∧
    (FetchPendingTasks w maxCount t).1.requests = w.requests ∧
    (∃ k, (FetchPendingTasks w maxCount t).1.faults = w.faults.drop k) ∧
    ((FetchPendingTasks w maxCount t).2.1.map (fun r => r.TaskNo)).Nodup ∧
    ∀ r ∈ (FetchPendingTasks w maxCount t).2.1, r ∈ w.rows ∧ r.Status = 0 := by
  unfold FetchPendingTasks
  split
  · split
    · exact ⟨rfl, rfl, rfl, rfl, ⟨1, by simp [World.next]⟩, by simp, by simp⟩
    · refine ⟨rfl, rfl, rfl, rfl, ⟨1, by simp [World.next]⟩, ?_, ?_⟩
      · refine List.Nodup.sublist ((List.take_sublist _ _).map _) ?_
        refine ((List.perm_insertionSort _ _).map _).nodup_iff.mpr ?_
        exact List.Nodup.sublist ((List.filter_sublist _).map _) hn
      · intro r hr
        have h1 := List.mem_of_mem_take hr
        rw [List.mem_insertionSort] at h1
        rw [List.mem_filter] at h1
        refine ⟨h1.1, ?_⟩
        have h2 := h1.2
        simp only [decide_eq_true_eq] at h2
        exact h2.1
  · exact ⟨rfl, rfl, rfl, rfl, ⟨0, rfl⟩, by simp, by simp⟩

/-- An object joins the heap. -/
theorem Inv_alloc (nf : Prop) (w w1 : World) (t : TaskEntity) (h1 : w1.rows = w.rows)
    (h2 : w1.heap = w.heap ++ [t]) (h3 : w1.timers = w.timers)
    (h4 : w1.requests = w.requests) (h : Inv nf w) : Inv nf w1 := by
  have hobj : ∀ x ∈ w.timers, x.obj w1.heap = x.obj w.heap := by
    intro x hx
    rw [h2]
    apply obj_alloc
    rcases h.objs x hx with hp | ⟨o, ho, _⟩
    · exact Or.inl hp
    · exact Or.inr ⟨o, ho⟩
  refine ⟨by rw [h1]; exact h.nodup, ?_, by rw [h1, h4]; exact h.reqs, ?_⟩
  · intro x hx
    rw [h3] at hx
    rw [h1, hobj x hx]
    exact h.objs x hx
  · intro r hr hc
    rw [h1] at hr
    refine TaskInv_transfer nf w w1 r h4 ?_ ?_ (h.task r hr hc)
    · unfold timersFor
      rw [h3]
      apply List.filter_congr
      intro x hx
      unfold Timer.isFor
      rw [hobj x hx]
    · intro x hx o ho _
      rw [h3] at hx
      rw [hobj x hx] at ho
      exact ⟨hx, ho⟩

end storage

namespace storage

theorem alloc_get (heap : List TaskEntity) (t : TaskEntity) :
    (heap ++ [t])[heap.length]? = some t := by
  rw [List.getElem?_append_right (Nat.le_refl _)]
  simp

/-- One turn of the sweeper's loop: the record `t` of a PENDING row is submitted. -/
theorem sweep_Submit (nf : Prop) (d : Storage) (w : World) (ctx : trace.Context)
    (t : TaskEntity) (hinv : Inv nf w) (hnf : nf → NoFault w.faults) (ht : t ∈ w.rows)
    (hs : t.Status = 0) :
    Inv nf (Submit d callDepth
      { w with heap := w.heap ++ [{ t with FailCount := t.FailCount + 1 }] }
      ctx w.heap.length 0).1 := by
  have hinv1 : Inv nf { w with heap := w.heap ++ [{ t with FailCount := t.FailCount + 1 }] } :=
    Inv_alloc nf w _ _ rfl rfl rfl rfl hinv
  have hget := alloc_get w.heap { t with FailCount := t.FailCount + 1 }
  have heff := (Failure_Submit_eff d ctx w.heap.length t.TaskNo callDepth).2
    { w with heap := w.heap ++ [{ t with FailCount := t.FailCount + 1 }] }
    { t with FailCount := t.FailCount + 1 } 0 hget rfl
  refine Inv_of_eff nf _ _ t.TaskNo w.heap.length { t with FailCount := t.FailCount + 1 }
    hinv1.nodup hinv1.objs hinv1.reqs (fun r hr _ hc => hinv1.task r hr hc) heff hget rfl
    ⟨t, ht, rfl, rfl, rfl⟩ ?_
  by_cases hc : t.CronExpr = ""
  · have ti := hinv1.task t ht hc
    obtain ⟨hp0, hp1, hp2⟩ := ti.pending hs
    have L : Local nf { w with heap := w.heap ++ [{ t with FailCount := t.FailCount + 1 }] }
        w.heap.length { t with FailCount := t.FailCount + 1 } t :=
      { nodup := hinv1.nodup
        heap := hget
        row := ht
        taskNo := rfl
        backoff := rfl
        cron := hc
        noTimer := by
          intro y hy o ho hT
          have := (ti.timer y hy o ho hT).2.1
          omega
        valid := ti.status
        bound := ti.bound
        pend := ti.pending
        nofault := hnf
        payload := fun h => h.2.2 }
    exact local_Submit d L ctx 0 1 (show 0 ≤ t.FailCount + 1 by omega)
      (show t.FailCount + 1 ≤ (t.Backoff.length : Int) by omega) (fun _ => hp2)
      (fun _ => hs) (fun h => absurd (by decide) h) (fun h => h.1)
  · exact TaskOK_cron nf _ _ t.TaskNo w.heap.length t heff hinv1.nodup ht rfl hc

/-- The loop of the sweeper keeps the invariant. -/
theorem pendingLoop_inv (nf : Prop) (d : Storage) (ctx : trace.Context) :
    ∀ (tasks : List TaskEntity) (w : World), Inv nf w → (nf → NoFault w.faults) →
      (tasks.map (fun r => r.TaskNo)).Nodup → (∀ t ∈ tasks, t ∈ w.rows ∧ t.Status = 0) →
      Inv nf (pendingLoop d ctx tasks w).1 := by
  intro tasks
  induction tasks with
  | nil => intro w h _ _ _; exact h
  | cons t rest ih =>
    intro w hinv hnf hnd hall
    obtain ⟨ht, hs⟩ := hall t (List.mem_cons_self _ _)
    have hI := sweep_Submit nf d w (trace.Append ctx t.TraceId) t hinv hnf ht hs
    have hget := alloc_get w.heap { t with FailCount := t.FailCount + 1 }
    have heff := (Failure_Submit_eff d (trace.Append ctx t.TraceId) w.heap.length t.TaskNo
      callDepth).2
      { w with heap := w.heap ++ [{ t with FailCount := t.FailCount + 1 }] }
      { t with FailCount := t.FailCount + 1 } 0 hget rfl
    have hnd1 := List.nodup_cons.mp hnd
    have hrest : ∀ t2 ∈ rest, t2 ∈ (Submit d callDepth
        { w with heap := w.heap ++ [{ t with FailCount := t.FailCount + 1 }] }
        (trace.Append ctx t.TraceId) w.heap.length 0).1.rows ∧ t2.Status = 0 := by
      intro t2 h2
      obtain ⟨h3, h4⟩ := hall t2 (List.mem_cons_of_mem _ h2)
      refine ⟨?_, h4⟩
      obtain ⟨r1, hr1, _, hsame⟩ := heff.rows_mem_fwd t2 h3
      have hne : t2.TaskNo ≠ t.TaskNo := by
        intro e
        have hm : t.TaskNo ∈ rest.map (fun r => r.TaskNo) := by
          rw [← e]
          exact List.mem_map_of_mem (fun r => r.TaskNo) h2
        exact hnd1.1 hm
      rw [← hsame hne]
      exact hr1
    have hnf1 : nf → NoFault (Submit d callDepth
        { w with heap := w.heap ++ [{ t with FailCount := t.FailCount + 1 }] }
        (trace.Append ctx t.TraceId) w.heap.length 0).1.faults := by
      intro h
      obtain ⟨k, e⟩ := heff.faults
      rw [e]
      exact NoFault_drop _ k (hnf h)
    rw [pendingLoop]
    generalize Submit d callDepth
        { w with heap := w.heap ++ [{ t with FailCount := t.FailCount + 1 }] }
        (trace.Append ctx t.TraceId) w.heap.length 0 = res at hI hrest hnf1
    rcases res with ⟨w2, _ | e⟩
    · exact ih w2 hI hnf1 hnd1.2 hrest
    · cases e with
      | error m =>
        exact ih (collect w2 (.error ("execute task: " ++ m)))
          (Inv_same nf w2 _ rfl rfl rfl rfl hI) hnf1 hnd1.2 hrest
      | panic m => exact hI

/-- The pending sweeper keeps the invariant. -/
theorem pendingSweep_inv (nf : Prop) (d : Storage) (w : World) (uuid : String)
    (hinv : Inv nf w) (hnf : nf → NoFault w.faults) : Inv nf (pendingSweep d w uuid).1 := by
  obtain ⟨h1, h2, h3, h4, ⟨k, h5⟩, h6, h7⟩ :=
    FetchPendingTasks_spec w d.cfg.PendingLimit d.cfg.AdvancePendingTime hinv.nodup
  have hI := Inv_same nf w _ h1 h2 h3 h4 hinv
  have hnf1 : nf → NoFault
      (FetchPendingTasks w d.cfg.PendingLimit d.cfg.AdvancePendingTime).1.faults := by
    intro h
    rw [h5]
    exact NoFault_drop _ k (hnf h)
  rw [← h1] at h7
  unfold pendingSweep
  generalize FetchPendingTasks w d.cfg.PendingLimit d.cfg.AdvancePendingTime = res
    at hI hnf1 h6 h7
  rcases res with ⟨w1, tasks, _ | e⟩
  · exact pendingLoop_inv nf d _ tasks w1 hI hnf1 h6 h7
  · cases e with
    | error m => exact Inv_same nf w1 _ rfl rfl rfl rfl hI
    | panic m => exact hI

end storage

namespace storage

/-! ## The wheel fires a timer -/

/-- The function of the fired timer runs in the world `w2` the wheel has prepared. -/
theorem runClosure_inv (nf : Prop) (d : Storage) (w w2 : World) (i : Nat) (x : Timer)
    (extra : List Timer) (uuid : String) (net : callback.Reply)
    (hinv : Inv nf w) (hx : w.timers[i]? = some x)
    (hextra : ∀ y ∈ extra, y.f = x.f) (hnone : x.every = none → extra = [])
    (hrows : w2.rows = w.rows) (hheap : w2.heap = w.heap) (hreq : w2.requests = w.requests)
    (htim : w2.timers = w.timers.eraseIdx i ++ extra) (hnf : nf → NoFault w2.faults) :
    Inv nf (runClosure d w2 uuid net x.f) := by
  cases hf : x.f with
  | after ctx p =>
    have h := fire_exec nf d w w2 i x extra net ctx p hinv hx (Or.inl hf) hextra hnone hrows
      hheap hreq htim hnf
    simp only [runClosure]
    generalize Execute d w2 net ctx p = res at h
    rcases res with ⟨w3, _ | e⟩
    · exact h
    · cases e with
      | error m => exact Inv_same nf w3 _ rfl rfl rfl rfl h
      | panic m => exact Inv_same nf w3 _ rfl rfl rfl rfl h
  | cron ctx p =>
    have h := fire_exec nf d w w2 i x extra net ctx p hinv hx (Or.inr hf) hextra hnone hrows
      hheap hreq htim hnf
    simp only [runClosure]
    generalize Execute d w2 net ctx p = res at h
    rcases res with ⟨w3, _ | e⟩
    · exact h
    · cases e with
      | error m => exact Inv_same nf w3 _ rfl rfl rfl rfl h
      | panic m => exact Inv_same nf w3 _ rfl rfl rfl rfl h
  | pending =>
    have hnot : ∀ K, Timer.isFor w.heap K x = false := by
      intro K
      unfold Timer.isFor Timer.obj
      rw [hf]
    have hinv2 : Inv nf w2 := by
      refine ⟨by rw [hrows]; exact hinv.nodup,
        objs_erase w w2 i x extra hx hextra hrows hheap htim hinv.objs,
        by rw [hrows, hreq]; exact hinv.reqs, ?_⟩
      intro r hr hc
      rw [hrows] at hr
      exact TaskInv_erase nf w w2 i x extra r hx hextra hheap hreq htim (hnot _)
        (hinv.task r hr hc)
    have h := pendingSweep_inv nf d w2 uuid hinv2 hnf
    simp only [runClosure]
    generalize pendingSweep d w2 uuid = res at h
    rcases res with ⟨w3, _ | e⟩
    · exact h
    · exact Inv_same nf w3 _ rfl rfl rfl rfl h

/-- Firing a timer keeps the invariant. -/
theorem fire_inv (nf : Prop) (d : Storage) (w : World) (i : Nat) (uuid : String)
    (net : callback.Reply) (hinv : Inv nf w) (hnf : nf → NoFault w.faults) :
    Inv nf (fire d w i uuid net) := by
  unfold fire
  cases hx : w.timers[i]? with
  | none => exact hinv
  | some x =>
    simp only []
    by_cases hdue : due d w.now x.expiration
    · rw [if_pos hdue]
      cases he : x.every with
      | none =>
        simp only []
        exact runClosure_inv nf d w _ i x [] uuid net hinv hx (by simp) (fun _ => rfl)
          rfl rfl rfl (by simp) hnf
      | some interval =>
        simp only []
        by_cases hfail : w.failed = true
        · have hf1 : ({ w with timers := w.timers.eraseIdx i } : World).failed = true := hfail
          rw [arm_fail _ _ hf1]
          exact runClosure_inv nf d w _ i x [] uuid net hinv hx (by simp)
            (fun _ => rfl) rfl rfl rfl (by simp [World.next])
            (fun h => NoFault_tail _ (hnf h))
        · have hf1 : ({ w with timers := w.timers.eraseIdx i } : World).failed = false := by
            simpa using hfail
          rw [arm_ok _ _ hf1]
          exact runClosure_inv nf d w _ i x
            [{ expiration := timeToMs x.expiration * Millisecond + interval,
               every := some interval, f := x.f }]
            uuid net hinv hx (by simp) (fun h => by rw [he] at h; cases h) rfl rfl rfl rfl
            (fun h => NoFault_tail _ (hnf h))
    · rw [if_neg hdue]
      exact hinv

end storage

namespace storage

/-! ## A call of `Add` -/

/-- The world after the `INSERT` of a task whose number is new to the table. -/
theorem insert_pre (nf : Prop) (w w1 : World) (task row : TaskEntity) (hinv : Inv nf w)
    (hfresh : ∀ r ∈ w.rows, r.TaskNo ≠ task.TaskNo) (hT : row.TaskNo = task.TaskNo)
    (h1 : w1.rows = w.rows ++ [row]) (h2 : w1.heap = w.heap ++ [task])
    (h3 : w1.timers = w.timers) (h4 : w1.requests = w.requests) :
    (w1.rows.map (fun r => r.TaskNo)).Nodup ∧
    (∀ x ∈ w1.timers, x.f = .pending ∨
      ∃ o, x.obj w1.heap = some o ∧
        ∃ r ∈ w1.rows, r.TaskNo = o.TaskNo ∧ r.Backoff = o.Backoff ∧ r.CronExpr = o.CronExpr) ∧
    (∀ q ∈ w1.requests, ∃ r ∈ w1.rows, r.TaskNo = q.TaskNo) ∧
    (∀ r ∈ w1.rows, r.TaskNo ≠ task.TaskNo → r.CronExpr = "" → TaskInv nf w1 r) ∧
    (∀ y ∈ w1.timers, ∀ o, y.obj w1.heap = some o → o.TaskNo ≠ task.TaskNo) ∧
    attempts w1 task.TaskNo = 0 := by
  have hobj : ∀ x ∈ w.timers, x.obj w1.heap = x.obj w.heap := by
    intro x hx
    rw [h2]
    apply obj_alloc
    rcases hinv.objs x hx with hp | ⟨o, ho, _⟩
    · exact Or.inl hp
    · exact Or.inr ⟨o, ho⟩
  refine ⟨?_, ?_, ?_, ?_, ?_, ?_⟩
  · rw [h1, List.map_append, List.nodup_append]
    refine ⟨hinv.nodup, by simp, ?_⟩
    intro a ha hb
    simp only [List.map_cons, List.map_nil, List.mem_singleton] at hb
    obtain ⟨r, hr, e⟩ := List.mem_map.mp ha
    exact hfresh r hr (e.trans (hb.trans hT))
  · intro x hx
    rw [h3] at hx
    rw [hobj x hx, h1]
    rcases hinv.objs x hx with hp | ⟨o, ho, r, hr, hr1⟩
    · exact Or.inl hp
    · exact Or.inr ⟨o, ho, r, List.mem_append_left _ hr, hr1⟩
  · intro q hq
    rw [h4] at hq
    rw [h1]
    obtain ⟨r, hr, e⟩ := hinv.reqs q hq
    exact ⟨r, List.mem_append_left _ hr, e⟩
  · intro r hr hne hc
    rw [h1] at hr
    rcases List.mem_append.mp hr with h | h
    · refine TaskInv_transfer nf w w1 r h4 ?_ ?_ (hinv.task r h hc)
      · unfold timersFor
        rw [h3]
        apply List.filter_congr
        intro x hx
        unfold Timer.isFor
        rw [hobj x hx]
      · intro x hx o ho _
        rw [h3] at hx
        rw [hobj x hx] at ho
        exact ⟨hx, ho⟩
    · simp only [List.mem_singleton] at h
      exact absurd (by rw [h]; exact hT) hne
  · intro y hy o ho
    rw [h3] at hy
    rw [hobj y hy] at ho
    rcases hinv.objs y hy with hp | ⟨o1, ho1, r, hr, e, _⟩
    · unfold Timer.obj at ho
      rw [hp] at ho
      cases ho
    · rw [ho] at ho1
      cases ho1
      intro h
      exact hfresh r hr (e.trans h)
  · unfold attempts
    rw [h4, List.length_eq_zero, List.filter_eq_nil_iff]
    intro q hq
    obtain ⟨r, hr, e⟩ := hinv.reqs q hq
    simp only [beq_iff_eq]
    intro h
    exact hfresh r hr (e.trans h)

theorem insertRow_cases (w : World) (t : TaskEntity) :
    ((insertRow w t).2.isSome = true ∧ (insertRow w t).1 = w.next) ∨
    ((insertRow w t).2.isSome = false ∧ (∀ r ∈ w.rows, r.TaskNo ≠ t.TaskNo) ∧
      (insertRow w t).1 = { w.next with rows := w.rows ++
        [{ t with Id := (w.rows.length : Int) + 1, FailMsgs := [], LastRetryAt := none }] }) := by
  unfold insertRow
  split
  · exact Or.inl ⟨rfl, rfl⟩
  · split
    · exact Or.inl ⟨rfl, rfl⟩
    · rename_i h
      refine Or.inr ⟨rfl, ?_, rfl⟩
      intro r hr
      simp only [Bool.not_eq_true, List.any_eq_false, beq_iff_eq] at h
      exact h r hr

theorem newTaskEntity_slow (d : Storage) (now : Time) (ctx : trace.Context) (o : options)
    (taskNo : Int) (hslow : ¬ durationMul o.delayTime Second ≤ d.cfg.FastPathTime) :
    (newTaskEntity d now ctx o taskNo).Status = 0 ∧
    (newTaskEntity d now ctx o taskNo).FailCount = -1 := by
  simp only [newTaskEntity, if_neg hslow, and_self]


/-- The slow path of `Add`: the row is PENDING and nothing else happens. -/
theorem Add_slow_inv (nf : Prop) (w : World) (task : TaskEntity) (hinv : Inv nf w)
    (hfresh : ∀ r ∈ w.rows, r.TaskNo ≠ task.TaskNo) (hs : task.Status = 0)
    (hfc : task.FailCount = -1) :
    Inv nf { ({ w with heap := w.heap ++ [task] } : World).next with
      rows := w.rows ++
        [{ task with Id := (w.rows.length : Int) + 1, FailMsgs := [], LastRetryAt := none }] } := by
  obtain ⟨hnd, hobjs, hreqs, htask, hnoT, hatt⟩ := insert_pre nf w
    { ({ w with heap := w.heap ++ [task] } : World).next with
      rows := w.rows ++
        [{ task with Id := (w.rows.length : Int) + 1, FailMsgs := [], LastRetryAt := none }] }
    task { task with Id := (w.rows.length : Int) + 1, FailMsgs := [], LastRetryAt := none }
    hinv hfresh rfl rfl rfl rfl rfl
  refine ⟨hnd, hobjs, hreqs, ?_⟩
  intro r hr hc
  by_cases hT : r.TaskNo = task.TaskNo
  · have hr1 : r ∈ w.rows ++
        [{ task with Id := (w.rows.length : Int) + 1, FailMsgs := [], LastRetryAt := none }] := hr
    rcases List.mem_append.mp hr1 with h | h
    · exact absurd hT (hfresh r h)
    · simp only [List.mem_singleton] at h
      subst h
      refine TaskInv_noTimer nf _ _ hnoT (Or.inl hs) ?_ ?_ ?_
      · intro _
        rw [hatt]
        refine ⟨?_, ?_, ?_⟩
        · show -1 ≤ task.FailCount
          omega
        · show task.FailCount < (task.Backoff.length : Int)
          omega
        · show ((0 : Nat) : Int) ≤ task.FailCount + 1
          omega
      · rw [hatt]; exact Nat.zero_le _
      · intro _ _
        show task.Status ≠ 1
        omega
  · exact htask r hr hT hc

/-- The fast path of `Add`: the row is RUNNING and `Submit(task, -1)` arms it. -/
theorem Add_fast_inv (nf : Prop) (d : Storage) (w : World) (ctx : trace.Context)
    (task : TaskEntity) (hinv : Inv nf w) (hnf : nf → NoFault w.faults)
    (hfresh : ∀ r ∈ w.rows, r.TaskNo ≠ task.TaskNo) (hs : task.Status = 1)
    (hfc : task.FailCount = 0) :
    Inv nf (Submit d callDepth
      { ({ w with heap := w.heap ++ [task] } : World).next with
        rows := w.rows ++
          [{ task with Id := (w.rows.length : Int) + 1, FailMsgs := [], LastRetryAt := none }] }
      ctx w.heap.length (-1)).1 := by
  obtain ⟨hnd, hobjs, hreqs, htask, hnoT, hatt⟩ := insert_pre nf w
    { ({ w with heap := w.heap ++ [task] } : World).next with
      rows := w.rows ++
        [{ task with Id := (w.rows.length : Int) + 1, FailMsgs := [], LastRetryAt := none }] }
    task { task with Id := (w.rows.length : Int) + 1, FailMsgs := [], LastRetryAt := none }
    hinv hfresh rfl rfl rfl rfl rfl
  have hget := alloc_get w.heap task
  have hrow : ∀ (row : TaskEntity), row ∈ w.rows ++ [row] :=
    fun row => List.mem_append_right _ (List.mem_singleton.mpr rfl)
  have heff := (Failure_Submit_eff d ctx w.heap.length task.TaskNo callDepth).2
    { ({ w with heap := w.heap ++ [task] } : World).next with
      rows := w.rows ++
        [{ task with Id := (w.rows.length : Int) + 1, FailMsgs := [], LastRetryAt := none }] }
    task (-1) hget rfl
  refine Inv_of_eff nf _ _ task.TaskNo w.heap.length task hnd hobjs hreqs htask heff hget rfl
    ⟨_, hrow _, rfl, rfl, rfl⟩ ?_
  by_cases hc : task.CronExpr = ""
  · have L : Local nf _ w.heap.length task _ :=
      { nodup := hnd
        heap := hget
        row := hrow _
        taskNo := rfl
        backoff := rfl
        cron := hc
        noTimer := hnoT
        valid := Or.inr (Or.inl hs)
        bound := by rw [hatt]; exact Nat.zero_le _
        pend := fun h => by
          have : task.Status = 0 := h
          omega
        nofault := fun h => NoFault_tail _ (hnf h)
        payload := fun h => h.2.2 }
    exact local_Submit d L ctx (-1) 1 (by omega) (by omega)
      (fun _ => by rw [hatt, hfc]; rfl) (fun h => absurd h (by decide)) (fun _ => hs)
      (fun h => h.1)
  · exact TaskOK_cron nf _ _ task.TaskNo w.heap.length _ heff hnd (hrow _) rfl hc

/-- A call of `Add` keeps the invariant. -/
theorem Add_inv (nf : Prop) (d : Storage) (w : World) (ctx : trace.Context) (opts : List Opt)
    (taskNo : Int) (hinv : Inv nf w) (hnf : nf → NoFault w.faults) :
    Inv nf (Add d w ctx opts taskNo).1 := by
  rw [(Add_result d w ctx opts taskNo _ _ _ rfl rfl rfl).1]
  rcases insertRow_cases { w with heap := w.heap ++
      [newTaskEntity d w.now ctx (applyOptions opts) taskNo] }
      (newTaskEntity d w.now ctx (applyOptions opts) taskNo) with ⟨he, hw⟩ | ⟨he, hfresh, hw⟩
  · rw [if_pos he, hw]
    exact Inv_alloc nf w _ _ rfl rfl rfl rfl hinv
  · rw [if_neg (by rw [he]; decide), hw]
    by_cases hfast : durationMul (applyOptions opts).delayTime Second ≤ d.cfg.FastPathTime
    · rw [if_pos hfast]
      obtain ⟨_, h1, h2, _⟩ := newTaskEntity_fast d w.now ctx (applyOptions opts) taskNo hfast
      exact Add_fast_inv nf d w _ _ hinv hnf hfresh h1 h2
    · rw [if_neg hfast]
      obtain ⟨h1, h2⟩ := newTaskEntity_slow d w.now ctx (applyOptions opts) taskNo hfast
      exact Add_slow_inv nf w _ hinv hfresh h1 h2

end storage

namespace storage

/-! ## Runs of a node -/

/-- Every event keeps the invariant. -/
theorem step_inv (nf : Prop) (d : Storage) (w : World) (e : Event) (hinv : Inv nf w)
    (hnf : nf → e.faultFree) : Inv nf (step d w e) := by
  cases e with
  | add ctx opts taskNo faults =>
    exact Add_inv nf d _ ctx opts taskNo (Inv_same nf w _ rfl rfl rfl rfl hinv) hnf
  | advance dt => exact Inv_same nf w _ rfl rfl rfl rfl hinv
  | fire i uuid net faults =>
    exact fire_inv nf d _ i uuid net (Inv_same nf w _ rfl rfl rfl rfl hinv) hnf
  | setNodes ns =>
    simp only [step]
    split
    · exact Inv_same nf w _ rfl rfl rfl rfl hinv
    · exact hinv

theorem run_inv (nf : Prop) (d : Storage) : ∀ (evs : List Event) (w : World), Inv nf w →
    (nf → ∀ e ∈ evs, e.faultFree) → Inv nf (run d w evs) := by
  intro evs
  induction evs with
  | nil => intro w h _; exact h
  | cons e rest ih =>
    intro w h hnf
    exact ih (step d w e)
      (step_inv nf d w e h (fun hn => hnf hn e (List.mem_cons_self _ _)))
      (fun hn e1 he1 => hnf hn e1 (List.mem_cons_of_mem _ he1))

/-- The world after `New` and `Start`: an empty table and the sweeper's timer. -/
theorem boot_inv (nf : Prop) (d : Storage) (now : Time) (w : World)
    (h : boot d now = some w) : Inv nf w := by
  unfold boot at h
  split at h
  · cases h
  · split at h
    · cases h
    · split at h
      · cases h
      · split at h
        · cases h
        · rename_i ns _ w1 harm
          cases h
          have e := arm_none _ _ _ harm
          subst e
          refine ⟨by simp [emptyWorld], ?_, by simp [emptyWorld], by simp [emptyWorld]⟩
          intro x hx
          left
          simp [emptyWorld] at hx
          rw [hx]

/-- The invariant holds along every run of a node. -/
theorem inv_of_run (nf : Prop) (d : Storage) (now : Time) (w0 : World) (evs : List Event)
    (hboot : boot d now = some w0) (hnf : nf → ∀ e ∈ evs, e.faultFree) :
    Inv nf (run d w0 evs) :=
  run_inv nf d evs w0 (boot_inv nf d now w0 hboot) hnf

/-- A task without cron expression is attempted at most `len(backoff)` times. -/
theorem attempts_le_backoff (d : Storage) (now : Time) (w0 : World) (evs : List Event)
    (r : TaskEntity) (hboot : boot d now = some w0) (hr : r ∈ (run d w0 evs).rows)
    (hc : r.CronExpr = "") : attempts (run d w0 evs) r.TaskNo ≤ r.Backoff.length :=
  ((inv_of_run False d now w0 evs hboot (fun h => h.elim)).task r hr hc).bound

end storage

namespace storage

/-! ## The retry bound -/

/-- C1, amended. For every task without a cron expression (any backoff list, any
delay, any sequence of adapter outcomes and of failing store or wheel calls),
along any run of a node from `New` and `Start` (calls of `Add`, the clock, the
wheel firing the sweeper or `Execute`, membership changes) the adapter's
`Request` has been invoked for that task at most `len(backoff) + 1` times. And
when no store or wheel call has failed and the task has a payload, a non-zero
`delay_time` and no zero backoff entry, a row for which no timer is armed and
which is neither PENDING (waiting for the sweeper) nor SUCCEEDED is FAILED (3). -/
theorem retry_bound (d : Storage) (now : Time) (w0 : World) (evs : List Event) (r : TaskEntity)
    (hboot : boot d now = some w0) (hr : r ∈ (run d w0 evs).rows) (hc : r.CronExpr = "") :
    attempts (run d w0 evs) r.TaskNo ≤ r.Backoff.length + 1 ∧
    ((∀ e ∈ evs, e.faultFree) → Clean r → timersFor (run d w0 evs) r.TaskNo = [] →
      r.Status ≠ 0 → r.Status ≠ 2 → r.Status = 3) := by
  have ti := (inv_of_run (∀ e ∈ evs, e.faultFree) d now w0 evs hboot id).task r hr hc
  refine ⟨Nat.le_succ_of_le ti.bound, fun hff hcl hno h0 h2 => ?_⟩
  rcases ti.status with h | h | h | h
  · exact absurd h h0
  · exact absurd hno (ti.live hff hcl h)
  · exact absurd h h2
  · exact h

theorem scenarioS2_faultFree : ∀ e ∈ scenarioS2, e.faultFree := by
  intro e he
  simp only [scenarioS2, seconds, fires, List.mem_cons, List.mem_singleton,
    List.not_mem_nil, or_false] at he
  rcases he with h | h | h | h | h | h | h | h | h | h | h | h | h | h | h <;>
    subst h <;> simp [Event.faultFree, NoFault]

theorem retry_bound_witness :
    boot testStorage 0 = some testWorld ∧
    rowS2 ∈ (run testStorage testWorld scenarioS2).rows ∧ rowS2.CronExpr = "" ∧
    attempts (run testStorage testWorld scenarioS2) rowS2.TaskNo ≤ rowS2.Backoff.length + 1 ∧
    (∀ e ∈ scenarioS2, e.faultFree) ∧ Clean rowS2 ∧
    timersFor (run testStorage testWorld scenarioS2) rowS2.TaskNo = [] ∧
    rowS2.Status ≠ 0 ∧ rowS2.Status ≠ 2 ∧ rowS2.Status = 3 :=
  have hb : boot testStorage 0 = some testWorld := by decide!
  have hr : rowS2 ∈ (run testStorage testWorld scenarioS2).rows := by decide!
  have hcl : Clean rowS2 := by unfold Clean; decide
  have hno : timersFor (run testStorage testWorld scenarioS2) rowS2.TaskNo = [] := by decide!
  have h := retry_bound testStorage 0 testWorld scenarioS2 rowS2 hb hr rfl
  ⟨hb, hr, rfl, h.1, scenarioS2_faultFree, hcl, hno, by decide, by decide,
    h.2 scenarioS2_faultFree hcl hno (by decide) (by decide)⟩

/-- C1, the claim as stated fails. A task with a cron expression is attempted at
every firing of its cron timer: in `scenarioCronFailing` the backoff list has one
entry and `Request` is called three times (at 5 s, 10 s and 20 s). And with a
zero backoff entry the retry is not scheduled: in `scenarioZeroBackoff` the one
attempt has failed, no timer of the task is armed, and the row is RUNNING. -/
theorem retry_bound_fails :
    (attempts (run testStorage testWorld scenarioCronFailing) 1004 = 3 ∧
      (run testStorage testWorld scenarioCronFailing).rows.map
        (fun r => (r.TaskNo, r.Backoff.length)) = [(1004, 1)]) ∧
    (attempts (run testStorage testWorld scenarioZeroBackoff) 1005 = 1 ∧
      (run testStorage testWorld scenarioZeroBackoff).rows.map
        (fun r => (r.TaskNo, r.Status, r.FailMsgs.length)) = [(1005, 1, 1)] ∧
      timersFor (run testStorage testWorld scenarioZeroBackoff) 1005 = []) := by
  decide!

end storage

namespace storage

/-! ## `CronToDuration` -/

theorem wrapInt64_id (x : Int) (h1 : MinInt64 ≤ x) (h2 : x ≤ MaxInt64) : wrapInt64 x = x := by
  unfold wrapInt64
  unfold MinInt64 at h1
  unfold MaxInt64 at h2
  omega

theorem digitChar_spec (k : Nat) (h : k < 10) :
    ('0' ≤ Nat.digitChar k ∧ Nat.digitChar k ≤ '9') ∧
    (Nat.digitChar k).toNat - '0'.toNat = k ∧ isSpace (Nat.digitChar k) = false ∧
    Nat.digitChar k ≠ '-' ∧ Nat.digitChar k ≠ '+' := by
  interval_cases k <;> decide

/-- The characters of a decimal numeral. -/
theorem toDigitsCore_append (fuel : Nat) : ∀ (n : Nat) (ds : List Char),
    Nat.toDigitsCore 10 fuel n ds = Nat.toDigitsCore 10 fuel n [] ++ ds := by
  induction fuel with
  | zero => intro n ds; simp [Nat.toDigitsCore]
  | succ fuel ih =>
    intro n ds
    simp only [Nat.toDigitsCore]
    split
    · simp
    · rw [ih (n / 10) (Nat.digitChar (n % 10) :: ds), ih (n / 10) [Nat.digitChar (n % 10)]]
      simp

theorem digitsValue_snoc (d : Char) (hd : '0' ≤ d ∧ d ≤ '9') : ∀ (l : List Char) (acc : Nat),
    digitsValue (l ++ [d]) acc =
      (digitsValue l acc).map (fun v => v * 10 + (d.toNat - '0'.toNat)) := by
  intro l
  induction l with
  | nil => intro acc; simp [digitsValue, hd]
  | cons c cs ih =>
    intro acc
    simp only [List.cons_append, digitsValue]
    split
    · exact ih _
    · rfl

theorem toDigitsCore_spec (fuel : Nat) : ∀ (n : Nat), n < fuel →
    digitsValue (Nat.toDigitsCore 10 fuel n []) 0 = some n ∧
    Nat.toDigitsCore 10 fuel n [] ≠ [] ∧
    ∀ c ∈ Nat.toDigitsCore 10 fuel n [], ∃ k, k < 10 ∧ c = Nat.digitChar k := by
  induction fuel with
  | zero => intro n h; omega
  | succ fuel ih =>
    intro n h
    have hk : n % 10 < 10 := Nat.mod_lt _ (by decide)
    obtain ⟨hd, hv, _⟩ := digitChar_spec (n % 10) hk
    simp only [Nat.toDigitsCore]
    split
    · rename_i h0
      refine ⟨?_, by simp, ?_⟩
      · simp only [digitsValue, hd, and_self, if_true, hv]
        congr 1
        omega
      · intro c hc
        simp only [List.mem_singleton] at hc
        exact ⟨n % 10, hk, hc⟩
    · rename_i h0
      obtain ⟨i1, i2, i3⟩ := ih (n / 10) (by omega)
      rw [toDigitsCore_append]
      refine ⟨?_, by simp, ?_⟩
      · rw [digitsValue_snoc _ hd, i1, hv]
        simp only [Option.map_some']
        congr 1
        omega
      · intro c hc
        rcases List.mem_append.mp hc with h1 | h1
        · exact i3 c h1
        · simp only [List.mem_singleton] at h1
          exact ⟨n % 10, hk, h1⟩

theorem toString_data (N : Nat) : (toString N).data = Nat.toDigitsCore 10 (N + 1) N [] := rfl

end storage

namespace storage

theorem fieldsGo_word (word : List Char) (hw : ∀ c ∈ word, isSpace c = false) :
    ∀ (cur rest : List Char), fieldsGo (word ++ rest) cur = fieldsGo rest (word.reverse ++ cur) := by
  induction word with
  | nil => intro cur rest; rfl
  | cons c w ih =>
    intro cur rest
    have hc : isSpace c = false := hw c (List.mem_cons_self _ _)
    rw [List.cons_append, fieldsGo, if_neg (by simp [hc]),
      ih (fun x hx => hw x (List.mem_cons_of_mem _ hx))]
    simp

/-- A word followed by a blank is a field. -/
theorem fieldsGo_field (word : List Char) (hne : word ≠ [])
    (hw : ∀ c ∈ word, isSpace c = false) (rest : List Char) :
    fieldsGo (word ++ ' ' :: rest) [] = String.mk word :: fieldsGo rest [] := by
  rw [fieldsGo_word word hw]
  have h1 : word.reverse ++ [] ≠ [] := by simpa using hne
  have h2 : isSpace ' ' = true := by decide
  simp only [fieldsGo, h2, if_true, if_neg h1]
  simp

theorem digitsValue_ge : ∀ (ds : List Char) (acc v : Nat),
    digitsValue ds acc = some v → acc ≤ v := by
  intro ds
  induction ds with
  | nil => intro acc v h; simp only [digitsValue, Option.some.injEq] at h; omega
  | cons c cs ih =>
    intro acc v h
    simp only [digitsValue] at h
    split at h
    · have := ih _ _ h
      omega
    · cases h

/-- On a digit string whose value fits 64 bits the loop of `ParseUint` meets no
range error and returns the value. -/
theorem parseUint_of_value : ∀ (ds : List Char) (acc v : Nat),
    digitsValue ds acc = some v → v < 2 ^ 64 → parseUint ds acc = some v := by
  intro ds
  induction ds with
  | nil => intro acc v h _; simpa [digitsValue, parseUint] using h
  | cons c cs ih =>
    intro acc v h hv
    simp only [digitsValue] at h
    split at h
    · rename_i hc
      have hge := digitsValue_ge _ _ _ h
      have h64 : (2 : Nat) ^ 64 = 18446744073709551616 := by norm_num
      have hv1 := hv
      rw [h64] at hv1
      have h1 : ¬ (acc ≥ maxUint64 / 10 + 1) := by
        unfold maxUint64
        omega
      have h2 : ¬ (acc * 10 + (c.toNat - '0'.toNat) > maxUint64) := by
        unfold maxUint64
        omega
      simp only [parseUint, hc, and_self, if_true, if_neg h1, if_neg h2]
      exact ih _ _ h hv
    · cases h

theorem Atoi_digits (ds : List Char) (v : Nat) (hne : ds ≠ [])
    (hd : ∀ c ∈ ds, ∃ k, k < 10 ∧ c = Nat.digitChar k) (hv0 : digitsValue ds 0 = some v)
    (hlt : (v : Int) < 2 ^ 63) : Atoi (String.mk ds) = v := by
  have hv : parseUint ds 0 = some v :=
    parseUint_of_value ds 0 v hv0 (by
      have h64 : (2 : Nat) ^ 64 = 18446744073709551616 := by norm_num
      rw [h64]
      omega)
  cases ds with
  | nil => exact absurd rfl hne
  | cons c cs =>
    obtain ⟨k, hk, e⟩ := hd c (List.mem_cons_self _ _)
    obtain ⟨_, _, _, hm, hp⟩ := digitChar_spec k hk
    rw [← e] at hm hp
    unfold Atoi
    split
    · rename_i neg ds1 heq
      split at heq
      · rename_i r h1
        simp only [List.cons.injEq] at h1
        exact absurd h1.1 hm
      · rename_i r h1
        simp only [List.cons.injEq] at h1
        exact absurd h1.1 hp
      · rename_i r h1 h2
        simp only [Prod.mk.injEq] at heq
        obtain ⟨e1, e2⟩ := heq
        subst e1 e2
        simp only [List.cons_ne_nil, if_false, hv, Bool.false_eq_true]
        rw [if_neg (by omega)]

end storage

namespace storage

theorem zero_field (rest : List Char) :
    fieldsGo ('0' :: ' ' :: rest) [] = "0" :: fieldsGo rest [] :=
  fieldsGo_field ['0'] (by simp) (by simp; decide) rest

theorem HasPrefix_word (ds : List Char) : HasPrefix (String.mk ('*' :: '/' :: ds)) "*/" = true := by
  simp [HasPrefix, List.isPrefixOf]

theorem TrimPrefix_word (ds : List Char) :
    TrimPrefix (String.mk ('*' :: '/' :: ds)) "*/" = String.mk ds := by
  simp [TrimPrefix, HasPrefix_word]

/-- The numeral of `N`: its characters are no blanks and `Atoi` reads `N` back. -/
theorem numeral_spec (N : Nat) :
    (toString N).data ≠ [] ∧ (∀ c ∈ '*' :: '/' :: (toString N).data, isSpace c = false) ∧
    ((N : Int) < 2 ^ 63 → Atoi (String.mk (toString N).data) = N) := by
  obtain ⟨h1, h2, h3⟩ := toDigitsCore_spec (N + 1) N (Nat.lt_succ_self N)
  rw [toString_data]
  refine ⟨h2, ?_, fun hlt => Atoi_digits _ N h2 h3 h1 hlt⟩
  intro c hc
  simp only [List.mem_cons] at hc
  rcases hc with h | h | h
  · subst h; decide
  · subst h; decide
  · obtain ⟨k, hk, e⟩ := h3 c h
    rw [e]
    exact (digitChar_spec k hk).2.2.1

theorem durationMul_small (n : Nat) (unit : Int) (h0 : 0 ≤ unit)
    (h : (n : Int) * unit ≤ MaxInt64) : durationMul n unit = n * unit := by
  unfold durationMul
  apply wrapInt64_id _ _ h
  have : 0 ≤ (n : Int) * unit := Int.mul_nonneg (Int.ofNat_nonneg n) h0
  unfold MinInt64
  omega

theorem Fields_sec (ds : List Char)
    (hw : ∀ c ∈ '*' :: '/' :: ds, isSpace c = false) :
    Fields ("*/" ++ String.mk ds ++ " * * * * *") =
      [String.mk ('*' :: '/' :: ds), "*", "*", "*", "*", "*"] := by
  have hd : ("*/" ++ String.mk ds ++ " * * * * *").data =
      ('*' :: '/' :: ds) ++ ' ' :: "* * * * *".data := by
    simp [String.data_append]
  unfold Fields
  rw [hd, fieldsGo_field _ (by simp) hw]
  rfl

theorem Fields_min (ds : List Char)
    (hw : ∀ c ∈ '*' :: '/' :: ds, isSpace c = false) :
    Fields ("0 */" ++ String.mk ds ++ " * * * *") =
      ["0", String.mk ('*' :: '/' :: ds), "*", "*", "*", "*"] := by
  have hd : ("0 */" ++ String.mk ds ++ " * * * *").data =
      '0' :: ' ' :: (('*' :: '/' :: ds) ++ ' ' :: "* * * *".data) := by
    simp [String.data_append]
  unfold Fields
  rw [hd, zero_field, fieldsGo_field _ (by simp) hw]
  rfl

theorem Fields_hour (ds : List Char)
    (hw : ∀ c ∈ '*' :: '/' :: ds, isSpace c = false) :
    Fields ("0 0 */" ++ String.mk ds ++ " * * *") =
      ["0", "0", String.mk ('*' :: '/' :: ds), "*", "*", "*"] := by
  have hd : ("0 0 */" ++ String.mk ds ++ " * * *").data =
      '0' :: ' ' :: '0' :: ' ' :: (('*' :: '/' :: ds) ++ ' ' :: "* * *".data) := by
    simp [String.data_append]
  unfold Fields
  rw [hd, zero_field, zero_field, fieldsGo_field _ (by simp) hw]
  rfl

theorem Fields_day (ds : List Char)
    (hw : ∀ c ∈ '*' :: '/' :: ds, isSpace c = false) :
    Fields ("0 0 0 */" ++ String.mk ds ++ " * *") =
      ["0", "0", "0", String.mk ('*' :: '/' :: ds), "*", "*"] := by
  have hd : ("0 0 0 */" ++ String.mk ds ++ " * *").data =
      '0' :: ' ' :: '0' :: ' ' :: '0' :: ' ' :: (('*' :: '/' :: ds) ++ ' ' :: "* *".data) := by
    simp [String.data_append]
  unfold Fields
  rw [hd, zero_field, zero_field, zero_field, fieldsGo_field _ (by simp) hw]
  rfl


/-- C11. For every natural number `N`, written in decimal, for which the product
does not leave the `int64` range: `CronToDuration("*/N * * * * *")` is `N`
seconds, `CronToDuration("0 */N * * * *")` is `N` minutes,
`CronToDuration("0 0 */N * * *")` is `N` hours and
`CronToDuration("0 0 0 */N * *")` is `N * 24` hours, each with a nil error. -/
theorem CronToDuration_every (N : Nat) :
    ((N : Int) * Second ≤ MaxInt64 →
      CronToDuration ("*/" ++ toString N ++ " * * * * *") = ((N : Int) * Second, none)) ∧
    ((N : Int) * Minute ≤ MaxInt64 →
      CronToDuration ("0 */" ++ toString N ++ " * * * *") = ((N : Int) * Minute, none)) ∧
    ((N : Int) * Hour ≤ MaxInt64 →
      CronToDuration ("0 0 */" ++ toString N ++ " * * *") = ((N : Int) * Hour, none)) ∧
    ((N : Int) * 24 * Hour ≤ MaxInt64 →
      CronToDuration ("0 0 0 */" ++ toString N ++ " * *") = ((N : Int) * 24 * Hour, none)) := by
  obtain ⟨_, hw, hat⟩ := numeral_spec N
  have h0 : HasPrefix "0" "*/" = false := by decide
  refine ⟨fun h => ?_, fun h => ?_, fun h => ?_, fun h => ?_⟩
  · have hlt : (N : Int) < 2 ^ 63 := by
      unfold Second MaxInt64 at h
      omega
    unfold CronToDuration
    rw [show Fields ("*/" ++ toString N ++ " * * * * *") = _ from Fields_sec _ hw]
    simp only [HasPrefix_word, TrimPrefix_word, if_true]
    rw [show Atoi { data := Nat.toDigits 10 N } = (N : Int) from hat hlt, durationMul_small N Second (by decide) h]
  · have hlt : (N : Int) < 2 ^ 63 := by
      unfold Minute Second MaxInt64 at h
      omega
    unfold CronToDuration
    rw [show Fields ("0 */" ++ toString N ++ " * * * *") = _ from Fields_min _ hw]
    simp only [h0, HasPrefix_word, TrimPrefix_word, if_true, Bool.false_eq_true, if_false]
    rw [show Atoi { data := Nat.toDigits 10 N } = (N : Int) from hat hlt, durationMul_small N Minute (by decide) h]
  · have hlt : (N : Int) < 2 ^ 63 := by
      unfold Hour Minute Second MaxInt64 at h
      omega
    unfold CronToDuration
    rw [show Fields ("0 0 */" ++ toString N ++ " * * *") = _ from Fields_hour _ hw]
    simp only [h0, HasPrefix_word, TrimPrefix_word, if_true, Bool.false_eq_true, if_false]
    rw [show Atoi { data := Nat.toDigits 10 N } = (N : Int) from hat hlt, durationMul_small N Hour (by decide) h]
  · have hlt : (N : Int) < 2 ^ 63 := by
      unfold Hour Minute Second MaxInt64 at h
      omega
    have h24 : wrapInt64 ((N : Int) * 24) = ((N * 24 : Nat) : Int) := by
      rw [wrapInt64_id]
      · push_cast; rfl
      · unfold MinInt64; omega
      · unfold Hour Minute Second MaxInt64 at h
        unfold MaxInt64
        omega
    unfold CronToDuration
    rw [show Fields ("0 0 0 */" ++ toString N ++ " * *") = _ from Fields_day _ hw]
    simp only [h0, HasPrefix_word, TrimPrefix_word, if_true, Bool.false_eq_true, if_false]
    rw [show Atoi { data := Nat.toDigits 10 N } = (N : Int) from hat hlt, h24, durationMul_small (N * 24) Hour (by decide) (by push_cast; exact h)]
    push_cast
    rfl

theorem CronToDuration_every_witness :
    CronToDuration "*/10 * * * * *" = (10 * Second, none) ∧
    CronToDuration "0 */5 * * * *" = (5 * Minute, none) ∧
    CronToDuration "0 0 */1 * * *" = (1 * Hour, none) ∧
    CronToDuration "0 0 0 */1 * *" = (24 * Hour, none) :=
  ⟨(CronToDuration_every 10).1 (by decide), (CronToDuration_every 5).2.1 (by decide),
    (CronToDuration_every 1).2.2.1 (by decide), (CronToDuration_every 1).2.2.2 (by decide)⟩

end storage

namespace storage

/-- The inputs `CronToDuration` rejects: those that do not have six fields, and
those with six fields none of whose first four begins with `*/`. -/
theorem CronToDuration_error_iff (expr : String) :
    (CronToDuration expr).2 ≠ none ↔
      ∀ sec min hour day month week, Fields expr = [sec, min, hour, day, month, week] →
        HasPrefix sec "*/" = false ∧ HasPrefix min "*/" = false ∧
        HasPrefix hour "*/" = false ∧ HasPrefix day "*/" = false := by
  unfold CronToDuration
  split
  · rename_i sec min hour day month week hF
    constructor
    · intro h
      intro s m ho d mo we e
      rw [hF] at e
      simp only [List.cons.injEq, and_true] at e
      obtain ⟨rfl, rfl, rfl, rfl, _, _⟩ := e
      by_cases h1 : HasPrefix sec "*/" = true
      · rw [if_pos h1] at h; exact absurd rfl h
      · rw [if_neg h1] at h
        by_cases h2 : HasPrefix min "*/" = true
        · rw [if_pos h2] at h; exact absurd rfl h
        · rw [if_neg h2] at h
          by_cases h3 : HasPrefix hour "*/" = true
          · rw [if_pos h3] at h; exact absurd rfl h
          · rw [if_neg h3] at h
            by_cases h4 : HasPrefix day "*/" = true
            · rw [if_pos h4] at h; exact absurd rfl h
            · simp only [Bool.not_eq_true] at h1 h2 h3 h4
              exact ⟨h1, h2, h3, h4⟩
    · intro h
      obtain ⟨h1, h2, h3, h4⟩ := h sec min hour day month week hF
      simp [h1, h2, h3, h4]
  · rename_i hne
    constructor
    · intro _ s m ho d mo we e
      exact absurd e (hne s m ho d mo we)
    · intro _
      simp

/-- C12 (evaluation of the code). `CronToDuration` returns a nil error for inputs
outside the supported forms: an `N` that is no number gives a zero duration, a
negative `N` a negative one, a second `*/N` field is not looked at, and neither
are the fields around the first `*/N`. -/
theorem CronToDuration_accepts_unsupported :
    CronToDuration "*/x * * * * *" = (0, none) ∧
    CronToDuration "*/-5 * * * * *" = (-5 * Second, none) ∧
    CronToDuration "*/5 */7 * * * *" = (5 * Second, none) ∧
    CronToDuration "5 */3 * * * *" = (3 * Minute, none) ∧
    CronToDuration "*/10 1 2 3 4 5" = (10 * Second, none) ∧
    CronToDuration "*/ * * * * *" = (0, none) := by
  decide

end storage

namespace storage

/-! ## The adapter is called by `Execute` only -/

theorem arm_requests (w : World) (x : Timer) : (w.arm x).1.requests = w.requests := by
  unfold World.arm
  split <;> rfl

theorem execUpdate_requests (w : World) (rows : List TaskEntity) :
    (execUpdate w rows).1.requests = w.requests := by
  unfold execUpdate
  split <;> rfl

theorem orReturn_requests (w : World) (r : World × Option Err)
    (k : World → World × Option Err) (h1 : r.1.requests = w.requests)
    (h2 : ∀ w1, w1.requests = w.requests → (k w1).1.requests = w.requests) :
    (orReturn r k).1.requests = w.requests := by
  rcases r with ⟨w1, _ | e⟩
  · exact h2 w1 h1
  · exact h1

theorem submitBody_requests (w : World) (ctx : trace.Context) (p : Nat) (t : TaskEntity)
    (status : Int) : (submitBody w ctx p t status).1.requests = w.requests := by
  unfold submitBody
  apply orReturn_requests
  · split
    · exact execUpdate_requests _ _
    · rfl
  · intro w1 h1
    split
    · exact h1
    · apply orReturn_requests
      · split
        · exact (arm_requests _ _).trans h1
        · exact h1
      · intro w2 h2
        split
        · split
          · exact h2
          · exact (arm_requests _ _).trans h2
        · exact h2

/-- Neither `Failure` nor `Submit` calls an adapter. -/
theorem Failure_Submit_requests (d : Storage) (ctx : trace.Context) (p : Nat) :
    ∀ (fuel : Nat),
    (∀ (w : World), (Failure d fuel w ctx p).1.requests = w.requests) ∧
    (∀ (w : World) (status : Int), (Submit d fuel w ctx p status).1.requests = w.requests) := by
  intro fuel
  induction fuel with
  | zero =>
    exact ⟨fun w => by rw [Failure], fun w s => by rw [Submit]⟩
  | succ fuel ih =>
    constructor
    · intro w
      rw [Failure]
      split
      · rfl
      · split
        · rfl
        · split
          · split
            · rfl
            · dsimp only
              split
              · exact ih.2 _ 1
              · exact execUpdate_requests _ _
          · exact execUpdate_requests _ _
    · intro w status
      rw [Submit]
      split
      · rfl
      · split
        · exact ih.1 w
        · exact submitBody_requests w ctx p _ status

end storage

namespace storage

/-! ## A scheme without adapter -/

/-- With the case table of the tests the scheme `httpſ`, written with a long s,
is upper-cased to `HTTPS`, for which an adapter is registered. -/
theorem toUpper_long_s :
    toUpper upperTable (String.mk ['h', 't', 't', 'p', Char.ofNat 0x17F]) = "HTTPS" ∧
    (callback.GetAdapter (toUpper upperTable
      (String.mk ['h', 't', 't', 'p', Char.ofNat 0x17F]))).isSome = true := by
  decide


/-- C13, amended. For a task whose payload scheme (upper-cased) has no registered
adapter, `Execute` makes no adapter call, appends a fail message naming the
scheme and goes on as `Failure` does for any failed attempt. So with
`fail_count = len(backoff)`, when the store accepts the statement, no retry is
scheduled (the wheel is untouched) and the rows of the task are FAILED with the
message at the end of `fail_msgs`. -/
theorem Execute_adapter_missing (d : Storage) (w : World) (net : callback.Reply)
    (ctx : trace.Context) (task : Nat) (t : TaskEntity) (p : callback.Payload)
    (ht : w.heap[task]? = some t) (hp : t.Payload = some p)
    (ha : d.adapter (toUpper d.upper p.Schema) = none)
    (hfc : t.FailCount ≤ (t.Backoff.length : Int)) :
    let t1 := t.WithFailMsg { Resp := "", Err := "adapter not found for schema " ++ p.Schema }
    Execute d w net ctx task =
      Failure d callDepth { w with heap := w.heap.set task t1 } ctx task ∧
    (Execute d w net ctx task).1.requests = w.requests ∧
    (t.FailCount = (t.Backoff.length : Int) → w.failed = false →
      (Execute d w net ctx task).2 = none ∧
      (Execute d w net ctx task).1.timers = w.timers ∧
      (Execute d w net ctx task).1.rows = w.rows.map (fun r =>
        if r.TaskNo = t.TaskNo then
          { r with Status := 3, FailMsgs := t1.FailMsgs, UpdatedAt := w.now }
        else r) ∧
      t1.FailMsgs = t.FailMsgs ++
        [{ Resp := "", Err := "adapter not found for schema " ++ p.Schema }]) := by
  obtain ⟨v, hv⟩ := GetDelayTime_some t hfc
  intro t1
  have hE : Execute d w net ctx task =
      Failure d callDepth { w with heap := w.heap.set task t1 } ctx task := by
    unfold Execute
    simp only [ht, hv, hp, ha]
  refine ⟨hE, ?_, ?_⟩
  · rw [hE]
    exact (Failure_Submit_requests d ctx task callDepth).1 _
  · intro he hok
    have hg : GetDelayTime t1 = some v := hv
    rw [hE, show callDepth = 2 + 1 from rfl,
      Failure_exhausted d 2 _ ctx task _ v (getElem?_set_same w.heap task t _ ht) hg
        (show ¬ (t.FailCount < (t.Backoff.length : Int)) by omega)]
    have hok1 : ({ w with heap := w.heap.set task t1 } : World).failed = false := hok
    unfold markFailed
    rw [execUpdate_ok _ _ hok1]
    exact ⟨rfl, rfl, rfl, rfl⟩

theorem Execute_adapter_missing_witness :
    (Execute testStorage lostWorld { resp := "", err := none } .background 0).1.requests = [] ∧
    (Execute testStorage lostWorld { resp := "", err := none } .background 0).2 = none ∧
    (Execute testStorage lostWorld { resp := "", err := none } .background 0).1.timers = [] ∧
    (Execute testStorage lostWorld { resp := "", err := none } .background 0).1.rows =
      [{ lostRow with
          Status := 3, FailMsgs := [{ Resp := "", Err := "adapter not found for schema ftp" }],
          UpdatedAt := 6 * Second }] :=
  have h := Execute_adapter_missing testStorage lostWorld { resp := "", err := none }
    .background 0 lostRow { Schema := "ftp", Url := "", Path := "", Data := none } rfl rfl rfl
    (by decide)
  ⟨h.2.1, (h.2.2 rfl rfl).1, (h.2.2 rfl rfl).2.1, (h.2.2 rfl rfl).2.2.1⟩

/-- C13, the claim as stated fails. In `scenarioNoAdapter` the scheme `ftp` has no
adapter and `fail_count` = 0 is below `len(backoff)` = 2: after `Execute` at 5 s
the row is RUNNING with `fail_count` = 1, one fail message, and the one-shot
timer of the task is armed again for 7 s. -/
theorem adapter_missing_is_retried :
    (run testStorage testWorld scenarioNoAdapter).rows.map
      (fun r => (r.TaskNo, r.Status, r.FailCount, r.FailMsgs)) =
      [(1006, 1, 1, [{ Resp := "", Err := "adapter not found for schema ftp" }])] ∧
    (run testStorage testWorld scenarioNoAdapter).requests = [] ∧
    (timersFor (run testStorage testWorld scenarioNoAdapter) 1006).map
      (fun x => (x.expiration, x.every)) = [(7 * Second, none)] := by
  decide!

end storage

namespace storage

/-! ## The bound on `fail_count` along the operations -/

theorem FcInv_same (w w1 : World) (h1 : w1.rows = w.rows) (h2 : w1.heap = w.heap)
    (h : FcInv w) : FcInv w1 :=
  ⟨by rw [h1]; exact h.rows, by rw [h2]; exact h.heap⟩

theorem FcInv_arm (w : World) (x : Timer) (h : FcInv w) : FcInv (w.arm x).1 := by
  unfold World.arm
  split
  · exact FcInv_same w _ rfl rfl h
  · exact FcInv_same w _ rfl rfl h

theorem FcInv_execUpdate (w : World) (g : TaskEntity → TaskEntity) (h : FcInv w)
    (hg : ∀ r ∈ w.rows, RowFc r → RowFc (g r)) : FcInv (execUpdate w (w.rows.map g)).1 := by
  unfold execUpdate
  split
  · exact FcInv_same w _ rfl rfl h
  · refine ⟨?_, h.heap⟩
    intro r1 hr1
    obtain ⟨r, hr, e⟩ := List.mem_map.mp hr1
    rw [← e]
    exact hg r hr (h.rows r hr)

theorem FcInv_setHeap (w : World) (p : Nat) (t1 : TaskEntity) (h : FcInv w) (h1 : FcOK t1) :
    FcInv { w with heap := w.heap.set p t1 } := by
  refine ⟨h.rows, ?_⟩
  intro o ho
  rcases List.mem_or_eq_of_mem_set ho with h2 | h2
  · exact h.heap o h2
  · rw [h2]; exact h1

theorem FcInv_alloc (w : World) (t1 : TaskEntity) (h : FcInv w) (h1 : FcOK t1) :
    FcInv { w with heap := w.heap ++ [t1] } := by
  refine ⟨h.rows, ?_⟩
  intro o ho
  rcases List.mem_append.mp ho with h2 | h2
  · exact h.heap o h2
  · simp only [List.mem_singleton] at h2
    rw [h2]; exact h1

theorem Linked_setHeap (w : World) (p : Nat) (t t1 o : TaskEntity) (h : Linked w t)
    (h1 : t1.TaskNo = t.TaskNo) (h2 : t1.Backoff = t.Backoff) :
    Linked { w with heap := w.heap.set p o } t1 := by
  intro r hr e
  rw [h2]
  exact h r hr (e.trans h1)

theorem FcInv_markFailed (w : World) (t : TaskEntity) (h : FcInv w) :
    FcInv (markFailed w t).1 := by
  apply FcInv_execUpdate w _ h
  intro r _ hr
  split
  · exact ⟨hr.1, fun h0 => by
      have : (3 : Int) = 0 := h0
      omega⟩
  · exact hr

theorem FcInv_Success (w : World) (ctx : trace.Context) (p : Nat) (h : FcInv w) :
    FcInv (Success w ctx p).1 := by
  unfold Success
  split
  · exact h
  · split
    · exact h
    · apply FcInv_execUpdate w _ h
      intro r _ hr
      split
      · exact ⟨hr.1, fun h0 => by
          have : (2 : Int) = 0 := h0
          omega⟩
      · exact hr

theorem FcInv_writeBackPending (w : World) (t : TaskEntity) (h : FcInv w) (hl : Linked w t)
    (hfc : t.FailCount < (t.Backoff.length : Int)) : FcInv (writeBackPending w t).1 := by
  apply FcInv_execUpdate w _ h
  intro r hrm hr
  split
  · rename_i hc
    have hb := hl r hrm hc.1
    have h1 : t.FailCount < (r.Backoff.length : Int) := by rw [hb]; exact hfc
    exact ⟨Int.le_of_lt h1, fun _ => h1⟩
  · exact hr

theorem FcInv_orReturn (r : World × Option Err) (k : World → World × Option Err)
    (h1 : FcInv r.1) (h2 : ∀ w1, FcInv w1 → FcInv (k w1).1) : FcInv (orReturn r k).1 := by
  rcases r with ⟨w1, _ | e⟩
  · exact h2 w1 h1
  · exact h1

theorem FcInv_submitBody (w : World) (ctx : trace.Context) (p : Nat) (t : TaskEntity)
    (status : Int) (h : FcInv w) (hl : Linked w t)
    (hfc : t.FailCount < (t.Backoff.length : Int)) : FcInv (submitBody w ctx p t status).1 := by
  unfold submitBody
  apply FcInv_orReturn
  · split
    · apply FcInv_execUpdate w _ h
      intro r hrm hr
      split
      · rename_i hc
        have hb := hl r hrm hc.1
        have h1 : t.FailCount < (r.Backoff.length : Int) := by rw [hb]; exact hfc
        exact ⟨Int.le_of_lt h1, fun _ => h1⟩
      · exact hr
    · exact h
  · intro w1 h1
    split
    · exact h1
    · apply FcInv_orReturn
      · split
        · exact FcInv_arm _ _ h1
        · exact h1
      · intro w2 h2
        split
        · split
          · exact h2
          · exact FcInv_arm _ _ h2
        · exact h2

end storage

namespace storage

theorem mem_of_getElem? {α : Type} (l : List α) (i : Nat) (a : α) (h : l[i]? = some a) :
    a ∈ l := List.mem_iff_getElem?.mpr ⟨i, h⟩

/-- `Failure` and `Submit` keep the bound on `fail_count`. -/
theorem FcInv_Failure_Submit (d : Storage) (ctx : trace.Context) (p : Nat) :
    ∀ (fuel : Nat),
    (∀ (w : World) (t : TaskEntity), w.heap[p]? = some t → FcInv w → Linked w t →
      FcInv (Failure d fuel w ctx p).1) ∧
    (∀ (w : World) (t : TaskEntity) (status : Int), w.heap[p]? = some t → FcInv w →
      Linked w t → FcInv (Submit d fuel w ctx p status).1) := by
  intro fuel
  induction fuel with
  | zero =>
    exact ⟨fun w t _ h _ => by rw [Failure]; exact h,
      fun w t s _ h _ => by rw [Submit]; exact h⟩
  | succ fuel ih =>
    constructor
    · intro w t ht h hl
      rw [Failure]
      simp only [ht]
      split
      · exact h
      · split
        · rename_i hlt
          split
          · exact h
          · rename_i delay _
            split
            · have hok : FcOK { (retryFields t delay w.now) with FailCount := t.FailCount + 1 } := by
                show t.FailCount + 1 ≤ (t.Backoff.length : Int)
                omega
              exact ih.2 _ _ 1 (getElem?_set_same w.heap p t _ ht)
                (FcInv_setHeap w p _ h hok) (Linked_setHeap w p t _ _ hl rfl rfl)
            · have hok : FcOK (retryFields t delay w.now) := by
                show t.FailCount ≤ (t.Backoff.length : Int)
                omega
              exact FcInv_writeBackPending _ _ (FcInv_setHeap w p _ h hok)
                (Linked_setHeap w p t _ _ hl rfl rfl) hlt
        · exact FcInv_markFailed w t h
    · intro w t status ht h hl
      rw [Submit]
      simp only [ht]
      split
      · exact ih.1 w t ht h hl
      · rename_i hge
        exact FcInv_submitBody w ctx p t status h hl (by omega)

theorem FcInv_Execute (d : Storage) (w : World) (net : callback.Reply) (ctx : trace.Context)
    (p : Nat) (t : TaskEntity) (ht : w.heap[p]? = some t) (h : FcInv w) (hl : Linked w t) :
    FcInv (Execute d w net ctx p).1 := by
  have hok : FcOK t := h.heap t (mem_of_getElem? _ _ _ ht)
  unfold Execute
  simp only [ht]
  split
  · exact h
  · split
    · exact h
    · rename_i pl _
      split
      · exact (FcInv_Failure_Submit d ctx p callDepth).1 _ _ (getElem?_set_same w.heap p t _ ht)
          (FcInv_setHeap w p _ h hok) (Linked_setHeap w p t _ _ hl rfl rfl)
      · have h0 := FcInv_setHeap w p
          { t with Payload := some (injectOriginal pl t.TaskNo (trace.Get ctx)) } h hok
        have h1 : FcInv (afterRequest w ctx p t (injectOriginal pl t.TaskNo (trace.Get ctx))) :=
          ⟨h0.rows, h0.heap⟩
        have hg : (afterRequest w ctx p t (injectOriginal pl t.TaskNo (trace.Get ctx))).heap[p]?
            = some { t with Payload := some (injectOriginal pl t.TaskNo (trace.Get ctx)) } :=
          getElem?_set_same w.heap p t _ ht
        split
        · exact FcInv_Success _ ctx p h1
        · exact (FcInv_Failure_Submit d ctx p callDepth).1 _ _ (getElem?_set_same _ p _ _ hg)
            (FcInv_setHeap _ p _ h1 hok)
            (Linked_setHeap _ p t _ _ (fun r hr e => hl r hr e) rfl rfl)

end storage

namespace storage

/-! ## The bound on `fail_count` along the runs -/

theorem Linked_eff {T : Int} {p : Nat} {w w1 : World} (heff : Eff T p w w1) (t : TaskEntity)
    (h : Linked w t) : Linked w1 t := by
  intro r1 hr1 e
  obtain ⟨r0, hr0, hs, _⟩ := heff.rows_mem r1 hr1
  rw [hs.2.2.2.2.2.1]
  exact h r0 hr0 (hs.2.1.symm.trans e)

theorem newTaskEntity_fc (d : Storage) (now : Time) (ctx : trace.Context) (o : options)
    (taskNo : Int) :
    FcOK (newTaskEntity d now ctx o taskNo) ∧
    ((newTaskEntity d now ctx o taskNo).Status = 0 →
      (newTaskEntity d now ctx o taskNo).FailCount <
        ((newTaskEntity d now ctx o taskNo).Backoff.length : Int)) := by
  unfold FcOK
  by_cases hfast : durationMul o.delayTime Second ≤ d.cfg.FastPathTime
  · obtain ⟨_, h1, h2, _⟩ := newTaskEntity_fast d now ctx o taskNo hfast
    rw [h1, h2]
    exact ⟨by omega, fun h => by omega⟩
  · obtain ⟨_, h2⟩ := newTaskEntity_slow d now ctx o taskNo hfast
    rw [h2]
    exact ⟨by omega, fun _ => by omega⟩

/-- A call of `Add` keeps the bound on `fail_count`. -/
theorem FcInv_Add (d : Storage) (w : World) (ctx : trace.Context) (opts : List Opt)
    (taskNo : Int) (h : FcInv w) : FcInv (Add d w ctx opts taskNo).1 := by
  obtain ⟨hok, hpend⟩ := newTaskEntity_fc d w.now ctx (applyOptions opts) taskNo
  have h0 : FcInv { w with heap := w.heap ++
      [newTaskEntity d w.now ctx (applyOptions opts) taskNo] } := FcInv_alloc w _ h hok
  rw [(Add_result d w ctx opts taskNo _ _ _ rfl rfl rfl).1]
  rcases insertRow_cases { w with heap := w.heap ++
      [newTaskEntity d w.now ctx (applyOptions opts) taskNo] }
      (newTaskEntity d w.now ctx (applyOptions opts) taskNo) with ⟨he, hw⟩ | ⟨he, hfresh, hw⟩
  · rw [if_pos he, hw]
    exact ⟨h0.rows, h0.heap⟩
  · rw [if_neg (by rw [he]; decide), hw]
    have h1 : FcInv { ({ w with heap := w.heap ++
        [newTaskEntity d w.now ctx (applyOptions opts) taskNo] } : World).next with
        rows := w.rows ++ [{ (newTaskEntity d w.now ctx (applyOptions opts) taskNo) with
          Id := (w.rows.length : Int) + 1, FailMsgs := [], LastRetryAt := none }] } := by
      refine ⟨?_, h0.heap⟩
      intro r hr
      rcases List.mem_append.mp hr with h2 | h2
      · exact h.rows r h2
      · simp only [List.mem_singleton] at h2
        rw [h2]
        exact ⟨hok, hpend⟩
    split
    · refine (FcInv_Failure_Submit d _ w.heap.length callDepth).2 _ _ (-1)
        (alloc_get w.heap _) h1 ?_
      intro r hr e
      rcases List.mem_append.mp hr with h2 | h2
      · exact absurd e (hfresh r h2)
      · simp only [List.mem_singleton] at h2
        rw [h2]
    · exact h1

/-- The loop of the sweeper keeps the bound on `fail_count`. -/
theorem FcInv_pendingLoop (d : Storage) (ctx : trace.Context) :
    ∀ (tasks : List TaskEntity) (w : World), FcInv w →
      (∀ t ∈ tasks, t.FailCount < (t.Backoff.length : Int) ∧ Linked w t) →
      FcInv (pendingLoop d ctx tasks w).1 := by
  intro tasks
  induction tasks with
  | nil => intro w h _; exact h
  | cons t rest ih =>
    intro w h hall
    obtain ⟨hlt, hl⟩ := hall t (List.mem_cons_self _ _)
    have hget := alloc_get w.heap { t with FailCount := t.FailCount + 1 }
    have hok : FcOK { t with FailCount := t.FailCount + 1 } := by
      show t.FailCount + 1 ≤ (t.Backoff.length : Int)
      omega
    have hI := (FcInv_Failure_Submit d (trace.Append ctx t.TraceId) w.heap.length callDepth).2
      { w with heap := w.heap ++ [{ t with FailCount := t.FailCount + 1 }] }
      { t with FailCount := t.FailCount + 1 } 0 hget (FcInv_alloc w _ h hok)
      (fun r hr e => hl r hr e)
    have heff := (Failure_Submit_eff d (trace.Append ctx t.TraceId) w.heap.length t.TaskNo
      callDepth).2
      { w with heap := w.heap ++ [{ t with FailCount := t.FailCount + 1 }] }
      { t with FailCount := t.FailCount + 1 } 0 hget rfl
    have hrest : ∀ t2 ∈ rest, t2.FailCount < (t2.Backoff.length : Int) ∧
        Linked (Submit d callDepth
          { w with heap := w.heap ++ [{ t with FailCount := t.FailCount + 1 }] }
          (trace.Append ctx t.TraceId) w.heap.length 0).1 t2 := by
      intro t2 h2
      obtain ⟨h3, h4⟩ := hall t2 (List.mem_cons_of_mem _ h2)
      exact ⟨h3, Linked_eff heff t2 (fun r hr e => h4 r hr e)⟩
    rw [pendingLoop]
    generalize Submit d callDepth
        { w with heap := w.heap ++ [{ t with FailCount := t.FailCount + 1 }] }
        (trace.Append ctx t.TraceId) w.heap.length 0 = res at hI hrest
    rcases res with ⟨w2, _ | e⟩
    · exact ih w2 hI hrest
    · cases e with
      | error m =>
        exact ih (collect w2 (.error ("execute task: " ++ m))) ⟨hI.rows, hI.heap⟩ hrest
      | panic m => exact hI

/-- The pending sweeper keeps the bound on `fail_count`. -/
theorem FcInv_pendingSweep (d : Storage) (w : World) (uuid : String) (h : FcInv w)
    (hn : (w.rows.map (fun r => r.TaskNo)).Nodup) : FcInv (pendingSweep d w uuid).1 := by
  obtain ⟨h1, h2, _, _, _, _, h7⟩ :=
    FetchPendingTasks_spec w d.cfg.PendingLimit d.cfg.AdvancePendingTime hn
  have hI : FcInv (FetchPendingTasks w d.cfg.PendingLimit d.cfg.AdvancePendingTime).1 :=
    ⟨by rw [h1]; exact h.rows, by rw [h2]; exact h.heap⟩
  have hall : ∀ t ∈ (FetchPendingTasks w d.cfg.PendingLimit d.cfg.AdvancePendingTime).2.1,
      t.FailCount < (t.Backoff.length : Int) ∧
      Linked (FetchPendingTasks w d.cfg.PendingLimit d.cfg.AdvancePendingTime).1 t := by
    intro t ht
    obtain ⟨hm, hs⟩ := h7 t ht
    refine ⟨(h.rows t hm).2 hs, ?_⟩
    intro r hr e
    rw [h1] at hr
    rw [unique_row w.rows hn t r hm hr e]
  unfold pendingSweep
  generalize FetchPendingTasks w d.cfg.PendingLimit d.cfg.AdvancePendingTime = res at hI hall
  rcases res with ⟨w1, tasks, _ | e⟩
  · exact FcInv_pendingLoop d _ tasks w1 hI hall
  · cases e with
    | error m => exact ⟨hI.rows, hI.heap⟩
    | panic m => exact hI

end storage

namespace storage

theorem FcInv_runClosure (nf : Prop) (d : Storage) (w w2 : World) (x : Timer) (uuid : String)
    (net : callback.Reply) (hinv : Inv nf w) (h : FcInv w) (hx : x ∈ w.timers)
    (hrows : w2.rows = w.rows) (hheap : w2.heap = w.heap) :
    FcInv (runClosure d w2 uuid net x.f) := by
  have h2 : FcInv w2 := FcInv_same w w2 hrows hheap h
  have hexec : ∀ ctx p, (x.f = .after ctx p ∨ x.f = .cron ctx p) →
      FcInv (Execute d w2 net ctx p).1 := by
    intro ctx p hf
    rcases hinv.objs x hx with hp | ⟨o, ho, r, hr, hrT, hrB, _⟩
    · rcases hf with e | e <;> rw [e] at hp <;> cases hp
    · rw [Timer.obj_of _ x ctx p hf] at ho
      refine FcInv_Execute d w2 net ctx p o (by rw [hheap]; exact ho) h2 ?_
      intro r1 hr1 e
      rw [hrows] at hr1
      rw [unique_row w.rows hinv.nodup r r1 hr hr1 (e.trans hrT.symm)]
      exact hrB
  cases hf : x.f with
  | after ctx p =>
    have h3 := hexec ctx p (Or.inl hf)
    simp only [runClosure]
    generalize Execute d w2 net ctx p = res at h3
    rcases res with ⟨w3, _ | e⟩
    · exact h3
    · cases e with
      | error m => exact ⟨h3.rows, h3.heap⟩
      | panic m => exact ⟨h3.rows, h3.heap⟩
  | cron ctx p =>
    have h3 := hexec ctx p (Or.inr hf)
    simp only [runClosure]
    generalize Execute d w2 net ctx p = res at h3
    rcases res with ⟨w3, _ | e⟩
    · exact h3
    · cases e with
      | error m => exact ⟨h3.rows, h3.heap⟩
      | panic m => exact ⟨h3.rows, h3.heap⟩
  | pending =>
    have h3 := FcInv_pendingSweep d w2 uuid h2 (by rw [hrows]; exact hinv.nodup)
    simp only [runClosure]
    generalize pendingSweep d w2 uuid = res at h3
    rcases res with ⟨w3, _ | e⟩
    · exact h3
    · exact ⟨h3.rows, h3.heap⟩

/-- Firing a timer keeps the bound on `fail_count`. -/
theorem FcInv_fire (nf : Prop) (d : Storage) (w : World) (i : Nat) (uuid : String)
    (net : callback.Reply) (hinv : Inv nf w) (h : FcInv w) : FcInv (fire d w i uuid net) := by
  unfold fire
  cases hx : w.timers[i]? with
  | none => exact h
  | some x =>
    have hxm : x ∈ w.timers := mem_of_getElem? _ _ _ hx
    simp only []
    split
    · cases he : x.every with
      | none => exact FcInv_runClosure nf d w _ x uuid net hinv h hxm rfl rfl
      | some interval =>
        simp only []
        refine FcInv_runClosure nf d w _ x uuid net hinv h hxm ?_ ?_
        · rw [arm_rows]
        · rw [arm_heap]
    · exact h

theorem FcInv_step (nf : Prop) (d : Storage) (w : World) (e : Event) (hinv : Inv nf w)
    (h : FcInv w) : FcInv (step d w e) := by
  cases e with
  | add ctx opts taskNo faults => exact FcInv_Add d _ ctx opts taskNo ⟨h.rows, h.heap⟩
  | advance dt => exact ⟨h.rows, h.heap⟩
  | fire i uuid net faults =>
    exact FcInv_fire nf d _ i uuid net (Inv_same nf w _ rfl rfl rfl rfl hinv) ⟨h.rows, h.heap⟩
  | setNodes ns =>
    simp only [step]
    split
    · exact ⟨h.rows, h.heap⟩
    · exact h

theorem FcInv_run (d : Storage) : ∀ (evs : List Event) (w : World), Inv False w → FcInv w →
    FcInv (run d w evs) := by
  intro evs
  induction evs with
  | nil => intro w _ h; exact h
  | cons e rest ih =>
    intro w hinv h
    exact ih (step d w e) (step_inv False d w e hinv (fun hf => hf.elim))
      (FcInv_step False d w e hinv h)

theorem FcInv_boot (d : Storage) (now : Time) (w : World) (h : boot d now = some w) :
    FcInv w := by
  unfold boot at h
  split at h
  · cases h
  · split at h
    · cases h
    · split at h
      · cases h
      · split at h
        · cases h
        · rename_i ns _ w1 harm
          cases h
          have e := arm_none _ _ _ harm
          subst e
          exact ⟨by simp [emptyWorld], by simp [emptyWorld]⟩

/-- C14. In every state a node reaches from `New` and `Start` by calls of `Add`,
the clock, the wheel firing the sweeper or `Execute` (hence `Submit`, `Success`
and `Failure`) and membership changes, every persisted row and every task object
in memory satisfies `fail_count <= len(backoff)`. -/
theorem failCount_bounded (d : Storage) (now : Time) (w0 : World) (evs : List Event)
    (hboot : boot d now = some w0) :
    (∀ r ∈ (run d w0 evs).rows, r.FailCount ≤ (r.Backoff.length : Int)) ∧
    (∀ o ∈ (run d w0 evs).heap, o.FailCount ≤ (o.Backoff.length : Int)) := by
  have h := FcInv_run d evs w0 (boot_inv False d now w0 hboot) (FcInv_boot d now w0 hboot)
  exact ⟨fun r hr => (h.rows r hr).1, h.heap⟩

theorem failCount_bounded_witness :
    boot testStorage 0 = some testWorld ∧
    (∀ r ∈ (run testStorage testWorld scenarioS2).rows, r.FailCount ≤ (r.Backoff.length : Int)) ∧
    (∀ o ∈ (run testStorage testWorld scenarioS2).heap, o.FailCount ≤ (o.Backoff.length : Int)) ∧
    (run testStorage testWorld scenarioS2).rows.map (fun r => (r.FailCount, r.Backoff.length))
      = [(1, 2)] ∧
    (run testStorage testWorld scenarioS2).heap.map (fun r => (r.FailCount, r.Backoff.length))
      = [(1, 2), (2, 2)] :=
  have hb : boot testStorage 0 = some testWorld := by decide!
  have h := failCount_bounded testStorage 0 testWorld scenarioS2 hb
  ⟨hb, h.1, h.2, by decide!, by decide!⟩

end storage

namespace storage

/-! ## The transitions of `Failure` -/

/-- C15. For a task with `0 <= fail_count < len(backoff)` whose next delay
`backoff[fail_count]`, taken as `time.Duration(delay) * time.Second`, exceeds
`fast_path_time`, `Failure` at time `now`, when the store accepts the statement,
returns no error, arms no wheel timer, calls no adapter, and rewrites exactly the
rows of the task whose status is RUNNING: status PENDING, `fail_count` and
`fail_msgs` of the task, `next_run_at = now + delay s`, `run_timeout_at =
next_run_at + timeout s`, `last_retry_at = now`. -/
theorem Failure_slow_retry (d : Storage) (fuel : Nat) (w : World) (ctx : trace.Context)
    (task : Nat) (t : TaskEntity) (delay : Int) (ht : w.heap[task]? = some t)
    (h1 : t.FailCount < (t.Backoff.length : Int))
    (hi : sliceIndex t.Backoff t.FailCount = some delay)
    (hs : ¬ (durationMul delay Second ≤ d.cfg.FastPathTime)) (hok : w.failed = false) :
    (Failure d (fuel + 1) w ctx task).2 = none ∧
    (Failure d (fuel + 1) w ctx task).1.timers = w.timers ∧
    (Failure d (fuel + 1) w ctx task).1.requests = w.requests ∧
    (Failure d (fuel + 1) w ctx task).1.rows = w.rows.map (fun r =>
      if r.TaskNo = t.TaskNo ∧ r.Status = 1 then
        { r with Status := 0, FailCount := t.FailCount, FailMsgs := t.FailMsgs,
                 NextRunAt := w.now + durationMul delay Second,
                 RunTimeoutAt := w.now + durationMul delay Second + durationMul t.Timeout Second,
                 LastRetryAt := some w.now, UpdatedAt := w.now }
      else r) := by
  obtain ⟨v, hv⟩ := GetDelayTime_some t (by omega)
  have hok1 : ({ w with heap := w.heap.set task (retryFields t delay w.now) } : World).failed
      = false := hok
  rw [Failure_slow d fuel w ctx task t v delay ht hv h1 hi hs]
  unfold writeBackPending
  rw [execUpdate_ok _ _ hok1]
  exact ⟨rfl, rfl, rfl, rfl⟩

theorem Failure_slow_retry_witness :
    (Failure testStorage 1 busyWorld .background 0).2 = none ∧
    (Failure testStorage 1 busyWorld .background 0).1.timers = [] ∧
    (Failure testStorage 1 busyWorld .background 0).1.requests = [] ∧
    (Failure testStorage 1 busyWorld .background 0).1.rows =
      [{ busyRow with Status := 0, NextRunAt := 26 * Second, RunTimeoutAt := 29 * Second,
                      LastRetryAt := some (6 * Second), UpdatedAt := 6 * Second }] :=
  Failure_slow_retry testStorage 0 busyWorld .background 0 busyRow 20 rfl (by decide) rfl
    (by decide) rfl

/-- C17. For a task with `fail_count >= len(backoff)` (and, by invariant 2,
`fail_count <= len(backoff)`), when the store accepts the statement, `Failure`,
and `Submit` with any `fromStatus`, return no error and leave the world as it was
except that every row of the task has status FAILED and the `fail_msgs` of the
task: no row becomes RUNNING or PENDING, no wheel timer is armed and no adapter
is called. -/
theorem Failure_exhausted_marks_failed (d : Storage) (fuel : Nat) (w : World)
    (ctx : trace.Context) (task : Nat) (t : TaskEntity) (status : Int)
    (ht : w.heap[task]? = some t) (hge : t.FailCount ≥ (t.Backoff.length : Int))
    (hle : t.FailCount ≤ (t.Backoff.length : Int)) (hok : w.failed = false) :
    Failure d (fuel + 1) w ctx task =
      ({ w.next with rows := w.rows.map (fun r =>
          if r.TaskNo = t.TaskNo then
            { r with Status := 3, FailMsgs := t.FailMsgs, UpdatedAt := w.now }
          else r) }, none) ∧
    Submit d (fuel + 2) w ctx task status = Failure d (fuel + 1) w ctx task := by
  obtain ⟨v, hv⟩ := GetDelayTime_some t hle
  refine ⟨?_, Submit_exhausted d (fuel + 1) w ctx task status t ht hge⟩
  rw [Failure_exhausted d fuel w ctx task t v ht hv (by omega)]
  unfold markFailed
  rw [execUpdate_ok _ _ hok]
  rfl

theorem Failure_exhausted_marks_failed_witness :
    Failure testStorage 1 lostWorld .background 0 =
      ({ lostWorld with rows := [{ lostRow with Status := 3, UpdatedAt := 6 * Second }] }, none) ∧
    Submit testStorage 2 lostWorld .background 0 0 =
      Failure testStorage 1 lostWorld .background 0 :=
  Failure_exhausted_marks_failed testStorage 0 lostWorld .background 0 lostRow 0 rfl
    (by decide) (by decide) rfl

end storage

namespace storage

theorem wrapInt64_range (x : Int) : MinInt64 ≤ wrapInt64 x ∧ wrapInt64 x ≤ MaxInt64 := by
  unfold wrapInt64 MinInt64 MaxInt64
  omega

/-- The wheel delay `Submit` computes for a task whose `next_run_at` was just set
to `now + time.Duration(delay) * time.Second`. -/
theorem timeSub_next (now delay : Int) :
    timeSub (now + durationMul delay Second) now = durationMul delay Second := by
  obtain ⟨h1, h2⟩ := wrapInt64_range (delay * Second)
  have e : now + wrapInt64 (delay * Second) - now = wrapInt64 (delay * Second) := by ring
  unfold timeSub durationMul
  rw [e, if_neg (not_lt.mpr h2), if_neg (not_lt.mpr h1)]

theorem mem_arm (w : World) (x y : Timer) (h : y ∈ w.timers) : y ∈ (w.arm x).1.timers := by
  obtain ⟨l, hl⟩ := arm_timers_prefix w x
  rw [hl]
  exact List.mem_append_left _ h


/-- The statement and the one-shot timer of `Submit`, for `fromStatus > -1` and a
non-zero delay, when the store and the wheel accept the two calls. -/
theorem submitBody_ok (w : World) (ctx : trace.Context) (task : Nat) (t : TaskEntity)
    (status v : Int) (hg : GetDelayTime t = some v) (hst : status > -1)
    (hok : w.failed = false) (hok2 : w.next.failed = false) (hd : t.DelayTime ≠ 0) :
    (submitBody w ctx task t status).1.heap = w.heap ∧
    (submitBody w ctx task t status).1.requests = w.requests ∧
    (submitBody w ctx task t status).1.rows =
      updateRunning w.rows t (if t.FailCount = 0 then none else some w.now) w.now status ∧
    ({ expiration := w.now + timeSub t.NextRunAt w.now, every := none,
       f := .after ctx task } : Timer) ∈ (submitBody w ctx task t status).1.timers := by
  have hok3 : ∀ rows, ({ w.next with rows := rows } : World).failed = false := fun _ => hok2
  unfold submitBody
  dsimp only
  rw [if_pos hst, execUpdate_ok _ _ hok, orReturn_none]
  simp only [hg]
  rw [if_pos hd, AfterFunc, arm_ok _ _ (hok3 _), orReturn_none]
  split
  · split
    · exact ⟨rfl, rfl, rfl, by simp⟩
    · rw [ScheduleFunc]
      exact ⟨by rw [arm_heap]; rfl, by rw [arm_requests]; rfl, by rw [arm_rows]; rfl,
        mem_arm _ _ _ (by simp)⟩
  · exact ⟨rfl, rfl, rfl, by simp⟩

/-- C16, amended. For a task with `fail_count + 1 < len(backoff)` whose next delay
`backoff[fail_count]` is not zero and, taken as `time.Duration(delay) *
time.Second`, is at most `fast_path_time`, `Failure` at time `now`, when the
store and the wheel accept its two calls: increments the `fail_count` of the task
by exactly one, rewrites exactly the rows of the task whose status is RUNNING
(status RUNNING, the new `fail_count`, `next_run_at = now + delay s`), never
writes PENDING, calls no adapter, and arms a one-shot timer that runs `Execute`
on the task at `now + delay s`. -/
theorem Failure_fast_retry (d : Storage) (fuel : Nat) (w : World) (ctx : trace.Context)
    (task : Nat) (t : TaskEntity) (delay : Int) (ht : w.heap[task]? = some t)
    (h1 : t.FailCount + 1 < (t.Backoff.length : Int))
    (hi : sliceIndex t.Backoff t.FailCount = some delay) (hd : delay ≠ 0)
    (hf : durationMul delay Second ≤ d.cfg.FastPathTime) (hok : w.failed = false)
    (hok2 : w.next.failed = false) :
    (∃ o, (Failure d (fuel + 2) w ctx task).1.heap[task]? = some o ∧
      o.FailCount = t.FailCount + 1) ∧
    (Failure d (fuel + 2) w ctx task).1.requests = w.requests ∧
    (Failure d (fuel + 2) w ctx task).1.rows = w.rows.map (fun r =>
      if r.TaskNo = t.TaskNo ∧ r.Status = 1 then
        { r with Status := 1, FailCount := t.FailCount + 1, FailMsgs := t.FailMsgs,
                 NextRunAt := w.now + durationMul delay Second,
                 RunTimeoutAt := w.now + durationMul delay Second + durationMul t.Timeout Second,
                 LastRetryAt := some w.now, UpdatedAt := w.now }
      else r) ∧
    ({ expiration := w.now + durationMul delay Second, every := none,
       f := .after ctx task } : Timer) ∈ (Failure d (fuel + 2) w ctx task).1.timers := by
  have h0 : 0 ≤ t.FailCount := by
    unfold sliceIndex at hi
    split at hi
    · cases hi
    · omega
  obtain ⟨v, hv⟩ := GetDelayTime_some t (by omega)
  have hget := getElem?_set_same w.heap task t
    { (retryFields t delay w.now) with FailCount := t.FailCount + 1 } ht
  obtain ⟨v2, hv2⟩ := GetDelayTime_some
    { (retryFields t delay w.now) with FailCount := t.FailCount + 1 }
    (show t.FailCount + 1 ≤ (t.Backoff.length : Int) by omega)
  have hne : ¬ (t.FailCount + 1 = 0) := by omega
  rw [Failure_fast d (fuel + 1) w ctx task t v delay ht hv (by omega) hi hf,
    Submit_live d fuel _ ctx task 1 _ hget h1]
  obtain ⟨e1, e2, e3, e4⟩ := submitBody_ok
    { w with heap := w.heap.set task { (retryFields t delay w.now) with FailCount := t.FailCount + 1 } }
    ctx task _ 1 v2 hv2 (by decide) hok hok2 hd
  refine ⟨⟨_, by rw [e1]; exact hget, rfl⟩, e2, ?_, ?_⟩
  · rw [e3]
    show updateRunning w.rows _ (if t.FailCount + 1 = 0 then none else some w.now) w.now 1 = _
    rw [if_neg hne]
    rfl
  · have e5 := congrArg (fun z => w.now + z) (timeSub_next w.now delay)
    simp only at e5
    rw [← e5]
    exact e4

theorem Failure_fast_retry_witness :
    (∃ o, (Failure testStorage 2 (worldWith [5, 10]) .background 0).1.heap[0]? = some o ∧
      o.FailCount = 1) ∧
    (Failure testStorage 2 (worldWith [5, 10]) .background 0).1.requests = [] ∧
    (Failure testStorage 2 (worldWith [5, 10]) .background 0).1.rows =
      [{ busyRow with Backoff := [5, 10], FailCount := 1, NextRunAt := 11 * Second,
                      RunTimeoutAt := 14 * Second, LastRetryAt := some (6 * Second),
                      UpdatedAt := 6 * Second }] ∧
    ({ expiration := 11 * Second, every := none, f := .after .background 0 } : Timer) ∈
      (Failure testStorage 2 (worldWith [5, 10]) .background 0).1.timers :=
  Failure_fast_retry testStorage 0 (worldWith [5, 10]) .background 0
    { busyRow with Backoff := [5, 10] } 5 rfl (by decide) rfl (by decide) (by decide) rfl rfl

/-- C16, the claim as stated fails. With `backoff = [5]` and `fail_count = 0` the
delay 5 s is within `fast_path_time`, yet `Failure` marks the row FAILED and arms
no timer: after the increment `Submit` finds `fail_count >= len(backoff)`. With
`backoff = [0, 5]` the row stays RUNNING with `fail_count` = 1, `Failure` returns
no error and no timer is armed, `Submit` arming the one-shot timer only for a
non-zero delay. -/
theorem Failure_fast_retry_fails :
    ((Failure testStorage callDepth (worldWith [5]) .background 0).1.rows.map
        (fun r => (r.Status, r.FailCount)) = [(3, 0)] ∧
      (Failure testStorage callDepth (worldWith [5]) .background 0).1.timers = []) ∧
    ((Failure testStorage callDepth (worldWith [0, 5]) .background 0).1.rows.map
        (fun r => (r.Status, r.FailCount)) = [(1, 1)] ∧
      (Failure testStorage callDepth (worldWith [0, 5]) .background 0).1.timers = [] ∧
      (Failure testStorage callDepth (worldWith [0, 5]) .background 0).2 = none) := by
  decide!

end storage

namespace storage

/-! ## The timers `Submit` arms -/

theorem NoFault_head (fs : List Bool) (h : NoFault fs) : fs.head?.getD false = false := by
  cases fs with
  | nil => rfl
  | cons b r => exact h b (List.mem_cons_self _ _)

theorem NoFault_get (fs : List Bool) (h : NoFault fs) (i : Nat) : fs[i]?.getD false = false := by
  cases hi : fs[i]? with
  | none => rfl
  | some b => exact h b (List.mem_iff_getElem?.mpr ⟨i, hi⟩)

/-- C19, amended. A call of `Submit` that schedules an attempt (`fail_count <
len(backoff)`), when the store and the wheel accept its calls and the cron
expression, if any, is accepted by `CronToDuration`, returns no error and arms
one one-shot timer if `delay_time` is not zero, and one periodic timer if
`cron_expr` is not empty: exactly one timer for a non-zero delay without cron
expression, none for a zero delay without cron expression, two for a non-zero
delay with a cron expression. -/
theorem Submit_timers (d : Storage) (fuel : Nat) (w : World) (ctx : trace.Context)
    (task : Nat) (t : TaskEntity) (status : Int) (ht : w.heap[task]? = some t)
    (h1 : t.FailCount < (t.Backoff.length : Int)) (hnf : NoFault w.faults)
    (hcron : t.CronExpr ≠ "" → (CronToDuration t.CronExpr).2 = none) :
    (Submit d (fuel + 1) w ctx task status).2 = none ∧
    (Submit d (fuel + 1) w ctx task status).1.timers =
      w.timers ++
        (if t.DelayTime ≠ 0 then
          [{ expiration := w.now + timeSub t.NextRunAt w.now, every := none,
             f := .after ctx task }]
         else []) ++
        (if t.CronExpr ≠ "" then
          [{ expiration := w.now + (CronToDuration t.CronExpr).1,
             every := some (CronToDuration t.CronExpr).1, f := .cron ctx task }]
         else []) := by
  obtain ⟨v, hv⟩ := GetDelayTime_some t (by omega)
  have hf0 := NoFault_head _ hnf
  have hf1 := NoFault_get _ hnf
  rw [Submit_live d fuel w ctx task status t ht h1]
  by_cases hc : t.CronExpr = ""
  · by_cases hst : status > -1 <;> by_cases hd : t.DelayTime = 0 <;>
      simp [submitBody, hv, hst, hd, hc, execUpdate, World.arm, World.failed, World.next,
        AfterFunc, ScheduleFunc, hf0, hf1]
  · have hc2 := hcron hc
    rcases hC : CronToDuration t.CronExpr with ⟨dur, err⟩
    rw [hC] at hc2
    simp only at hc2
    subst hc2
    by_cases hst : status > -1 <;> by_cases hd : t.DelayTime = 0 <;>
      simp [submitBody, hv, hst, hd, hc, hC, execUpdate, World.arm, World.failed, World.next,
        AfterFunc, ScheduleFunc, hf0, hf1]


theorem Submit_timers_witness :
    (Submit testStorage 1 (worldWith [5, 10]) .background 0 1).2 = none ∧
    (Submit testStorage 1 (worldWith [5, 10]) .background 0 1).1.timers =
      [{ expiration := 5 * Second, every := none, f := .after .background 0 }] :=
  Submit_timers testStorage 0 (worldWith [5, 10]) .background 0
    { busyRow with Backoff := [5, 10] } 1 rfl (by decide) (fun b hb => by cases hb)
    (fun h => absurd rfl h)

/-- C19, the claim as stated fails. For a task with `delay_time = 0` and no cron
expression `Submit` returns no error and arms no timer; for a task with
`delay_time = 5` and the cron expression `*/10 * * * * *` it arms two, the
one-shot timer and the periodic one. -/
theorem Submit_arms_none_or_two :
    ((Submit testStorage callDepth (worldOf { busyRow with DelayTime := 0 }) .background 0 1).2
        = none ∧
      (Submit testStorage callDepth (worldOf { busyRow with DelayTime := 0 })
        .background 0 1).1.timers = []) ∧
    ((Submit testStorage callDepth (worldOf { busyRow with CronExpr := "*/10 * * * * *" })
        .background 0 1).2 = none ∧
      (Submit testStorage callDepth (worldOf { busyRow with CronExpr := "*/10 * * * * *" })
        .background 0 1).1.timers =
        [{ expiration := 5 * Second, every := none, f := .after .background 0 },
         { expiration := 16 * Second, every := some (10 * Second), f := .cron .background 0 }]) := by
  decide!

end storage

namespace storage

/-! ## The sweep of a PENDING row -/

/-- C18 (evaluation of the code). A PENDING row whose `fail_count + 1` reaches
`len(backoff)` is not made RUNNING by the sweep: the sweeper increments
`fail_count` in memory, `Submit` hands the task to `Failure`, and the row becomes
FAILED with its persisted `fail_count` unchanged and no timer armed. In scenario
S3 (slow-path insert, `backoff = []`) the row goes from `(PENDING, -1)` to
`(FAILED, -1)` at its first sweep; in scenario S2 the row waiting for its last
retry goes from `(PENDING, 1)` to `(FAILED, 1)`. With `backoff = [5]` the
slow-path insert is `(RUNNING, 0)` after its first sweep, with its timer armed
for `next_run_at`. -/
theorem sweep_fails_last_retry :
    ((run testStorage testWorld (scenarioS3.take 8)).rows.map
        (fun r => (r.TaskNo, r.Status, r.FailCount)) = [(1002, 0, -1)] ∧
      (run testStorage testWorld scenarioS3).rows.map
        (fun r => (r.TaskNo, r.Status, r.FailCount)) = [(1002, 3, -1)] ∧
      timersFor (run testStorage testWorld scenarioS3) 1002 = []) ∧
    ((run testStorage testWorld (scenarioS2.take 14)).rows.map
        (fun r => (r.TaskNo, r.Status, r.FailCount)) = [(1001, 0, 1)] ∧
      (run testStorage testWorld scenarioS2).rows.map
        (fun r => (r.TaskNo, r.Status, r.FailCount)) = [(1001, 3, 1)] ∧
      timersFor (run testStorage testWorld scenarioS2) 1001 = []) ∧
    ((run testStorage testWorld (scenarioSlowInsert.take 8)).rows.map
        (fun r => (r.TaskNo, r.Status, r.FailCount)) = [(1008, 0, -1)] ∧
      (run testStorage testWorld scenarioSlowInsert).rows.map
        (fun r => (r.TaskNo, r.Status, r.FailCount)) = [(1008, 1, 0)] ∧
      (timersFor (run testStorage testWorld scenarioSlowInsert) 1008).map
        (fun x => (x.expiration, x.every)) = [(20 * Second, none)]) := by
  decide!

end storage

namespace storage

/-! ## The attempt deadline -/

theorem orReturn_proj {α : Type} (f : World → α) (w : World) (r : World × Option Err)
    (k : World → World × Option Err) (h1 : f r.1 = f w)
    (h2 : ∀ w1, f w1 = f w → f (k w1).1 = f w) : f (orReturn r k).1 = f w := by
  rcases r with ⟨w1, _ | e⟩
  · exact h2 w1 h1
  · exact h1

theorem execUpdate_heap (w : World) (rows : List TaskEntity) :
    (execUpdate w rows).1.heap = w.heap := by
  unfold execUpdate
  split <;> rfl

theorem submitBody_heap (w : World) (ctx : trace.Context) (p : Nat) (t : TaskEntity)
    (status : Int) : (submitBody w ctx p t status).1.heap = w.heap := by
  unfold submitBody
  apply orReturn_proj (fun x => x.heap)
  · split
    · exact execUpdate_heap _ _
    · rfl
  · intro w1 h1
    split
    · exact h1
    · apply orReturn_proj (fun x => x.heap)
      · split
        · exact (arm_heap _ _).trans h1
        · exact h1
      · intro w2 h2
        split
        · split
          · exact h2
          · exact (arm_heap _ _).trans h2
        · exact h2

theorem DeadlinesSet_refl (rows : List TaskEntity) (next deadline : Time) :
    DeadlinesSet rows rows next deadline :=
  ⟨id, by simp, fun r => ⟨rfl, Or.inl ⟨rfl, rfl⟩⟩⟩

/-- The rows after the `UPDATE` of `Submit`, whether it is made or not. -/
theorem submitBody_deadlines (w : World) (ctx : trace.Context) (p : Nat) (t : TaskEntity)
    (status : Int) :
    DeadlinesSet w.rows (submitBody w ctx p t status).1.rows t.NextRunAt t.RunTimeoutAt := by
  have hup : DeadlinesSet w.rows
      (execUpdate w (updateRunning w.rows t (if t.FailCount = 0 then none else some w.now)
        w.now status)).1.rows t.NextRunAt t.RunTimeoutAt := by
    unfold execUpdate
    split
    · exact DeadlinesSet_refl _ _ _
    · refine ⟨_, rfl, fun r => ?_⟩
      split
      · exact ⟨rfl, Or.inr ⟨rfl, rfl⟩⟩
      · exact ⟨rfl, Or.inl ⟨rfl, rfl⟩⟩
  by_cases hst : status > -1
  · have e : (submitBody w ctx p t status).1.rows =
        (execUpdate w (updateRunning w.rows t (if t.FailCount = 0 then none else some w.now)
          w.now status)).1.rows := by
      unfold submitBody
      dsimp only
      rw [if_pos hst]
      generalize execUpdate w (updateRunning w.rows t (if t.FailCount = 0 then none else some w.now)
          w.now status) = res
      apply orReturn_proj (fun x => x.rows) res.1 res
      · rfl
      · intro w1 h1
        split
        · exact h1
        · apply orReturn_proj (fun x => x.rows)
          · split
            · exact (arm_rows _ _).trans h1
            · exact h1
          · intro w2 h2
            split
            · split
              · exact h2
              · exact (arm_rows _ _).trans h2
            · exact h2
    rw [e]
    exact hup
  · have e : (submitBody w ctx p t status).1.rows = w.rows := by
      unfold submitBody
      dsimp only
      rw [if_neg hst]
      apply orReturn_proj (fun x => x.rows) w
      · rfl
      · intro w1 h1
        split
        · exact h1
        · apply orReturn_proj (fun x => x.rows)
          · split
            · exact (arm_rows _ _).trans h1
            · exact h1
          · intro w2 h2
            split
            · split
              · exact h2
              · exact (arm_rows _ _).trans h2
            · exact h2
    rw [e]
    exact DeadlinesSet_refl _ _ _

/-- `Failure` on a task that has used up its backoff list leaves `next_run_at`
and `run_timeout_at` of every row as they are, and the heap as it is. -/
theorem Failure_exhausted_deadlines (d : Storage) (ctx : trace.Context) (p : Nat) (w : World)
    (t : TaskEntity) (ht : w.heap[p]? = some t) (hge : t.FailCount ≥ (t.Backoff.length : Int))
    (next deadline : Time) (fuel : Nat) :
    DeadlinesSet w.rows (Failure d fuel w ctx p).1.rows next deadline ∧
    (Failure d fuel w ctx p).1.heap = w.heap := by
  cases fuel with
  | zero => rw [Failure]; exact ⟨DeadlinesSet_refl _ _ _, rfl⟩
  | succ f =>
    rw [Failure]
    simp only [ht]
    split
    · exact ⟨DeadlinesSet_refl _ _ _, rfl⟩
    · rw [if_neg (by omega)]
      refine ⟨?_, execUpdate_heap _ _⟩
      unfold markFailed execUpdate
      split
      · exact DeadlinesSet_refl _ _ _
      · refine ⟨_, rfl, fun r => ?_⟩
        split <;> exact ⟨rfl, Or.inl ⟨rfl, rfl⟩⟩

/-- `Submit` writes, if anything, the pair of the task, and leaves the heap as it
is. -/
theorem Submit_deadlines (d : Storage) (ctx : trace.Context) (p : Nat) (w : World)
    (t : TaskEntity) (ht : w.heap[p]? = some t) (status : Int) (fuel : Nat) :
    DeadlinesSet w.rows (Submit d fuel w ctx p status).1.rows t.NextRunAt t.RunTimeoutAt ∧
    (Submit d fuel w ctx p status).1.heap = w.heap := by
  cases fuel with
  | zero => rw [Submit]; exact ⟨DeadlinesSet_refl _ _ _, rfl⟩
  | succ f =>
    rw [Submit]
    simp only [ht]
    split
    · rename_i hge
      exact Failure_exhausted_deadlines d ctx p w t ht hge _ _ f
    · exact ⟨submitBody_deadlines w ctx p t status, submitBody_heap w ctx p t status⟩

end storage

namespace storage

theorem newTaskEntity_deadline (d : Storage) (now : Time) (ctx : trace.Context) (o : options)
    (taskNo : Int) :
    (newTaskEntity d now ctx o taskNo).TaskNo = taskNo ∧
    (newTaskEntity d now ctx o taskNo).NextRunAt = now + durationMul o.delayTime Second ∧
    (newTaskEntity d now ctx o taskNo).RunTimeoutAt =
      now + durationMul o.delayTime Second + durationMul o.timeout Second := by
  unfold newTaskEntity
  dsimp only
  split <;> exact ⟨rfl, rfl, rfl⟩

/-- C20. Where the core sets `next_run_at` it sets `run_timeout_at = next_run_at +
timeout s`. In `Add` at time `now`, when it returns no error, the task object and
the inserted row have `next_run_at = now + delay_time s` and `run_timeout_at =
next_run_at + timeout s`. In the retry branch of `Failure` at time `now`
(`fail_count < len(backoff)`, `delay = backoff[fail_count]`) the task object gets
`next_run_at = now + delay s` and `run_timeout_at = next_run_at + timeout s`, and
every row the call rewrites gets that same pair. -/
theorem deadline_follows_next_run (d : Storage) (w : World) (ctx : trace.Context) :
    (∀ (opts : List Opt) (taskNo : Int), (Add d w ctx opts taskNo).2.2 = none →
      (∃ o, (Add d w ctx opts taskNo).1.heap[w.heap.length]? = some o ∧
        o.NextRunAt = w.now + durationMul (applyOptions opts).delayTime Second ∧
        o.RunTimeoutAt = o.NextRunAt + durationMul (applyOptions opts).timeout Second) ∧
      (∃ r ∈ (Add d w ctx opts taskNo).1.rows, r.TaskNo = taskNo ∧
        r.NextRunAt = w.now + durationMul (applyOptions opts).delayTime Second ∧
        r.RunTimeoutAt = r.NextRunAt + durationMul (applyOptions opts).timeout Second)) ∧
    (∀ (fuel task : Nat) (t : TaskEntity) (delay : Int), w.heap[task]? = some t →
      t.FailCount < (t.Backoff.length : Int) →
      sliceIndex t.Backoff t.FailCount = some delay →
      (∃ o, (Failure d (fuel + 1) w ctx task).1.heap[task]? = some o ∧
        o.NextRunAt = w.now + durationMul delay Second ∧
        o.RunTimeoutAt = o.NextRunAt + durationMul t.Timeout Second) ∧
      DeadlinesSet w.rows (Failure d (fuel + 1) w ctx task).1.rows
        (w.now + durationMul delay Second)
        (w.now + durationMul delay Second + durationMul t.Timeout Second)) := by
  constructor
  · intro opts taskNo herr
    obtain ⟨hT, hN, hR⟩ := newTaskEntity_deadline d w.now ctx (applyOptions opts) taskNo
    obtain ⟨hw, he⟩ := Add_result d w ctx opts taskNo _ _ _ rfl rfl rfl
    rw [he] at herr
    rw [hw]
    rcases insertRow_cases { w with heap := w.heap ++
        [newTaskEntity d w.now ctx (applyOptions opts) taskNo] }
        (newTaskEntity d w.now ctx (applyOptions opts) taskNo) with ⟨hs, _⟩ | ⟨hs, _, hins⟩
    · rw [if_pos hs] at herr
      rw [herr] at hs
      cases hs
    · rw [if_neg (by rw [hs]; decide), hins]
      have hget := alloc_get w.heap (newTaskEntity d w.now ctx (applyOptions opts) taskNo)
      have hrow : ∀ (row : TaskEntity), row ∈ w.rows ++ [row] :=
        fun row => List.mem_append_right _ (List.mem_singleton.mpr rfl)
      split
      · obtain ⟨⟨g, hg, hgr⟩, hh⟩ := Submit_deadlines d
          (trace.Set .background (trace.Get ctx)) w.heap.length
          { ({ w with heap := w.heap ++
                [newTaskEntity d w.now ctx (applyOptions opts) taskNo] } : World).next with
            rows := w.rows ++
              [{ (newTaskEntity d w.now ctx (applyOptions opts) taskNo) with
                  Id := (w.rows.length : Int) + 1, FailMsgs := [], LastRetryAt := none }] }
          _ hget (-1) callDepth
        constructor
        · exact ⟨_, by rw [hh]; exact hget, hN, by rw [hR, hN]⟩
        · refine ⟨g _, by rw [hg]; exact List.mem_map_of_mem g (hrow _), ?_⟩
          obtain ⟨e1, e2⟩ := hgr
            { (newTaskEntity d w.now ctx (applyOptions opts) taskNo) with
              Id := (w.rows.length : Int) + 1, FailMsgs := [], LastRetryAt := none }
          refine ⟨e1.trans hT, ?_⟩
          rcases e2 with ⟨e3, e4⟩ | ⟨e3, e4⟩
          · exact ⟨e3.trans hN, by rw [e4, e3]; exact hR.trans (by rw [hN])⟩
          · exact ⟨e3.trans hN, by rw [e4, e3]; exact hR.trans (by rw [hN])⟩
      · exact ⟨⟨_, hget, hN, by rw [hR, hN]⟩, ⟨_, hrow _, hT, hN, hR.trans (by rw [hN])⟩⟩
  · intro fuel task t delay ht h1 hi
    obtain ⟨v, hv⟩ := GetDelayTime_some t (by omega)
    by_cases hf : durationMul delay Second ≤ d.cfg.FastPathTime
    · rw [Failure_fast d fuel w ctx task t v delay ht hv h1 hi hf]
      have hget := getElem?_set_same w.heap task t
        { (retryFields t delay w.now) with FailCount := t.FailCount + 1 } ht
      obtain ⟨hd, hh⟩ := Submit_deadlines d ctx task
        { w with heap := w.heap.set task { (retryFields t delay w.now) with FailCount := t.FailCount + 1 } }
        _ hget 1 fuel
      exact ⟨⟨_, by rw [hh]; exact hget, rfl, rfl⟩, hd⟩
    · rw [Failure_slow d fuel w ctx task t v delay ht hv h1 hi hf]
      have hget := getElem?_set_same w.heap task t (retryFields t delay w.now) ht
      refine ⟨⟨_, by unfold writeBackPending; rw [execUpdate_heap]; exact hget, rfl, rfl⟩, ?_⟩
      unfold writeBackPending execUpdate
      split
      · exact DeadlinesSet_refl _ _ _
      · refine ⟨_, rfl, fun r => ?_⟩
        split
        · exact ⟨rfl, Or.inr ⟨rfl, rfl⟩⟩
        · exact ⟨rfl, Or.inl ⟨rfl, rfl⟩⟩


theorem deadline_follows_next_run_witness :
    ((∃ o, (Add testStorage testWorld .background [WithDelayTime 5, WithBackoff [2, 16]]
          1009).1.heap[testWorld.heap.length]? = some o ∧
        o.NextRunAt = testWorld.now +
          durationMul (applyOptions [WithDelayTime 5, WithBackoff [2, 16]]).delayTime Second ∧
        o.RunTimeoutAt = o.NextRunAt +
          durationMul (applyOptions [WithDelayTime 5, WithBackoff [2, 16]]).timeout Second) ∧
      (∃ r ∈ (Add testStorage testWorld .background [WithDelayTime 5, WithBackoff [2, 16]]
          1009).1.rows, r.TaskNo = 1009 ∧
        r.NextRunAt = testWorld.now +
          durationMul (applyOptions [WithDelayTime 5, WithBackoff [2, 16]]).delayTime Second ∧
        r.RunTimeoutAt = r.NextRunAt +
          durationMul (applyOptions [WithDelayTime 5, WithBackoff [2, 16]]).timeout Second)) ∧
    ((∃ o, (Failure testStorage (0 + 1) busyWorld .background 0).1.heap[0]? = some o ∧
        o.NextRunAt = busyWorld.now + durationMul 20 Second ∧
        o.RunTimeoutAt = o.NextRunAt + durationMul busyRow.Timeout Second) ∧
      DeadlinesSet busyWorld.rows (Failure testStorage (0 + 1) busyWorld .background 0).1.rows
        (busyWorld.now + durationMul 20 Second)
        (busyWorld.now + durationMul 20 Second + durationMul busyRow.Timeout Second)) :=
  ⟨(deadline_follows_next_run testStorage testWorld .background).1
      [WithDelayTime 5, WithBackoff [2, 16]] 1009 (by decide!),
    (deadline_follows_next_run testStorage busyWorld .background).2 0 0 busyRow 20 rfl
      (by decide) rfl⟩

end storage

namespace storage

/-! ## Cron firings and the persisted row -/

theorem Success_keep (w : World) (ctx : trace.Context) (task : Nat) (i : Nat) (r : TaskEntity)
    (hr : w.rows[i]? = some r) (h1 : r.Status ≠ 1) :
    (Success w ctx task).1.rows[i]? = some r := by
  unfold Success
  cases ht : w.heap[task]? with
  | none => simpa [ht] using hr
  | some t =>
    simp only [ht]
    split
    · exact hr
    · exact execUpdate_keep w _ i r hr (updateSucceeded_keep _ _ _ i r hr h1)

theorem Failure_keep (d : Storage) (fuel : Nat) (w : World) (ctx : trace.Context) (task : Nat)
    (t : TaskEntity) (delay : Int) (i : Nat) (r : TaskEntity)
    (hr : w.rows[i]? = some r) (h1 : r.Status ≠ 1) (ht : w.heap[task]? = some t)
    (hfc : t.FailCount < (t.Backoff.length : Int))
    (hi : sliceIndex t.Backoff t.FailCount = some delay)
    (hcase : ¬ (durationMul delay Second ≤ d.cfg.FastPathTime) ∨
      t.FailCount + 1 < (t.Backoff.length : Int)) :
    (Failure d fuel w ctx task).1.rows[i]? = some r := by
  cases fuel with
  | zero => simpa [Failure] using hr
  | succ fuel =>
    cases hg : GetDelayTime t with
    | none => rw [Failure]; simpa [ht, hg] using hr
    | some v =>
      by_cases hf : durationMul delay Second ≤ d.cfg.FastPathTime
      · have hlen : t.FailCount + 1 < (t.Backoff.length : Int) := by
          rcases hcase with h | h
          · exact absurd hf h
          · exact h
        rw [Failure_fast d fuel w ctx task t v delay ht hg hfc hi hf]
        cases fuel with
        | zero => simpa [Submit] using hr
        | succ fuel =>
          have hlen2 : ({ (retryFields t delay w.now) with
              FailCount := t.FailCount + 1 } : TaskEntity).FailCount <
              (({ (retryFields t delay w.now) with
                FailCount := t.FailCount + 1 } : TaskEntity).Backoff.length : Int) := hlen
          rw [Submit_live d fuel _ ctx task 1 _ (getElem?_set_same w.heap task t _ ht) hlen2]
          exact submitBody_keep _ ctx task _ 1 i r hr h1
      · rw [Failure_slow d fuel w ctx task t v delay ht hg hfc hi hf]
        exact execUpdate_keep _ _ i r hr (updateRetry_keep _ _ _ i r hr h1)

theorem Execute_keep (d : Storage) (w : World) (net : callback.Reply) (ctx : trace.Context)
    (task : Nat) (t : TaskEntity) (delay : Int) (i : Nat) (r : TaskEntity)
    (hr : w.rows[i]? = some r) (h1 : r.Status ≠ 1) (ht : w.heap[task]? = some t)
    (hfc : t.FailCount < (t.Backoff.length : Int))
    (hi : sliceIndex t.Backoff t.FailCount = some delay)
    (hcase : ¬ (durationMul delay Second ≤ d.cfg.FastPathTime) ∨
      t.FailCount + 1 < (t.Backoff.length : Int)) :
    (Execute d w net ctx task).1.rows[i]? = some r := by
  unfold Execute
  simp only [ht]
  split
  · exact hr
  · split
    · exact hr
    · split
      · exact Failure_keep d callDepth _ ctx task _ delay i r hr h1
          (getElem?_set_same w.heap task t _ ht) hfc hi hcase
      · split
        · exact Success_keep _ ctx task i r hr h1
        · have hlen : task < w.heap.length := by
            by_contra hc
            rw [List.getElem?_eq_none (by omega)] at ht
            cases ht
          have key : ∀ (w2 : World) (t2 : TaskEntity), w2.rows = w.rows →
              w2.heap[task]? = some t2 → t2.FailCount = t.FailCount → t2.Backoff = t.Backoff →
              (Failure d callDepth w2 ctx task).1.rows[i]? = some r := by
            intro w2 t2 hw h2 e1 e2
            exact Failure_keep d callDepth w2 ctx task t2 delay i r (by rw [hw]; exact hr) h1 h2
              (by rw [e1, e2]; exact hfc) (by rw [e1, e2]; exact hi) (by rw [e1, e2]; exact hcase)
          exact key _ _ rfl
            (getElem?_set_same _ task _ _ (getElem?_set_same w.heap task t _ ht)) rfl rfl

theorem collect_rows (w : World) (e : Err) : (collect w e).rows = w.rows := rfl

theorem runClosure_cron_keep (d : Storage) (w : World) (uuid : String) (net : callback.Reply)
    (ctx : trace.Context) (task : Nat) (i : Nat) (r : TaskEntity)
    (h : (Execute d w net ctx task).1.rows[i]? = some r) :
    (runClosure d w uuid net (.cron ctx task)).rows[i]? = some r := by
  rcases hE : Execute d w net ctx task with ⟨w1, _ | e⟩
  · rw [hE] at h
    simp only [runClosure, hE]; exact h
  · rw [hE] at h
    cases e <;> (simp only [runClosure, hE]; exact h)

/-- C21, amended. When the wheel fires the cron timer of a task, every row that
is not RUNNING keeps all its fields, `status` and `next_run_at` among them,
whatever the adapter returns, as long as the retries of the task object are not
exhausted by this firing: `fail_count < len(backoff)`, and `fail_count + 1 <
len(backoff)` when the next backoff delay is within the fast-path horizon. -/
theorem cron_firing_keeps_settled_rows (d : Storage) (w : World) (i : Nat) (uuid : String)
    (net : callback.Reply) (x : Timer) (ctx : trace.Context) (task : Nat) (t : TaskEntity)
    (delay : Int) (j : Nat) (r : TaskEntity)
    (hx : w.timers[i]? = some x) (hf : x.f = .cron ctx task)
    (ht : w.heap[task]? = some t)
    (hfc : t.FailCount < (t.Backoff.length : Int))
    (hi : sliceIndex t.Backoff t.FailCount = some delay)
    (hcase : ¬ (durationMul delay Second ≤ d.cfg.FastPathTime) ∨
      t.FailCount + 1 < (t.Backoff.length : Int))
    (hr : w.rows[j]? = some r) (hs : r.Status ≠ 1) :
    (fire d w i uuid net).rows[j]? = some r := by
  unfold fire
  simp only [hx]
  split
  · rw [hf]
    apply runClosure_cron_keep
    cases hev : x.every with
    | none => exact Execute_keep d _ net ctx task t delay j r hr hs ht hfc hi hcase
    | some interval =>
      refine Execute_keep d _ net ctx task t delay j r ?_ hs ?_ hfc hi hcase
      · rw [arm_rows]; exact hr
      · rw [arm_heap]; exact ht
  · exact hr

theorem cron_firing_keeps_settled_rows_witness :
    (fire testStorage cronWorld 0 "" { resp := "busy", err := none }).rows[0]? = some cronRow :=
  cron_firing_keeps_settled_rows testStorage cronWorld 0 "" { resp := "busy", err := none }
    { expiration := 6 * Second, every := some (10 * Second), f := .cron .background 0 }
    .background 0 { cronRow with Status := 1 } 20 0 cronRow rfl rfl rfl (by decide) (by decide)
    (Or.inl (by decide)) rfl (by decide)

/-- C21, the claim as stated fails. In `scenarioCronOnly` the row is RUNNING when
the cron timer fires at 10 s (there is no one-shot timer for `delay` = 0): when
the adapter answers `"SUCCESS"` the firing turns the row SUCCEEDED, and when it
answers `"FAIL"` the firing moves `next_run_at` from 0 s to 15 s. -/
theorem cron_firing_changes_row :
    (run testStorage testWorld
      ((scenarioCronOnly (some [("result", .str "SUCCESS")])).take 2)).rows.map
      (fun r => (r.TaskNo, r.CronExpr, r.Status, r.NextRunAt)) =
        [(1010, "*/10 * * * * *", 1, 0)] ∧
    (run testStorage testWorld (scenarioCronOnly (some [("result", .str "SUCCESS")]))).rows.map
      (fun r => (r.TaskNo, r.Status, r.NextRunAt)) = [(1010, 2, 0)] ∧
    (run testStorage testWorld ((scenarioCronOnly none).take 2)).rows.map
      (fun r => (r.TaskNo, r.CronExpr, r.Status, r.NextRunAt)) =
        [(1010, "*/10 * * * * *", 1, 0)] ∧
    (run testStorage testWorld (scenarioCronOnly none)).rows.map
      (fun r => (r.TaskNo, r.Status, r.NextRunAt)) = [(1010, 1, 15 * Second)] := by
  decide!

end storage

namespace storage

/-! ## The column `locked_by` -/

theorem LockedByKept.refl_kept (rows : List TaskEntity) : LockedByKept rows rows :=
  ⟨id, by simp, fun _ => ⟨rfl, rfl⟩⟩

theorem LockedByKept.trans_kept {a b c : List TaskEntity} (h1 : LockedByKept a b)
    (h2 : LockedByKept b c) : LockedByKept a c := by
  obtain ⟨f, e1, hf⟩ := h1
  obtain ⟨g, e2, hg⟩ := h2
  refine ⟨g ∘ f, by rw [e2, e1, List.map_map], fun r => ?_⟩
  exact ⟨((hg (f r)).1).trans (hf r).1, ((hg (f r)).2).trans (hf r).2⟩

theorem LockedByKept.of_eq {a b : List TaskEntity} (h : b = a) : LockedByKept a b := by
  rw [h]; exact LockedByKept.refl_kept a

theorem Eff.kept {T : Int} {p : Nat} {w w1 : World} (h : Eff T p w w1) :
    LockedByKept w.rows w1.rows := by
  obtain ⟨f, e, g⟩ := h.rows
  exact ⟨f, e, fun r => ⟨(g r).1.2.1, (g r).1.2.2.2.2.2.2.2.1⟩⟩

theorem Submit_kept (d : Storage) (fuel : Nat) (w : World) (ctx : trace.Context) (p : Nat)
    (status : Int) : LockedByKept w.rows (Submit d fuel w ctx p status).1.rows := by
  cases ht : w.heap[p]? with
  | none =>
    cases fuel with
    | zero => rw [Submit]; exact LockedByKept.refl_kept _
    | succ fuel => rw [Submit]; simp only [ht]; exact LockedByKept.refl_kept _
  | some t => exact ((Failure_Submit_eff d ctx p t.TaskNo fuel).2 w t status ht rfl).kept

theorem Failure_kept (d : Storage) (fuel : Nat) (w : World) (ctx : trace.Context) (p : Nat) :
    LockedByKept w.rows (Failure d fuel w ctx p).1.rows := by
  cases ht : w.heap[p]? with
  | none =>
    cases fuel with
    | zero => rw [Failure]; exact LockedByKept.refl_kept _
    | succ fuel => rw [Failure]; simp only [ht]; exact LockedByKept.refl_kept _
  | some t => exact ((Failure_Submit_eff d ctx p t.TaskNo fuel).1 w t ht rfl).kept

theorem Success_kept (w : World) (ctx : trace.Context) (p : Nat) :
    LockedByKept w.rows (Success w ctx p).1.rows := by
  cases ht : w.heap[p]? with
  | none => unfold Success; simp only [ht]; exact LockedByKept.refl_kept _
  | some t => exact (Success_eff w ctx p t t.TaskNo ht rfl).kept

theorem Execute_kept (d : Storage) (w : World) (net : callback.Reply) (ctx : trace.Context)
    (p : Nat) : LockedByKept w.rows (Execute d w net ctx p).1.rows := by
  cases ht : w.heap[p]? with
  | none => unfold Execute; simp only [ht]; exact LockedByKept.refl_kept _
  | some t => exact (Execute_eff d w net ctx p t ht).kept

theorem FetchPendingTasks_rows (w : World) (maxCount : Int) (t : Duration) :
    (FetchPendingTasks w maxCount t).1.rows = w.rows := by
  unfold FetchPendingTasks
  split
  · split <;> rfl
  · rfl

theorem pendingLoop_kept (d : Storage) (ctx : trace.Context) :
    ∀ (tasks : List TaskEntity) (w : World),
      LockedByKept w.rows (pendingLoop d ctx tasks w).1.rows := by
  intro tasks
  induction tasks with
  | nil => intro w; exact LockedByKept.refl_kept _
  | cons t rest ih =>
    intro w
    have h1 := Submit_kept d callDepth
      { w with heap := w.heap ++ [{ t with FailCount := t.FailCount + 1 }] }
      (trace.Append ctx t.TraceId) w.heap.length 0
    rw [pendingLoop]
    generalize Submit d callDepth
      { w with heap := w.heap ++ [{ t with FailCount := t.FailCount + 1 }] }
      (trace.Append ctx t.TraceId) w.heap.length 0 = res at h1
    rcases res with ⟨w2, _ | e⟩
    · exact h1.trans_kept (ih w2)
    · cases e with
      | error m => exact h1.trans_kept (ih (collect w2 _))
      | panic m => exact h1

theorem pendingSweep_kept (d : Storage) (w : World) (uuid : String) :
    LockedByKept w.rows (pendingSweep d w uuid).1.rows := by
  have h1 := FetchPendingTasks_rows w d.cfg.PendingLimit d.cfg.AdvancePendingTime
  unfold pendingSweep
  generalize FetchPendingTasks w d.cfg.PendingLimit d.cfg.AdvancePendingTime = res at h1
  rcases res with ⟨w1, tasks, _ | e⟩
  · exact (LockedByKept.of_eq h1).trans_kept (pendingLoop_kept d _ tasks w1)
  · cases e with
    | error m => exact LockedByKept.of_eq h1
    | panic m => exact LockedByKept.of_eq h1

end storage

namespace storage

theorem LockedByGrows.of_kept {node : Int} {a b : List TaskEntity} (h : LockedByKept a b) :
    LockedByGrows node a b :=
  ⟨b, [], by simp, h, by simp⟩

theorem LockedByGrows.trans_grows {node : Int} {a b c : List TaskEntity}
    (h1 : LockedByGrows node a b) (h2 : LockedByGrows node b c) : LockedByGrows node a c := by
  obtain ⟨b0, n1, e1, ⟨f, ef, hf⟩, hn1⟩ := h1
  obtain ⟨c0, n2, e2, ⟨g, eg, hg⟩, hn2⟩ := h2
  refine ⟨b0.map g, n1.map g ++ n2, ?_, ⟨g ∘ f, ?_, fun r => ?_⟩, ?_⟩
  · rw [e2, eg, e1, List.map_append, List.append_assoc]
  · rw [ef, List.map_map]
  · exact ⟨((hg (f r)).1).trans (hf r).1, ((hg (f r)).2).trans (hf r).2⟩
  · intro r hr
    rcases List.mem_append.mp hr with h | h
    · obtain ⟨r0, hr0, e⟩ := List.mem_map.mp h
      rw [← e, (hg r0).2]
      exact hn1 r0 hr0
    · exact hn2 r h

theorem runClosure_kept (d : Storage) (w : World) (uuid : String) (net : callback.Reply)
    (c : Closure) : LockedByKept w.rows (runClosure d w uuid net c).rows := by
  cases c with
  | after ctx p =>
    have h := Execute_kept d w net ctx p
    simp only [runClosure]
    generalize Execute d w net ctx p = res at h
    rcases res with ⟨w1, _ | e⟩
    · exact h
    · cases e <;> exact h
  | cron ctx p =>
    have h := Execute_kept d w net ctx p
    simp only [runClosure]
    generalize Execute d w net ctx p = res at h
    rcases res with ⟨w1, _ | e⟩
    · exact h
    · cases e <;> exact h
  | pending =>
    have h := pendingSweep_kept d w uuid
    simp only [runClosure]
    generalize pendingSweep d w uuid = res at h
    rcases res with ⟨w1, _ | e⟩
    · exact h
    · exact h

theorem fire_kept (d : Storage) (w : World) (i : Nat) (uuid : String) (net : callback.Reply) :
    LockedByKept w.rows (fire d w i uuid net).rows := by
  unfold fire
  cases hx : w.timers[i]? with
  | none => exact LockedByKept.refl_kept _
  | some x =>
    simp only []
    split
    · cases he : x.every with
      | none => exact runClosure_kept d _ uuid net x.f
      | some interval =>
        simp only []
        refine (LockedByKept.of_eq ?_).trans_kept (runClosure_kept d _ uuid net x.f)
        rw [arm_rows]
    · exact LockedByKept.refl_kept _

theorem Add_grows (d : Storage) (w : World) (ctx : trace.Context) (opts : List Opt)
    (taskNo : Int) : LockedByGrows d.cfg.Node w.rows (Add d w ctx opts taskNo).1.rows := by
  have hnode : (newTaskEntity d w.now ctx (applyOptions opts) taskNo).LockedBy = d.cfg.Node := by
    unfold newTaskEntity
    dsimp only
    split <;> rfl
  rw [(Add_result d w ctx opts taskNo _ _ _ rfl rfl rfl).1]
  rcases insertRow_cases { w with heap := w.heap ++
      [newTaskEntity d w.now ctx (applyOptions opts) taskNo] }
      (newTaskEntity d w.now ctx (applyOptions opts) taskNo) with ⟨he, hw⟩ | ⟨he, _, hw⟩
  · rw [if_pos he, hw]
    exact LockedByGrows.of_kept (LockedByKept.refl_kept _)
  · rw [if_neg (by rw [he]; decide), hw]
    have h1 : LockedByGrows d.cfg.Node w.rows (w.rows ++
        [{ (newTaskEntity d w.now ctx (applyOptions opts) taskNo) with
          Id := (w.rows.length : Int) + 1, FailMsgs := [], LastRetryAt := none }]) := by
      refine ⟨w.rows, _, rfl, LockedByKept.refl_kept _, ?_⟩
      intro r hr
      simp only [List.mem_singleton] at hr
      rw [hr]
      exact hnode
    split
    · exact h1.trans_grows (LockedByGrows.of_kept (Submit_kept d callDepth _ _ _ _))
    · exact h1

theorem step_grows (d : Storage) (w : World) (e : Event) :
    LockedByGrows d.cfg.Node w.rows (step d w e).rows := by
  cases e with
  | add ctx opts taskNo faults => exact Add_grows d { w with faults := faults } ctx opts taskNo
  | advance dt => exact LockedByGrows.of_kept (LockedByKept.refl_kept _)
  | fire i uuid net faults =>
    exact LockedByGrows.of_kept (fire_kept d { w with faults := faults } i uuid net)
  | setNodes ns =>
    simp only [step]
    split <;> exact LockedByGrows.of_kept (LockedByKept.refl_kept _)

theorem run_grows (d : Storage) : ∀ (evs : List Event) (w : World),
    LockedByGrows d.cfg.Node w.rows (run d w evs).rows := by
  intro evs
  induction evs with
  | nil => intro w; exact LockedByGrows.of_kept (LockedByKept.refl_kept _)
  | cons e rest ih => intro w; exact (step_grows d w e).trans_grows (ih (step d w e))

theorem LockedByKept.mem_fwd {a b : List TaskEntity} (h : LockedByKept a b) (r : TaskEntity)
    (hr : r ∈ a) : ∃ r1 ∈ b, r1.TaskNo = r.TaskNo ∧ r1.LockedBy = r.LockedBy := by
  obtain ⟨f, e, hf⟩ := h
  exact ⟨f r, by rw [e]; exact List.mem_map_of_mem f hr, (hf r).1, (hf r).2⟩

theorem Add_row (d : Storage) (w : World) (ctx : trace.Context) (opts : List Opt)
    (taskNo : Int) (h : (Add d w ctx opts taskNo).2.2 = none) :
    ∃ r ∈ (Add d w ctx opts taskNo).1.rows, r.TaskNo = taskNo ∧ r.LockedBy = d.cfg.Node := by
  have hnode : (newTaskEntity d w.now ctx (applyOptions opts) taskNo).LockedBy = d.cfg.Node ∧
      (newTaskEntity d w.now ctx (applyOptions opts) taskNo).TaskNo = taskNo := by
    unfold newTaskEntity
    dsimp only
    split <;> exact ⟨rfl, rfl⟩
  obtain ⟨task, htask⟩ : ∃ task, task = newTaskEntity d w.now ctx (applyOptions opts) taskNo :=
    ⟨_, rfl⟩
  rw [← htask] at hnode
  have hres := Add_result d w ctx opts taskNo task _ _ htask rfl rfl
  rw [hres.2] at h
  rw [hres.1]
  rcases insertRow_cases { w with heap := w.heap ++ [task] } task with ⟨he, hw⟩ | ⟨he, _, hw⟩
  · rw [if_pos he] at h
    rw [h] at he
    cases he
  · rw [if_neg (by rw [he]; decide), hw]
    obtain ⟨row, hrow⟩ : ∃ row : TaskEntity, row =
        { task with Id := (w.rows.length : Int) + 1, FailMsgs := [], LastRetryAt := none } :=
      ⟨_, rfl⟩
    have hT : row.TaskNo = taskNo := by rw [hrow]; exact hnode.2
    have hL : row.LockedBy = d.cfg.Node := by rw [hrow]; exact hnode.1
    have hmem : row ∈ w.rows ++ [row] := by simp
    have hw2 : ({ ({ w with heap := w.heap ++ [task] } : World).next with
        rows := ({ w with heap := w.heap ++ [task] } : World).rows ++
          [{ task with Id := ((({ w with heap := w.heap ++ [task] } : World).rows.length : Nat) : Int) + 1,
                       FailMsgs := [], LastRetryAt := none }] } : World) =
        { ({ w with heap := w.heap ++ [task] } : World).next with rows := w.rows ++ [row] } := by
      rw [hrow]
    rw [hw2]
    split
    · obtain ⟨r1, hr1, e1, e2⟩ := (Submit_kept d callDepth
        { ({ w with heap := w.heap ++ [task] } : World).next with rows := w.rows ++ [row] }
        (trace.Set .background (trace.Get ctx)) w.heap.length (-1)).mem_fwd row hmem
      exact ⟨r1, hr1, e1.trans hT, e2.trans hL⟩
    · exact ⟨row, hmem, hT, hL⟩

/-- C22. `locked_by` is written once. `Add` keeps the rows of the table with
their `locked_by` and appends at most rows whose `locked_by` is the ordinal of
the node, and the row of a successful `Add` carries that ordinal; `Submit`,
`Success`, `Failure`, `Execute` and the pending sweep keep every row, in place,
with its `task_no` and `locked_by`; hence along every run of a node the rows
present keep their `locked_by` and the rows added carry the node's ordinal. -/
theorem lockedBy_written_once (d : Storage) (w : World) :
    (∀ ctx opts taskNo, LockedByGrows d.cfg.Node w.rows (Add d w ctx opts taskNo).1.rows ∧
      ((Add d w ctx opts taskNo).2.2 = none →
        ∃ r ∈ (Add d w ctx opts taskNo).1.rows, r.TaskNo = taskNo ∧ r.LockedBy = d.cfg.Node)) ∧
    (∀ fuel ctx p status, LockedByKept w.rows (Submit d fuel w ctx p status).1.rows) ∧
    (∀ ctx p, LockedByKept w.rows (Success w ctx p).1.rows) ∧
    (∀ fuel ctx p, LockedByKept w.rows (Failure d fuel w ctx p).1.rows) ∧
    (∀ net ctx p, LockedByKept w.rows (Execute d w net ctx p).1.rows) ∧
    (∀ uuid, LockedByKept w.rows (pendingSweep d w uuid).1.rows) ∧
    (∀ evs, LockedByGrows d.cfg.Node w.rows (run d w evs).rows) :=
  ⟨fun ctx opts taskNo => ⟨Add_grows d w ctx opts taskNo, Add_row d w ctx opts taskNo⟩,
    fun fuel ctx p status => Submit_kept d fuel w ctx p status,
    fun ctx p => Success_kept w ctx p,
    fun fuel ctx p => Failure_kept d fuel w ctx p,
    fun net ctx p => Execute_kept d w net ctx p,
    fun uuid => pendingSweep_kept d w uuid,
    fun evs => run_grows d evs w⟩

end storage

namespace storage

/-! ## The correlation record -/

theorem lookup_filter_ne (kv : List (String × callback.Any)) (k k0 : String) (h : k ≠ k0) :
    (kv.filter (fun e => e.1 != k0)).lookup k = kv.lookup k := by
  induction kv with
  | nil => rfl
  | cons e rest ih =>
    obtain ⟨a, v⟩ := e
    by_cases ha : a = k0
    · have hka : (k == a) = false := by rw [ha]; simpa using h
      have hne : (a != k0) = false := by simp [ha]
      rw [List.filter_cons]
      simp only [hne, List.lookup, hka]
      exact ih
    · have hne : (a != k0) = true := by simpa using ha
      rw [List.filter_cons]
      simp only [hne, if_true]
      cases hka : (k == a) with
      | true => simp only [List.lookup, hka]
      | false => simp only [List.lookup, hka]; exact ih

theorem injectOriginal_original (p : callback.Payload) (taskNo : Int) (traceId : String) :
    (injectOriginal p taskNo traceId).Data.get "original" =
      some (.map [("msg_no", .int taskNo), ("trace_id", .str traceId)]) := by
  simp [injectOriginal, callback.Data.get, callback.mapSet, List.lookup]

theorem injectOriginal_other (p : callback.Payload) (taskNo : Int) (traceId : String)
    (k : String) (h : k ≠ "original") :
    (injectOriginal p taskNo traceId).Data.get k = p.Data.get k := by
  have hk : (k == "original") = false := by simpa using h
  cases hd : p.Data with
  | none => simp [injectOriginal, callback.Data.get, callback.mapSet, List.lookup, hd, hk]
  | some kv =>
    simp only [injectOriginal, callback.Data.get, callback.mapSet, List.lookup, hd, hk]
    exact lookup_filter_ne kv k "original" h

theorem Success_requests (w : World) (ctx : trace.Context) (p : Nat) :
    (Success w ctx p).1.requests = w.requests := by
  unfold Success
  split
  · rfl
  · split
    · rfl
    · exact execUpdate_requests _ _

/-- C23. `Execute` on a task with payload `p` whose scheme has an adapter
makes one adapter call, and the payload of that call carries under `"original"`
the record `{msg_no: task_no, trace_id: trace id of the context}`; its data map
is not nil, it is the fresh map holding only that record when the data of `p`
was nil, every other key reads as it did in `p`, and scheme, URL and path are
those of `p`. Without an adapter no call is made. -/
theorem Execute_injects_original (d : Storage) (w : World) (net : callback.Reply)
    (ctx : trace.Context) (task : Nat) (t : TaskEntity) (p : callback.Payload)
    (ht : w.heap[task]? = some t) (hp : t.Payload = some p)
    (hfc : t.FailCount ≤ (t.Backoff.length : Int)) :
    (∀ a, d.adapter (toUpper d.upper p.Schema) = some a →
      ∃ q, (Execute d w net ctx task).1.requests = w.requests ++ [q] ∧
        q.TaskNo = t.TaskNo ∧ q.payload.Data ≠ none ∧
        q.payload.Data.get "original" =
          some (.map [("msg_no", .int t.TaskNo), ("trace_id", .str (trace.Get ctx))]) ∧
        (p.Data = none → q.payload.Data = some [("original",
          .map [("msg_no", .int t.TaskNo), ("trace_id", .str (trace.Get ctx))])]) ∧
        (∀ k, k ≠ "original" → q.payload.Data.get k = p.Data.get k) ∧
        q.payload.Schema = p.Schema ∧ q.payload.Url = p.Url ∧ q.payload.Path = p.Path) ∧
    (d.adapter (toUpper d.upper p.Schema) = none →
      (Execute d w net ctx task).1.requests = w.requests) := by
  obtain ⟨v, hv⟩ := GetDelayTime_some t hfc
  constructor
  · intro a ha
    refine ⟨{ TaskNo := t.TaskNo, traceId := trace.Get (trace.Set .background (trace.Get ctx)),
              deadline := t.RunTimeoutAt,
              payload := injectOriginal p t.TaskNo (trace.Get ctx) }, ?_, rfl, ?_,
      injectOriginal_original p _ _, ?_, fun k hk => injectOriginal_other p _ _ k hk,
      rfl, rfl, rfl⟩
    · unfold Execute
      simp only [ht, hv, hp, ha]
      split
      · rw [Success_requests]; rfl
      · rw [(Failure_Submit_requests d ctx task callDepth).1]; rfl
    · simp [injectOriginal]
    · intro hn
      simp [injectOriginal, hn, callback.mapSet]
  · intro ha
    unfold Execute
    simp only [ht, hv, hp, ha]
    rw [(Failure_Submit_requests d ctx task callDepth).1]

theorem Execute_injects_original_witness :
    (∀ a, testStorage.adapter (toUpper testStorage.upper "fmt") = some a →
      ∃ q, (Execute testStorage doneWorld { resp := "", err := none } .background 0).1.requests =
          doneWorld.requests ++ [q] ∧
        q.TaskNo = 7 ∧ q.payload.Data ≠ none ∧
        q.payload.Data.get "original" =
          some (.map [("msg_no", .int 7), ("trace_id", .str (trace.Get .background))]) ∧
        ((none : callback.Data) = none → q.payload.Data = some [("original",
          .map [("msg_no", .int 7), ("trace_id", .str (trace.Get .background))])]) ∧
        (∀ k, k ≠ "original" → q.payload.Data.get k = callback.Data.get none k) ∧
        q.payload.Schema = "fmt" ∧ q.payload.Url = "" ∧ q.payload.Path = "") ∧
    (testStorage.adapter (toUpper testStorage.upper "fmt") = none →
      (Execute testStorage doneWorld { resp := "", err := none } .background 0).1.requests =
        doneWorld.requests) :=
  Execute_injects_original testStorage doneWorld { resp := "", err := none } .background 0
    { doneRow with Status := 1 } { Schema := "fmt", Url := "", Path := "", Data := none }
    rfl rfl (by decide)

end storage

namespace trace

/-! ## Package `trace` -/

theorem length_zero_iff (s : String) : s.length = 0 ↔ s = "" := by
  constructor
  · intro h
    have hd : s.data = [] := List.length_eq_zero.mp h
    exact String.ext hd
  · intro h; rw [h]; rfl

/-- C25. For a context whose trace id `p` and a child id `c` are both non-empty,
`Get(Append(ctx, c))` is `p + "," + c`; when `p` is empty it is `c`; `Append`
with an empty child id returns the context unchanged; and `Get(Set(ctx, t))` is
`t` for every string `t`. -/
theorem Append_Get (ctx : Context) (c t : String) :
    (Get ctx ≠ "" → c ≠ "" → Get (Append ctx c) = Get ctx ++ "," ++ c) ∧
    (Get ctx = "" → Get (Append ctx c) = c) ∧
    Append ctx "" = ctx ∧
    Get (Set ctx t) = t := by
  refine ⟨?_, ?_, ?_, rfl⟩
  · intro hp hc
    have h1 : ¬ c.length = 0 := fun h => hc ((length_zero_iff c).mp h)
    have h2 : ¬ (Get ctx).length = 0 := fun h => hp ((length_zero_iff _).mp h)
    unfold Append
    rw [if_neg h1]
    simp only [if_neg h2]
    rfl
  · intro hp
    unfold Append
    by_cases h1 : c.length = 0
    · rw [if_pos h1, hp, (length_zero_iff c).mp h1]
    · rw [if_neg h1]
      have h2 : (Get ctx).length = 0 := by rw [hp]; rfl
      simp only [if_pos h2]
      rfl
  · unfold Append
    rw [if_pos (show "".length = 0 from rfl)]

theorem Append_Get_witness :
    Get (Append (.withString "a") "b") = Get (.withString "a") ++ "," ++ "b" ∧
    Get (Append .background "b") = "b" :=
  ⟨(Append_Get (.withString "a") "b" "t").1 (by decide) (by decide),
    (Append_Get .background "b" "t").2.1 rfl⟩

end trace

namespace storage

/-! ## `SetNodes`: no index out of range, and the range that is kept -/

/-- C29. For a self ordinal `s >= 0` and every list `L`, the empty list included,
the sentinel `-1` that `SetNodes` prepends does not reach `s`, and `SetNodes`
returns a range: it reads no index out of range and does not panic. -/
theorem SetNodes_no_panic (s : Int) (dns L : List Int) (hs : 0 ≤ s) :
    ¬ ((-1 : Int) ≥ s) ∧ ∃ ns, SetNodes s dns L = some ns := by
  refine ⟨by omega, ?_⟩
  rw [SetNodes_rangeOf s dns L hs]
  cases rangeOf s (-1) (if L.length = 0 then [s] else L) with
  | none => exact ⟨dns, rfl⟩
  | some p => exact ⟨[p.1, p.2], rfl⟩

theorem SetNodes_no_panic_witness :
    ¬ ((-1 : Int) ≥ 0) ∧ ∃ ns, SetNodes 0 [-1, MaxInt64] [] = some ns :=
  SetNodes_no_panic 0 [-1, MaxInt64] [] (by decide)

theorem rangeOf_none_of_lt (n : Int) : ∀ (L : List Int) (prev : Int),
    (∀ x ∈ L, x < n) → rangeOf n prev L = none := by
  intro L
  induction L with
  | nil => intro prev _; rfl
  | cons x xs ih =>
    intro prev h
    have hx : ¬ (x ≥ n) := by
      have := h x (List.mem_cons_self _ _)
      omega
    rw [rangeOf, if_neg hx]
    exact ih x (fun y hy => h y (List.mem_cons_of_mem _ hy))

/-- C30. For a non-empty list `L` all of whose elements are smaller than the self
ordinal, the membership event `SetNodes(L)` leaves the stored range `d.ns` as it
was; and for a self ordinal `>= 0` the call returns normally with that range. -/
theorem SetNodes_keeps_range (d : Storage) (w : World) (L : List Int) (hne : L ≠ [])
    (hall : ∀ x ∈ L, x < d.cfg.Node) :
    (step d w (.setNodes L)).ns = w.ns ∧
    (0 ≤ d.cfg.Node → SetNodes d.cfg.Node w.ns L = some w.ns) := by
  have hlen : ¬ (L.length = 0) := fun h => hne (List.length_eq_zero.mp h)
  have hpos : 0 ≤ d.cfg.Node → SetNodes d.cfg.Node w.ns L = some w.ns := by
    intro h0
    rw [SetNodes_rangeOf d.cfg.Node w.ns L h0, if_neg hlen,
      rangeOf_none_of_lt d.cfg.Node L (-1) hall]
  refine ⟨?_, hpos⟩
  by_cases h0 : 0 ≤ d.cfg.Node
  · simp only [step, hpos h0]
  · have hs : ((-1 : Int) ≥ d.cfg.Node) := by omega
    have hnone : SetNodes d.cfg.Node w.ns L = none := by
      unfold SetNodes
      simp only [List.length_cons]
      rw [setNodesLoop]
      simp [hs, sliceIndex]
    simp only [step, hnone]

theorem SetNodes_keeps_range_witness :
    (step { testStorage with cfg := { testConfig with Node := 3 } } testWorld
      (.setNodes [0, 1, 2])).ns = testWorld.ns ∧
    (0 ≤ ({ testStorage with cfg := { testConfig with Node := 3 } } : Storage).cfg.Node →
      SetNodes ({ testStorage with cfg := { testConfig with Node := 3 } } : Storage).cfg.Node
        testWorld.ns [0, 1, 2] = some testWorld.ns) :=
  SetNodes_keeps_range { testStorage with cfg := { testConfig with Node := 3 } } testWorld
    [0, 1, 2] (by decide) (by decide)

end storage

namespace timingwheel

/-! ## `timingwheel.New`: the lower bound of the tick -/

theorem tdiv_million_nonpos (tick : Int) (h : tick < 1000000) :
    Int.tdiv tick 1000000 ≤ 0 := by
  by_cases h0 : 0 ≤ tick
  · rw [Int.tdiv_eq_ediv h0 (by decide)]
    omega
  · obtain ⟨n, hn, rfl⟩ : ∃ n : Int, 0 < n ∧ tick = -n := ⟨-tick, by omega, by omega⟩
    rw [Int.neg_tdiv, Int.tdiv_eq_ediv (show (0 : Int) ≤ n by omega) (by decide)]
    have : 0 ≤ n / 1000000 := Int.ediv_nonneg (by omega) (by decide)
    omega

theorem tdiv_million_pos (tick : Int) (h : 1000000 ≤ tick) :
    Int.tdiv tick 1000000 = tick / 1000000 ∧ 1 ≤ tick / 1000000 := by
  rw [Int.tdiv_eq_ediv (by omega) (by decide)]
  omega

theorem tdiv_Millisecond_nonpos (tick : Int) (h : tick < Millisecond) :
    Int.tdiv tick Millisecond ≤ 0 := tdiv_million_nonpos tick h

theorem tdiv_Millisecond_pos (tick : Int) (h : Millisecond ≤ tick) :
    Int.tdiv tick Millisecond = tick / Millisecond ∧ 1 ≤ tick / Millisecond :=
  tdiv_million_pos tick h

/-- C24. `timingwheel.New` panics, returning no wheel, for every tick below one
millisecond, zero and negative ticks included; for every tick of at least one
millisecond (the worker pool being created and the wheel size not negative) it
returns the wheel, whose tick is the whole number of milliseconds of the
argument and whose interval is `tick * wheelSize`, reduced to 64 bits. -/
theorem New_tick_bound (truncate : Int → Int → Int) (tick : Duration)
    (wheelSize startMs : Int) (pool : Option String) :
    (tick < Millisecond →
      New truncate tick wheelSize startMs pool =
        .error (.panic "tick must be greater than or equal to 1ms")) ∧
    (Millisecond ≤ tick → pool = none → 0 ≤ wheelSize →
      ∃ tw, New truncate tick wheelSize startMs pool = .ok ([tw], { items := [] }) ∧
        tw.tick = tick / Millisecond ∧ 1 ≤ tw.tick ∧ tw.wheelSize = wheelSize ∧
        tw.interval = wrapInt64 (tw.tick * wheelSize) ∧
        (tw.tick * wheelSize ≤ MaxInt64 → tw.interval = tw.tick * wheelSize)) := by
  constructor
  · intro h
    unfold New
    simp only [if_pos (tdiv_Millisecond_nonpos tick h)]
  · intro h hp hw
    obtain ⟨e, h1⟩ := tdiv_Millisecond_pos tick h
    have hn : ¬ (tick / Millisecond ≤ 0) := not_le.mpr (lt_of_lt_of_le Int.zero_lt_one h1)
    have hw1 : ¬ (wheelSize < 0) := by omega
    refine ⟨{ tick := tick / Millisecond, wheelSize := wheelSize,
              currentTime := truncate startMs (tick / Millisecond),
              interval := wrapInt64 (tick / Millisecond * wheelSize),
              buckets := List.replicate wheelSize.toNat NewBucket }, ?_, rfl, h1, rfl, rfl, ?_⟩
    · unfold New
      simp only [e, if_neg hn, hp, newTimingWheel, if_neg hw1]
    · intro hle
      apply storage.wrapInt64_id
      · have h0 : (0 : Int) ≤ tick / Millisecond := le_trans (by decide) h1
        have h2 : (0 : Int) ≤ tick / Millisecond * wheelSize := Int.mul_nonneg h0 hw
        exact le_trans (by decide) h2
      · exact hle

theorem New_tick_bound_witness :
    New roundDown 999999 60 1700000000123 none =
      .error (.panic "tick must be greater than or equal to 1ms") ∧
    ∃ tw, New roundDown Second 60 1700000000123 none = .ok ([tw], { items := [] }) ∧
      tw.tick = Second / Millisecond ∧ 1 ≤ tw.tick ∧ tw.wheelSize = 60 ∧
      tw.interval = wrapInt64 (tw.tick * 60) ∧
      (tw.tick * 60 ≤ MaxInt64 → tw.interval = tw.tick * 60) :=
  ⟨(New_tick_bound roundDown 999999 60 1700000000123 none).1 (by decide),
    (New_tick_bound roundDown Second 60 1700000000123 none).2 (by decide) rfl (by decide)⟩

end timingwheel

namespace timingwheel

/-! ## `TimingWheel.add`: the placement of a timer -/

theorem wrap_id (x : Int) (h1 : 0 ≤ x) (h2 : x ≤ MaxInt64) : wrapInt64 x = x :=
  storage.wrapInt64_id x (le_trans (by decide) h1) h2

/-- The arithmetic of the second branch of `add` on a sound level: the quotient
and the remainder are those of the non-negative integers, nothing wraps, and the
index is within `buckets`. -/
theorem slot_arith (tw : TimingWheel) (e : Int) (hs : tw.Sound)
    (h1 : tw.currentTime + tw.tick ≤ e) (h2 : e < tw.currentTime + tw.tick * tw.wheelSize) :
    wrapInt64 (Int.tdiv e tw.tick) = e / tw.tick ∧
    Int.tmod (e / tw.tick) tw.wheelSize = e / tw.tick % tw.wheelSize ∧
    wrapInt64 (e / tw.tick * tw.tick) = e / tw.tick * tw.tick ∧
    0 ≤ e / tw.tick % tw.wheelSize ∧
    (e / tw.tick % tw.wheelSize).toNat < tw.buckets.length ∧
    tw.tick ≠ 0 ∧ tw.wheelSize ≠ 0 := by
  obtain ⟨ht, hw, hi, hc, hct, hci, hb⟩ := hs
  have he : 0 ≤ e := by omega
  have ht0 : 0 < tw.tick := by omega
  have hwpos : 0 < tw.wheelSize := by
    by_contra hn
    have hw0 : tw.wheelSize = 0 := by omega
    rw [hw0, Int.mul_zero] at h2
    omega
  have hemax : e ≤ MaxInt64 := by rw [hi] at hci; omega
  have hv0 : 0 ≤ e / tw.tick := Int.ediv_nonneg he (by omega)
  have hvle : e / tw.tick ≤ e := Int.ediv_le_self _ he
  have hmul : e / tw.tick * tw.tick ≤ e := Int.ediv_mul_le e (by omega)
  have hm0 : 0 ≤ e / tw.tick % tw.wheelSize := Int.emod_nonneg _ (by omega)
  have hmlt : e / tw.tick % tw.wheelSize < tw.wheelSize := Int.emod_lt_of_pos _ hwpos
  refine ⟨?_, Int.tmod_eq_emod hv0 hw, ?_, hm0, ?_, by omega, by omega⟩
  · rw [Int.tdiv_eq_ediv he (by omega)]
    exact wrap_id _ hv0 (le_trans hvle hemax)
  · exact wrap_id _ (Int.mul_nonneg hv0 (by omega)) (le_trans hmul hemax)
  · rw [hb]; omega

theorem add_expired (truncate : Int → Int → Int) (fuel : Nat) (tw : TimingWheel)
    (over : List TimingWheel) (q : DelayQueue) (t : Timer) (hs : tw.Sound)
    (h : t.expiration < tw.currentTime + tw.tick) :
    add truncate (fuel + 1) (tw :: over) q t = some (tw :: over, q, false) := by
  have hw1 : wrapInt64 (tw.currentTime + tw.tick) = tw.currentTime + tw.tick :=
    wrap_id (tw.currentTime + tw.tick) (Int.add_nonneg hs.2.2.2.1 (le_trans (by decide) hs.1))
      hs.2.2.2.2.1
  simp only [add, hw1, if_pos h]

theorem add_slot (truncate : Int → Int → Int) (fuel : Nat) (tw : TimingWheel)
    (over : List TimingWheel) (q : DelayQueue) (t : Timer) (hs : tw.Sound)
    (h1 : tw.currentTime + tw.tick ≤ t.expiration)
    (h2 : t.expiration < tw.currentTime + tw.tick * tw.wheelSize) :
    ∃ b, tw.buckets[(t.expiration / tw.tick % tw.wheelSize).toNat]? = some b ∧
      add truncate (fuel + 1) (tw :: over) q t =
        some (TimingWheel.mk tw.tick tw.wheelSize tw.interval tw.currentTime
                (tw.buckets.set (t.expiration / tw.tick % tw.wheelSize).toNat
                  (Bucket.mk (t.expiration / tw.tick * tw.tick) (b.timers ++ [t]))) :: over,
              (if b.expiration ≠ t.expiration / tw.tick * tw.tick then
                q.Offer tw.tick (t.expiration / tw.tick % tw.wheelSize).toNat
                  (t.expiration / tw.tick * tw.tick)
               else q),
              true) := by
  obtain ⟨a1, a2, a3, a4, a5, a6, a7⟩ := slot_arith tw t.expiration hs h1 h2
  have hw1 : wrapInt64 (tw.currentTime + tw.tick) = tw.currentTime + tw.tick :=
    wrap_id (tw.currentTime + tw.tick) (Int.add_nonneg hs.2.2.2.1 (le_trans (by decide) hs.1))
      hs.2.2.2.2.1
  have hw2 : wrapInt64 (tw.currentTime + tw.interval) =
      tw.currentTime + tw.tick * tw.wheelSize := by
    have h0 : 0 ≤ tw.currentTime + tw.interval := by
      rw [hs.2.2.1]
      exact Int.add_nonneg hs.2.2.2.1 (Int.mul_nonneg (le_trans (by decide) hs.1) hs.2.1)
    rw [wrap_id (tw.currentTime + tw.interval) h0 hs.2.2.2.2.2.1, hs.2.2.1]
  have hn1 : ¬ (t.expiration < tw.currentTime + tw.tick) := by omega
  obtain ⟨b, hb⟩ : ∃ b, tw.buckets[(t.expiration / tw.tick % tw.wheelSize).toNat]? = some b :=
    ⟨_, List.getElem?_eq_getElem a5⟩
  have hsl : sliceIndex tw.buckets (t.expiration / tw.tick % tw.wheelSize) = some b := by
    unfold sliceIndex
    rw [if_neg (by omega), hb]
  refine ⟨b, hb, ?_⟩
  simp only [add, hw1, hw2, if_neg hn1, if_pos h2, if_neg a6, if_neg a7, a1, a2, a3, hsl,
    Bucket.Add, Bucket.SetExpiration, Bucket.Expiration, decide_eq_true_eq]

theorem add_overflow (truncate : Int → Int → Int) (fuel : Nat) (tw : TimingWheel)
    (over : List TimingWheel) (q : DelayQueue) (t : Timer) (hs : tw.Sound)
    (hch : Chained (tw :: over)) (hw : 1 ≤ tw.wheelSize)
    (h3 : tw.currentTime + tw.tick * tw.wheelSize ≤ t.expiration) :
    ∃ o rest, (over = o :: rest ∨ (over = [] ∧ rest = [] ∧
        newTimingWheel truncate tw.interval tw.wheelSize tw.currentTime = some o)) ∧
      o.tick = tw.tick * tw.wheelSize ∧ o.wheelSize = tw.wheelSize ∧
      add truncate (fuel + 1) (tw :: over) q t =
        (add truncate fuel (o :: rest) q t).map (fun r => (tw :: r.1, r.2.1, r.2.2)) := by
  have hw1 : wrapInt64 (tw.currentTime + tw.tick) = tw.currentTime + tw.tick :=
    wrap_id (tw.currentTime + tw.tick) (Int.add_nonneg hs.2.2.2.1 (le_trans (by decide) hs.1))
      hs.2.2.2.2.1
  have hw2 : wrapInt64 (tw.currentTime + tw.interval) =
      tw.currentTime + tw.tick * tw.wheelSize := by
    have h0 : 0 ≤ tw.currentTime + tw.interval := by
      rw [hs.2.2.1]
      exact Int.add_nonneg hs.2.2.2.1 (Int.mul_nonneg (le_trans (by decide) hs.1) hs.2.1)
    rw [wrap_id (tw.currentTime + tw.interval) h0 hs.2.2.2.2.2.1, hs.2.2.1]
  have hmul : tw.tick ≤ tw.tick * tw.wheelSize := by
    have := Int.mul_le_mul_of_nonneg_left hw (le_trans (by decide) hs.1 : (0 : Int) ≤ tw.tick)
    rwa [Int.mul_one] at this
  have hn1 : ¬ (t.expiration < tw.currentTime + tw.tick) := by omega
  have hn2 : ¬ (t.expiration < tw.currentTime + tw.tick * tw.wheelSize) := by omega
  cases over with
  | nil =>
    have hneg : ¬ (tw.wheelSize < 0) := by omega
    refine ⟨{ tick := tw.interval, wheelSize := tw.wheelSize,
              currentTime := truncate tw.currentTime tw.interval,
              interval := wrapInt64 (tw.interval * tw.wheelSize),
              buckets := List.replicate tw.wheelSize.toNat NewBucket }, [], Or.inr ⟨rfl, rfl, ?_⟩,
      hs.2.2.1, rfl, ?_⟩
    · simp only [newTimingWheel, if_neg hneg]
    · simp only [add, hw1, hw2, if_neg hn1, if_neg hn2, newTimingWheel, if_neg hneg]
      cases add truncate fuel _ q t <;> rfl
  | cons o rest =>
    refine ⟨o, rest, Or.inl rfl, ?_, hch.2.1, ?_⟩
    · rw [hch.1, hs.2.2.1]
    · simp only [add, hw1, hw2, if_neg hn1, if_neg hn2]
      cases add truncate fuel (o :: rest) q t <;> rfl

theorem smallWheel_sound : smallWheel.Sound := by
  unfold TimingWheel.Sound smallWheel MaxInt64
  decide

/-- C26. On a level with tick `t >= 1`, wheel size `w` and current time `c >= 0`
whose 64-bit arithmetic is exact, `add` of a timer with expiration `e` returns
false and stores nothing when `e < c + t`; when `c + t <= e < c + t*w` it
appends the timer to the bucket with index `(e / t) mod w`, sets the expiration
of that bucket to `(e / t) * t`, offers the bucket to the queue if that value
differs from the stored one, and returns true; and when `e >= c + t*w` (for
`w >= 1`) it is `add` on the overflow wheel, created if there is none, whose
tick is `t*w` and whose wheel size is `w`. -/
theorem add_placement (truncate : Int → Int → Int) (fuel : Nat) (tw : TimingWheel)
    (over : List TimingWheel) (q : DelayQueue) (t : Timer) (hs : tw.Sound)
    (hch : Chained (tw :: over)) :
    (t.expiration < tw.currentTime + tw.tick →
      add truncate (fuel + 1) (tw :: over) q t = some (tw :: over, q, false)) ∧
    (tw.currentTime + tw.tick ≤ t.expiration →
      t.expiration < tw.currentTime + tw.tick * tw.wheelSize →
      ∃ b, tw.buckets[(t.expiration / tw.tick % tw.wheelSize).toNat]? = some b ∧
        add truncate (fuel + 1) (tw :: over) q t =
          some (TimingWheel.mk tw.tick tw.wheelSize tw.interval tw.currentTime
                  (tw.buckets.set (t.expiration / tw.tick % tw.wheelSize).toNat
                    (Bucket.mk (t.expiration / tw.tick * tw.tick) (b.timers ++ [t]))) :: over,
                (if b.expiration ≠ t.expiration / tw.tick * tw.tick then
                  q.Offer tw.tick (t.expiration / tw.tick % tw.wheelSize).toNat
                    (t.expiration / tw.tick * tw.tick)
                 else q),
                true)) ∧
    (1 ≤ tw.wheelSize → tw.currentTime + tw.tick * tw.wheelSize ≤ t.expiration →
      ∃ o rest, (over = o :: rest ∨ (over = [] ∧ rest = [] ∧
          newTimingWheel truncate tw.interval tw.wheelSize tw.currentTime = some o)) ∧
        o.tick = tw.tick * tw.wheelSize ∧ o.wheelSize = tw.wheelSize ∧
        add truncate (fuel + 1) (tw :: over) q t =
          (add truncate fuel (o :: rest) q t).map (fun r => (tw :: r.1, r.2.1, r.2.2))) :=
  ⟨fun h => add_expired truncate fuel tw over q t hs h,
    fun h1 h2 => add_slot truncate fuel tw over q t hs h1 h2,
    fun hw h3 => add_overflow truncate fuel tw over q t hs hch hw h3⟩

theorem add_placement_witness :
    add roundDown (4 + 1) [smallWheel] { items := [] } { expiration := 10, id := 0 } =
      some ([smallWheel], { items := [] }, false) ∧
    (∃ b, smallWheel.buckets[((12 : Int) / smallWheel.tick % smallWheel.wheelSize).toNat]? =
        some b ∧
      add roundDown (4 + 1) [smallWheel] { items := [] } { expiration := 12, id := 0 } =
        some ([TimingWheel.mk smallWheel.tick smallWheel.wheelSize smallWheel.interval
                smallWheel.currentTime
                (smallWheel.buckets.set ((12 : Int) / smallWheel.tick % smallWheel.wheelSize).toNat
                  (Bucket.mk ((12 : Int) / smallWheel.tick * smallWheel.tick)
                    (b.timers ++ [{ expiration := 12, id := 0 }])))],
              (if b.expiration ≠ (12 : Int) / smallWheel.tick * smallWheel.tick then
                DelayQueue.Offer { items := [] } smallWheel.tick
                  ((12 : Int) / smallWheel.tick % smallWheel.wheelSize).toNat
                  ((12 : Int) / smallWheel.tick * smallWheel.tick)
               else { items := [] }),
              true)) ∧
    (∃ o rest, (([] : List TimingWheel) = o :: rest ∨ (([] : List TimingWheel) = [] ∧ rest = [] ∧
        newTimingWheel roundDown smallWheel.interval smallWheel.wheelSize smallWheel.currentTime =
          some o)) ∧
      o.tick = smallWheel.tick * smallWheel.wheelSize ∧ o.wheelSize = smallWheel.wheelSize ∧
      add roundDown (4 + 1) [smallWheel] { items := [] } { expiration := 14, id := 0 } =
        (add roundDown 4 (o :: rest) { items := [] } { expiration := 14, id := 0 }).map
          (fun r => (smallWheel :: r.1, r.2.1, r.2.2))) :=
  ⟨(add_placement roundDown 4 smallWheel [] { items := [] } { expiration := 10, id := 0 }
      smallWheel_sound trivial).1 (by decide),
    (add_placement roundDown 4 smallWheel [] { items := [] } { expiration := 12, id := 0 }
      smallWheel_sound trivial).2.1 (by decide) (by decide),
    (add_placement roundDown 4 smallWheel [] { items := [] } { expiration := 14, id := 0 }
      smallWheel_sound trivial).2.2 (by decide) (by decide)⟩

end timingwheel

namespace timingwheel

/-! ## `TimingWheel.add`: one offer per bucket and cycle -/

/-- Two expirations of one cycle `[c + t, c + t*w)` whose quotients by `t` agree
modulo `w` have the same quotient. -/
theorem same_cycle_quotient (c t w e1 e2 : Int) (ht : 1 ≤ t)
    (h1 : c + t ≤ e1) (h1u : e1 < c + t * w) (h2 : c + t ≤ e2) (h2u : e2 < c + t * w)
    (hm : e1 / t % w = e2 / t % w) : e1 / t = e2 / t := by
  have ht0 : 0 < t := by omega
  have hc := Int.emod_add_ediv c t
  have hr0 : 0 ≤ c % t := Int.emod_nonneg c (by omega)
  have hrt : c % t < t := Int.emod_lt_of_pos c ht0
  have lower : ∀ e, c + t ≤ e → c / t + 1 ≤ e / t := by
    intro e he
    apply Int.le_ediv_of_mul_le ht0
    have : (c / t + 1) * t = t * (c / t) + t := by ring
    rw [this]
    omega
  have upper : ∀ e, e < c + t * w → e / t < c / t + 1 + w := by
    intro e he
    apply Int.ediv_lt_of_lt_mul ht0
    have : (c / t + 1 + w) * t = t * (c / t) + t + t * w := by ring
    rw [this]
    omega
  have l1 := lower e1 h1
  have l2 := lower e2 h2
  have u1 := upper e1 h1u
  have u2 := upper e2 h2u
  have hdvd : w ∣ e1 / t - e2 / t := Int.dvd_of_emod_eq_zero
    (Int.emod_eq_emod_iff_emod_sub_eq_zero.mp hm)
  have hw : 0 < w := by omega
  have habs : (e1 / t - e2 / t).natAbs < w.natAbs := by omega
  have := Int.eq_zero_of_dvd_of_natAbs_lt_natAbs hdvd habs
  omega

/-- C27. On a level with tick `t >= 1` and current time `c >= 0` whose 64-bit
arithmetic is exact, two expirations in `[c + t, c + t*w)` that map to the same
bucket index give the same bucket expiration; the second of the two inserts
appends its timer, leaves the expiration the first insert stored in the bucket
as it is, and leaves the delay queue as it is: the bucket is not offered again. -/
theorem no_reenqueue_within_cycle (truncate : Int → Int → Int) (fuel : Nat) (tw : TimingWheel)
    (over : List TimingWheel) (q : DelayQueue) (t1 t2 : Timer) (hs : tw.Sound)
    (h1 : tw.currentTime + tw.tick ≤ t1.expiration)
    (h1u : t1.expiration < tw.currentTime + tw.tick * tw.wheelSize)
    (h2 : tw.currentTime + tw.tick ≤ t2.expiration)
    (h2u : t2.expiration < tw.currentTime + tw.tick * tw.wheelSize)
    (hm : t1.expiration / tw.tick % tw.wheelSize = t2.expiration / tw.tick % tw.wheelSize) :
    t1.expiration / tw.tick * tw.tick = t2.expiration / tw.tick * tw.tick ∧
    ∃ tw1 q1 tw2 b1 b2,
      add truncate (fuel + 1) (tw :: over) q t1 = some (tw1 :: over, q1, true) ∧
      add truncate (fuel + 1) (tw1 :: over) q1 t2 = some (tw2 :: over, q1, true) ∧
      tw1.buckets[(t1.expiration / tw.tick % tw.wheelSize).toNat]? = some b1 ∧
      tw2.buckets[(t1.expiration / tw.tick % tw.wheelSize).toNat]? = some b2 ∧
      b1.expiration = t1.expiration / tw.tick * tw.tick ∧
      b2.expiration = b1.expiration ∧ b2.timers = b1.timers ++ [t2] := by
  have hq := same_cycle_quotient tw.currentTime tw.tick tw.wheelSize t1.expiration t2.expiration
    hs.1 h1 h1u h2 h2u hm
  obtain ⟨_, _, _, _, hlen, _, _⟩ := slot_arith tw t1.expiration hs h1 h1u
  obtain ⟨b, hb, hadd1⟩ := add_slot truncate fuel tw over q t1 hs h1 h1u
  have hs1 : (TimingWheel.mk tw.tick tw.wheelSize tw.interval tw.currentTime
      (tw.buckets.set (t1.expiration / tw.tick % tw.wheelSize).toNat
        (Bucket.mk (t1.expiration / tw.tick * tw.tick) (b.timers ++ [t1])))).Sound := by
    obtain ⟨a1, a2, a3, a4, a5, a6, a7⟩ := hs
    exact ⟨a1, a2, a3, a4, a5, a6, by simpa using a7⟩
  obtain ⟨b', hb', hadd2⟩ := add_slot truncate fuel _ over
    (if b.expiration ≠ t1.expiration / tw.tick * tw.tick then
      q.Offer tw.tick (t1.expiration / tw.tick % tw.wheelSize).toNat
        (t1.expiration / tw.tick * tw.tick)
     else q) t2 hs1 h2 h2u
  have hget : (tw.buckets.set (t1.expiration / tw.tick % tw.wheelSize).toNat
      (Bucket.mk (t1.expiration / tw.tick * tw.tick) (b.timers ++ [t1])))[
        (t1.expiration / tw.tick % tw.wheelSize).toNat]? =
      some (Bucket.mk (t1.expiration / tw.tick * tw.tick) (b.timers ++ [t1])) := by
    simp [List.getElem?_set, hlen]
  simp only [← hq] at hb' hadd2
  rw [hget] at hb'
  have hbe : b' = Bucket.mk (t1.expiration / tw.tick * tw.tick) (b.timers ++ [t1]) :=
    (Option.some.inj hb').symm
  subst hbe
  simp only [ne_eq, not_true_eq_false, if_false] at hadd2
  have hget2 : ((tw.buckets.set (t1.expiration / tw.tick % tw.wheelSize).toNat
      (Bucket.mk (t1.expiration / tw.tick * tw.tick) (b.timers ++ [t1]))).set
        (t1.expiration / tw.tick % tw.wheelSize).toNat
        (Bucket.mk (t1.expiration / tw.tick * tw.tick) (b.timers ++ [t1] ++ [t2])))[
          (t1.expiration / tw.tick % tw.wheelSize).toNat]? =
      some (Bucket.mk (t1.expiration / tw.tick * tw.tick) (b.timers ++ [t1] ++ [t2])) := by
    simp [List.getElem?_set, hlen]
  exact ⟨by rw [hq], _, _, _, _, _, hadd1, hadd2, hget, hget2, rfl, rfl, rfl⟩

theorem coarseWheel_sound : coarseWheel.Sound := by
  unfold TimingWheel.Sound coarseWheel MaxInt64
  decide

theorem no_reenqueue_within_cycle_witness :
    (123 : Int) / coarseWheel.tick * coarseWheel.tick =
      (127 : Int) / coarseWheel.tick * coarseWheel.tick ∧
    ∃ tw1 q1 tw2 b1 b2,
      add roundDown (0 + 1) [coarseWheel] { items := [] } { expiration := 123, id := 1 } =
        some ([tw1], q1, true) ∧
      add roundDown (0 + 1) [tw1] q1 { expiration := 127, id := 2 } = some ([tw2], q1, true) ∧
      tw1.buckets[((123 : Int) / coarseWheel.tick % coarseWheel.wheelSize).toNat]? = some b1 ∧
      tw2.buckets[((123 : Int) / coarseWheel.tick % coarseWheel.wheelSize).toNat]? = some b2 ∧
      b1.expiration = (123 : Int) / coarseWheel.tick * coarseWheel.tick ∧
      b2.expiration = b1.expiration ∧
      b2.timers = b1.timers ++ [{ expiration := 127, id := 2 }] :=
  no_reenqueue_within_cycle roundDown 0 coarseWheel [] { items := [] }
    { expiration := 123, id := 1 } { expiration := 127, id := 2 } coarseWheel_sound
    (by decide) (by decide) (by decide) (by decide) (by decide)

end timingwheel

namespace timingwheel

/-! ## `TimingWheel.add` terminates -/

theorem newTimingWheel_sound (truncate : Int → Int → Int)
    (htr : ∀ x m, 0 ≤ x → 1 ≤ m → 0 ≤ truncate x m ∧ truncate x m ≤ x)
    (tw o : TimingWheel) (C B : Int) (hs : tw.Sound) (hw : 1 ≤ tw.wheelSize)
    (hC : tw.currentTime ≤ C) (hB : tw.tick * tw.wheelSize * tw.wheelSize ≤ B)
    (hover : C + B ≤ MaxInt64)
    (ho : newTimingWheel truncate tw.interval tw.wheelSize tw.currentTime = some o) :
    o.Sound ∧ o.currentTime ≤ C := by
  obtain ⟨a1, a2, a3, a4, a5, a6, a7⟩ := hs
  have hneg : ¬ (tw.wheelSize < 0) := by omega
  simp only [newTimingWheel, if_neg hneg, Option.some.injEq] at ho
  subst ho
  have ht0 : (0 : Int) ≤ tw.tick := by omega
  have hp1 : tw.tick ≤ tw.tick * tw.wheelSize := by
    have := Int.mul_le_mul_of_nonneg_left hw ht0
    rwa [Int.mul_one] at this
  have hp2 : tw.tick * tw.wheelSize ≤ tw.tick * tw.wheelSize * tw.wheelSize := by
    have := Int.mul_le_mul_of_nonneg_left hw (le_trans ht0 hp1)
    rwa [Int.mul_one] at this
  have hi1 : 1 ≤ tw.interval := by rw [a3]; omega
  obtain ⟨c0, c1⟩ := htr tw.currentTime tw.interval a4 hi1
  have hI2 : tw.interval * tw.wheelSize = tw.tick * tw.wheelSize * tw.wheelSize := by rw [a3]
  have hwr : wrapInt64 (tw.interval * tw.wheelSize) = tw.interval * tw.wheelSize := by
    apply wrap_id
    · omega
    · omega
  refine ⟨⟨hi1, a2, hwr, c0, ?_, ?_, ?_⟩, ?_⟩
  · show truncate tw.currentTime tw.interval + tw.interval ≤ MaxInt64
    omega
  · show truncate tw.currentTime tw.interval + wrapInt64 (tw.interval * tw.wheelSize) ≤ MaxInt64
    rw [hwr]; omega
  · simp
  · show truncate tw.currentTime tw.interval ≤ C
    omega

theorem add_total (truncate : Int → Int → Int)
    (htr : ∀ x m, 0 ≤ x → 1 ≤ m → 0 ≤ truncate x m ∧ truncate x m ≤ x)
    (q : DelayQueue) (t : Timer) (C : Int) :
    ∀ (K : Nat) (tw : TimingWheel) (over : List TimingWheel), 1 ≤ tw.wheelSize →
      (∀ l ∈ tw :: over, l.Sound ∧ l.currentTime ≤ C) → Chained (tw :: over) →
      t.expiration < tw.tick * tw.wheelSize ^ (K + 1) →
      C + tw.tick * tw.wheelSize ^ (K + 1) ≤ MaxInt64 →
      ∃ ws1 q1 placed, add truncate (K + 1) (tw :: over) q t = some (ws1, q1, placed) := by
  intro K
  induction K with
  | zero =>
    intro tw over hw hall hch he hover
    obtain ⟨hs, hC⟩ := hall tw (List.mem_cons_self _ _)
    rw [zero_add, pow_one] at he
    by_cases h1 : t.expiration < tw.currentTime + tw.tick
    · exact ⟨_, _, _, add_expired truncate 0 tw over q t hs h1⟩
    · have h2 : t.expiration < tw.currentTime + tw.tick * tw.wheelSize := by
        have := hs.2.2.2.1
        omega
      obtain ⟨b, _, hadd⟩ := add_slot truncate 0 tw over q t hs (by omega) h2
      exact ⟨_, _, _, hadd⟩
  | succ K ih =>
    intro tw over hw hall hch he hover
    obtain ⟨hs, hC⟩ := hall tw (List.mem_cons_self _ _)
    by_cases h1 : t.expiration < tw.currentTime + tw.tick
    · exact ⟨_, _, _, add_expired truncate (K + 1) tw over q t hs h1⟩
    · by_cases h2 : t.expiration < tw.currentTime + tw.tick * tw.wheelSize
      · obtain ⟨b, _, hadd⟩ := add_slot truncate (K + 1) tw over q t hs (by omega) h2
        exact ⟨_, _, _, hadd⟩
      · obtain ⟨o, rest, hor, hot, howz, hadd⟩ :=
          add_overflow truncate (K + 1) tw over q t hs hch hw (by omega)
        have hpow : tw.tick * tw.wheelSize ^ (K + 1 + 1) =
            tw.tick * tw.wheelSize * tw.wheelSize ^ (K + 1) := by ring
        have hone : (1 : Int) ≤ tw.wheelSize ^ K := one_le_pow₀ hw
        have ht0 : (0 : Int) ≤ tw.tick := le_trans (by decide) hs.1
        have hw0 : (0 : Int) ≤ tw.wheelSize := by omega
        have hB : tw.tick * tw.wheelSize * tw.wheelSize ≤
            tw.tick * tw.wheelSize * tw.wheelSize ^ (K + 1) := by
          apply Int.mul_le_mul_of_nonneg_left _ (Int.mul_nonneg ht0 hw0)
          have := Int.mul_le_mul_of_nonneg_right hone hw0
          rw [Int.one_mul] at this
          rw [pow_succ]
          exact this
        have hall2 : ∀ l ∈ o :: rest, l.Sound ∧ l.currentTime ≤ C := by
          rcases hor with e | ⟨_, e2, hnew⟩
          · intro l hl
            exact hall l (by rw [e]; exact List.mem_cons_of_mem _ hl)
          · intro l hl
            rw [e2, List.mem_singleton] at hl
            rw [hl]
            exact newTimingWheel_sound truncate htr tw o C _ hs hw hC hB
              (by rw [← hpow]; exact hover) hnew
        have hch2 : Chained (o :: rest) := by
          rcases hor with e | ⟨_, e2, _⟩
          · rw [e] at hch; exact hch.2.2
          · rw [e2]; trivial
        obtain ⟨ws1, q1, placed, hres⟩ := ih o rest (by rw [howz]; exact hw) hall2 hch2
          (by rw [hot, howz, ← hpow]; exact he) (by rw [hot, howz, ← hpow]; exact hover)
        rw [hres] at hadd
        exact ⟨_, _, _, hadd⟩

theorem roundDown_bounds (x m : Int) (hx : 0 ≤ x) (hm : 1 ≤ m) :
    0 ≤ roundDown x m ∧ roundDown x m ≤ x := by
  unfold roundDown
  rw [if_neg (by omega)]
  have h1 := Int.emod_nonneg x (show m ≠ 0 by omega)
  have h2 := Int.emod_add_ediv x m
  have h3 : 0 ≤ m * (x / m) := Int.mul_nonneg (by omega) (Int.ediv_nonneg hx (by omega))
  omega

theorem level_exists (tick w e : Int) (ht : 1 ≤ tick) (hw : 2 ≤ w) :
    ∃ K : Nat, e < tick * w ^ (K + 1) := by
  refine ⟨e.toNat, ?_⟩
  have h1 : e ≤ (e.toNat : Int) := Int.self_le_toNat e
  have h2 : ((e.toNat : Nat) : Int) < (2 : Int) ^ (e.toNat + 1) := by
    have := Nat.lt_two_pow (e.toNat + 1)
    have h3 : ((e.toNat + 1 : Nat) : Int) < ((2 ^ (e.toNat + 1) : Nat) : Int) := by
      exact_mod_cast this
    push_cast at h3
    omega
  have h4 : (2 : Int) ^ (e.toNat + 1) ≤ w ^ (e.toNat + 1) :=
    pow_le_pow_left₀ (by decide) hw _
  have h5 : (0 : Int) ≤ w ^ (e.toNat + 1) := le_trans (by positivity) h4
  have h6 : w ^ (e.toNat + 1) ≤ tick * w ^ (e.toNat + 1) := by
    have := Int.mul_le_mul_of_nonneg_right ht h5
    rwa [Int.one_mul] at this
  omega

/-- C28. For a wheel with tick `>= 1` and wheel size `>= 2` whose levels are
sound (64-bit arithmetic exact, current times between 0 and `C`), some level
`K` has an interval `tick * wheelSize^(K+1)` above the expiration of the timer;
and when that interval added to `C` does not overflow 64 bits, the recursion of
`add` through the overflow wheels, created where there is none, returns within
`K + 1` calls, the timer being reported expired or placed in a bucket. -/
theorem add_terminates (truncate : Int → Int → Int)
    (htr : ∀ x m, 0 ≤ x → 1 ≤ m → 0 ≤ truncate x m ∧ truncate x m ≤ x)
    (tw : TimingWheel) (over : List TimingWheel) (q : DelayQueue) (t : Timer) (C : Int)
    (hw : 2 ≤ tw.wheelSize) (hall : ∀ l ∈ tw :: over, l.Sound ∧ l.currentTime ≤ C)
    (hch : Chained (tw :: over)) :
    (∃ K : Nat, t.expiration < tw.tick * tw.wheelSize ^ (K + 1)) ∧
    ∀ K : Nat, t.expiration < tw.tick * tw.wheelSize ^ (K + 1) →
      C + tw.tick * tw.wheelSize ^ (K + 1) ≤ MaxInt64 →
      ∃ ws1 q1 placed, add truncate (K + 1) (tw :: over) q t = some (ws1, q1, placed) :=
  ⟨level_exists tw.tick tw.wheelSize t.expiration (hall tw (List.mem_cons_self _ _)).1.1 hw,
    fun K he hover =>
      add_total truncate htr q t C K tw over (by omega) hall hch he hover⟩

theorem add_terminates_witness :
    ∃ ws1 q1 placed,
      add roundDown (3 + 1) [smallWheel] { items := [] } { expiration := 100, id := 0 } =
        some (ws1, q1, placed) :=
  (add_terminates roundDown roundDown_bounds smallWheel [] { items := [] }
    { expiration := 100, id := 0 } 10 (by decide)
    (fun l hl => by
      rw [List.mem_singleton] at hl
      rw [hl]
      exact ⟨smallWheel_sound, by decide⟩)
    trivial).2 3 (by decide) (by decide)

end timingwheel

namespace timingwheel

/-! ## The chain of overflow wheels -/

theorem New_chained (truncate : Int → Int → Int) (tick : Duration) (wheelSize startMs : Int)
    (pool : Option String) (ws : List TimingWheel) (q : DelayQueue)
    (h : New truncate tick wheelSize startMs pool = .ok (ws, q)) : Chained ws := by
  unfold New at h
  simp only at h
  split at h
  · cases h
  · split at h
    · cases h
    · split at h
      · cases h
      · cases h
        trivial

/-- The wheels `add` returns are the wheels it was given, with their tick,
interval and wheel size, followed by the overflow wheels it created, each with
the interval of the wheel before it as tick. -/
theorem add_keeps_chain (truncate : Int → Int → Int) (q : DelayQueue) (t : Timer) :
    ∀ (fuel : Nat) (tw : TimingWheel) (over ws1 : List TimingWheel) (q1 : DelayQueue)
      (r : Bool), Chained (tw :: over) →
      add truncate fuel (tw :: over) q t = some (ws1, q1, r) →
      ∃ tw1 over1, ws1 = tw1 :: over1 ∧ tw1.tick = tw.tick ∧ tw1.interval = tw.interval ∧
        tw1.wheelSize = tw.wheelSize ∧ Chained ws1 := by
  intro fuel
  induction fuel with
  | zero => intro tw over ws1 q1 r _ h; simp [add] at h
  | succ fuel ih =>
    intro tw over ws1 q1 r hch h
    simp only [add] at h
    split at h
    · cases h
      exact ⟨tw, over, rfl, rfl, rfl, rfl, hch⟩
    · split at h
      · split at h
        · cases h
        · split at h
          · cases h
          · split at h
            · cases h
            · cases h
              refine ⟨_, over, rfl, rfl, rfl, rfl, ?_⟩
              cases over with
              | nil => trivial
              | cons o rest => exact ⟨hch.1, hch.2.1, hch.2.2⟩
      · split at h
        · cases h
        · rename_i o ho
          split at h
          · cases h
          · rename_i res o1 q2 r2 hrec
            cases h
            have hhead : ∃ a rest, o = a :: rest ∧ a.tick = tw.interval ∧
                a.wheelSize = tw.wheelSize ∧ Chained o := by
              cases over with
              | nil =>
                simp only at ho
                split at ho
                · cases ho
                · rename_i a ha
                  cases ho
                  unfold newTimingWheel at ha
                  split at ha
                  · cases ha
                  · cases ha
                    exact ⟨_, [], rfl, rfl, rfl, trivial⟩
              | cons a rest =>
                simp only [Option.some.injEq] at ho
                subst ho
                exact ⟨a, rest, rfl, hch.1, hch.2.1, hch.2.2⟩
            obtain ⟨a, rest, e, hat, haw, hco⟩ := hhead
            subst e
            obtain ⟨a1, over1, e1, h1, h2, h3, h4⟩ := ih a rest _ _ _ hco hrec
            subst e1
            exact ⟨tw, a1 :: over1, rfl, rfl, rfl, rfl, by rw [h1]; exact hat,
              by rw [h3]; exact haw, h4⟩

end timingwheel
